import Mathlib

/-!
Verification of the EasyWorship-to-ProPresenter lyric pipeline.

This file contains a shallow embedding, in Lean 4, of the text-processing
core of the `ewexport` repository: the RTF parser's Unicode recovery
(`src/processing/rtf_parser.py`), the text cleaner
(`src/processing/text_cleaner.py`), the section detector
(`src/processing/section_detector.py`) and the ProPresenter 6 exporter
(`src/export/propresenter.py`).  Python strings are modelled as `List Char`
(or `List Nat` of code points where lone surrogates may arise), Python
regular-expression substitutions are modelled as explicit left-to-right
scanners with the same matching semantics, and the file system is modelled
as an association list from paths to file contents.

Definitions are translated from the Python source.  The two external
library routines the pipeline calls (`striprtf.rtf_to_text` and
`xml.dom.minidom` pretty-printing) are not part of the repository; where a
claim depends on them they are either treated as an opaque parameter or
modelled from the specification, as noted in the corresponding doc strings.
-/

set_option autoImplicit false
set_option maxHeartbeats 2000000
set_option maxRecDepth 100000

/-- Python strings, modelled as lists of characters. -/
abbrev Str := List Char

/-- Convert a Lean string literal to the `Str` representation. -/
def S (s : String) : Str := s.toList

/-- Whitespace recognised by Python's `str.strip`/`str.rstrip` and by the
regex class `\s` (restricted to the whitespace characters that occur in
this code base's data: ASCII whitespace, NEL, NBSP and the Unicode
line/paragraph separators). -/
def pyIsSpace (c : Char) : Bool :=
  c = ' ' || c = '\t' || c = '\n' || c = '\x0d' || c = '\x0b' || c = '\x0c' ||
  c = '\x85' || c = '\xa0' || c = '\u2028' || c = '\u2029'

def isAsciiDigit (c : Char) : Bool := 48 ≤ c.toNat && c.toNat ≤ 57

def isAsciiLower (c : Char) : Bool := 97 ≤ c.toNat && c.toNat ≤ 122

def isAsciiUpper (c : Char) : Bool := 65 ≤ c.toNat && c.toNat ≤ 90

def isAsciiLetter (c : Char) : Bool := isAsciiLower c || isAsciiUpper c

/-- Letters cased by this program's data: ASCII plus the Swedish å/ä/ö. -/
def isLetterExt (c : Char) : Bool :=
  isAsciiLetter c || c = 'å' || c = 'ä' || c = 'ö' || c = 'Å' || c = 'Ä' || c = 'Ö'

/-- Python `str.lower`, restricted to the characters this program handles
(ASCII letters and Å/Ä/Ö). -/
def pyToLower (c : Char) : Char :=
  if isAsciiUpper c then Char.ofNat (c.toNat + 32)
  else if c = 'Å' then 'å' else if c = 'Ä' then 'ä' else if c = 'Ö' then 'ö' else c

/-- Python `str.upper`, restricted to the characters this program handles. -/
def pyToUpper (c : Char) : Char :=
  if isAsciiLower c then Char.ofNat (c.toNat - 32)
  else if c = 'å' then 'Å' else if c = 'ä' then 'Ä' else if c = 'ö' then 'Ö' else c

/-- Python `str.islower` on a single character, restricted as above. -/
def pyIsLower (c : Char) : Bool := isAsciiLower c || c = 'å' || c = 'ä' || c = 'ö'

def lowerStr (s : Str) : Str := s.map pyToLower

/-- Embedding of `hasPrefixL p s` holds when `p` is an initial segment of `s`. -/
def hasPrefixL : Str → Str → Bool
  | [], _ => true
  | _ :: _, [] => false
  | p :: ps, c :: cs => p = c && hasPrefixL ps cs

def dropWhileEndP {α : Type} (p : α → Bool) (l : List α) : List α :=
  (l.reverse.dropWhile p).reverse

/-- Python `str.strip()` (no arguments). -/
def pyStrip (s : Str) : Str := dropWhileEndP pyIsSpace (s.dropWhile pyIsSpace)

/-- Python `str.rstrip()`. -/
def pyRStrip (s : Str) : Str := dropWhileEndP pyIsSpace s

/-- Python `str.strip(chars)` for an explicit character set. -/
def pyStripChars (cs : Str) (s : Str) : Str :=
  dropWhileEndP (fun c => cs.contains c) (s.dropWhile (fun c => cs.contains c))

/-- Generic left-to-right substitution scanner, the evaluation model of
`re.sub` used throughout this file.  At each position the `step` function
either matches (returning replacement output and a positive consumed
length) or the scanner emits one element and advances.  The recursion is
driven by fuel (initially the input length) so that the definition is
structurally recursive and hence kernel-evaluable. -/
def scanPAux {α : Type} (step : List α → Option (List α × Nat)) :
    Nat → List α → List α
  | 0, s => s
  | _ + 1, [] => []
  | fuel + 1, c :: t =>
    match step (c :: t) with
    | some (out, k) => out ++ scanPAux step fuel ((c :: t).drop k)
    | none => c :: scanPAux step fuel t

def scanP {α : Type} (step : List α → Option (List α × Nat)) (s : List α) : List α :=
  scanPAux step s.length s

/-- Stateful variant of `scanP` (used for the `re.MULTILINE` anchored
substitution, whose state is the at-line-start flag). -/
def scanStAux {α σ : Type} (step : σ → List α → Option (List α × Nat × σ))
    (upd : σ → α → σ) : Nat → σ → List α → List α
  | 0, _, s => s
  | _ + 1, _, [] => []
  | fuel + 1, st, c :: t =>
    match step st (c :: t) with
    | some (out, k, st') => out ++ scanStAux step upd fuel st' ((c :: t).drop k)
    | none => c :: scanStAux step upd fuel (upd st c) t

def scanSt {α σ : Type} (step : σ → List α → Option (List α × Nat × σ))
    (upd : σ → α → σ) (st : σ) (s : List α) : List α :=
  scanStAux step upd s.length st s

/-- Python `str.replace(pat, rep)`: non-overlapping left-to-right
replacement.  (Python's `replace` with an empty pattern never occurs in the
source; it is modelled as the identity.) -/
def replaceStep {α : Type} [DecidableEq α] (pat rep : List α) (s : List α) :
    Option (List α × Nat) :=
  if pat ≠ [] ∧ pat.isPrefixOf s then some (rep, pat.length) else none

def listReplace {α : Type} [DecidableEq α] (pat rep : List α) : List α → List α :=
  scanP (replaceStep pat rep)

/-- The regex substitution `re.sub(x{3,}, xx)` (used with `x` a newline):
every run of three or more copies of `x` is replaced by exactly two. -/
def run3Step {α : Type} [DecidableEq α] (x : α) (s : List α) : Option (List α × Nat) :=
  match s with
  | c :: t =>
    if c = x ∧ (t.takeWhile (fun d => d = x)).length ≥ 2 then
      some ([x, x], 1 + (t.takeWhile (fun d => d = x)).length)
    else none
  | [] => none

def collapseRun3 {α : Type} [DecidableEq α] (x : α) : List α → List α :=
  scanP (run3Step x)

/-- Decimal representation of a natural number (digit characters);
the first argument is fuel (`n` itself is always enough). -/
def natReprAux : Nat → Nat → Str → Str
  | 0, _, acc => acc
  | fuel + 1, n, acc =>
    if n = 0 then acc
    else natReprAux fuel (n / 10) (Char.ofNat (48 + n % 10) :: acc)

def natRepr (n : Nat) : Str := if n = 0 then ['0'] else natReprAux n n []

/-! ### RTF parser (`src/processing/rtf_parser.py`)

The parser's strings can contain lone UTF-16 surrogates (Python's `chr`
accepts them, Lean's `Char` does not), so this module models strings as
lists of Unicode code points (`List Nat`). -/

/-- Strings of the RTF parsing stage: lists of Unicode code points. -/
abbrev CodeStr := List Nat

def codesOf (s : String) : CodeStr := s.toList.map Char.toNat

def isDigitCode (n : Nat) : Bool := 48 ≤ n && n ≤ 57

def isLowerCode (n : Nat) : Bool := 97 ≤ n && n ≤ 122

/-- Code-point analogue of `pyIsSpace`. -/
def pySpaceCode (n : Nat) : Bool :=
  n = 32 || n = 9 || n = 10 || n = 13 || n = 11 || n = 12 ||
  n = 133 || n = 160 || n = 8232 || n = 8233

/-- Embedding of `EasyWorshipRTFParser.UNICODE_MAPPINGS`: the fixed override table from
escape code to replacement character (given by its code point). -/
def UNICODE_MAPPINGS : List (Int × Nat) :=
  [(228, 228),   -- ä
   (229, 229),   -- å
   (246, 246),   -- ö
   (180, 180),   -- ´
   (8217, 39),   -- right single quotation mark mapped to '
   (8220, 34),   -- left double quotation mark mapped to "
   (8221, 34),   -- right double quotation mark mapped to "
   (8211, 8211), -- en dash
   (8212, 8212)] -- em dash

/-- Numeric value of a list of ASCII digit code points. -/
def digitsVal (ds : CodeStr) : Nat := ds.foldl (fun a d => a * 10 + (d - 48)) 0

/-- The replacement performed by `unicode_replace` inside
`_fix_unicode_characters`: override table first, two's-complement
correction for negative codes, and `chr` (falling back to the matched text
when `chr` would raise). -/
def unicodeReplacement (code : Int) (matched : CodeStr) : CodeStr :=
  match UNICODE_MAPPINGS.lookup code with
  | some c => [c]
  | none =>
    let adj : Int := if code < 0 then 65536 + code else code
    if 0 ≤ adj ∧ adj ≤ 1114111 then [adj.toNat] else matched

/-- One match attempt of `\\u(-?\d+)\??` at the head of `s` (code 92 is
the backslash, 117 is `u`, 45 is `-`, 63 is `?`): the replacement and the
consumed length. -/
def matchUnicodeEscape (s : CodeStr) : Option (CodeStr × Nat) :=
  match s with
  | 92 :: 117 :: r =>
    let k1 : Nat := if r.head? = some 45 then 1 else 0
    let ds := (r.drop k1).takeWhile isDigitCode
    if ds = [] then none
    else
      let r2 := r.drop (k1 + ds.length)
      let k3 : Nat := if r2.head? = some 63 then 1 else 0
      let code : Int := if k1 = 1 then -(digitsVal ds : Int) else (digitsVal ds : Int)
      let matched : CodeStr :=
        92 :: 117 :: ((if k1 = 1 then [45] else []) ++ ds ++ (if k3 = 1 then [63] else []))
      some (unicodeReplacement code matched, 2 + k1 + ds.length + k3)
  | _ => none

/-- Embedding of `EasyWorshipRTFParser._fix_unicode_characters`: the substitution
`re.sub(r'\\u(-?\d+)\??', unicode_replace, text)` as a left-to-right
scanner. -/
def fixUnicodeCharacters : CodeStr → CodeStr := scanP matchUnicodeEscape

/-- The substitution `re.sub(r'\\[a-z]+\d*', '', text)` from
`EasyWorshipRTFParser._clean_text`. -/
def rtfArtifactStep (s : CodeStr) : Option (CodeStr × Nat) :=
  match s with
  | 92 :: r =>
    let ls := r.takeWhile isLowerCode
    if ls = [] then none
    else some ([], 1 + ls.length + ((r.drop ls.length).takeWhile isDigitCode).length)
  | _ => none

def removeRtfArtifactsCode : CodeStr → CodeStr := scanP rtfArtifactStep

def stripCode (s : CodeStr) : CodeStr := dropWhileEndP pySpaceCode (s.dropWhile pySpaceCode)

def rstripCode (s : CodeStr) : CodeStr := dropWhileEndP pySpaceCode s

/-- Embedding of `EasyWorshipRTFParser._clean_text`. -/
def rtfCleanText (s : CodeStr) : CodeStr :=
  let s1 := removeRtfArtifactsCode s
  let s2 := listReplace [13, 10] [10] s1
  let s3 := listReplace [13] [10] s2
  let s4 := collapseRun3 10 s3
  let s5 := List.intercalate [10] ((s4.splitOn 10).map rstripCode)
  stripCode s5

/-- The dictionary returned by `EasyWorshipRTFParser.parse`. -/
structure ParsedText where
  plain_text : CodeStr
  lines : List CodeStr
  has_content : Bool
deriving DecidableEq

/-- The pure tail of `EasyWorshipRTFParser.parse`, taking the output of the
external `striprtf` stage (`_basic_rtf_parse`) as its input: Unicode
recovery, cleanup and line extraction. -/
def parsePostBasic (basicText : CodeStr) : ParsedText :=
  let pt := rtfCleanText (fixUnicodeCharacters basicText)
  { plain_text := pt
    lines := (pt.splitOn 10).map rstripCode
    has_content := decide (stripCode pt ≠ []) }

/-! ### Text cleaner (`src/processing/text_cleaner.py`) -/

/-- The substitution `re.sub(r'\\[a-z]+\d*', '', text)` (first
`RTF_ARTIFACTS` pattern of `TextCleaner._remove_rtf_artifacts`). -/
def controlWordStep (s : Str) : Option (Str × Nat) :=
  match s with
  | '\\' :: r =>
    let ls := r.takeWhile isAsciiLower
    if ls = [] then none
    else some ([], 1 + ls.length + ((r.drop ls.length).takeWhile isAsciiDigit).length)
  | _ => none

def removeControlWords : Str → Str := scanP controlWordStep

/-- The substitution removing brace groups, `re.sub(r'\{[^\}]*\}', '', text)`
(second `RTF_ARTIFACTS` pattern): from a literal `{`, the lazy body runs to
the first `}`. -/
def braceGroupStep (s : Str) : Option (Str × Nat) :=
  match s with
  | '\x7b' :: t =>
    let body := t.takeWhile (fun c => c ≠ '\x7d')
    if (t.drop body.length).head? = some '\x7d' then some ([], 1 + body.length + 1)
    else none
  | _ => none

def removeBraceGroups : Str → Str := scanP braceGroupStep

def isHexLower (c : Char) : Bool := isAsciiDigit c || ('a' ≤ c && c ≤ 'f')

/-- The substitution `re.sub(r"\\\'[0-9a-f]{2}", '', text)` (third
`RTF_ARTIFACTS` pattern: backslash, apostrophe, two lowercase hex digits). -/
def hexEscapeStep (s : Str) : Option (Str × Nat) :=
  match s with
  | '\\' :: '\'' :: a :: b :: _ =>
    if isHexLower a ∧ isHexLower b then some ([], 4) else none
  | _ => none

def removeHexEscapes : Str → Str := scanP hexEscapeStep

/-- Embedding of `TextCleaner._remove_rtf_artifacts`. -/
def removeRtfArtifacts (text : Str) : Str :=
  let t := removeHexEscapes (removeBraceGroups (removeControlWords text))
  let t := listReplace ['\\', '\x7b'] ['\x7b'] t
  let t := listReplace ['\\', '\x7d'] ['\x7d'] t
  listReplace ['\\', '\\'] ['\\'] t

/-- Embedding of `TextCleaner._replace_unwanted_chars`: the `UNWANTED_CHARS` table in
dictionary order, then removal of control characters other than newline and
tab. -/
def replaceUnwantedChars (text : Str) : Str :=
  let t := listReplace ['\x00'] [] text
  let t := listReplace ['\x0b'] ['\n'] t
  let t := listReplace ['\x0c'] ['\n'] t
  let t := listReplace ['\xa0'] [' '] t
  let t := listReplace ['\u2028'] ['\n'] t
  let t := listReplace ['\u2029'] ['\n', '\n'] t
  t.filter (fun c => 32 ≤ c.toNat || c = '\n' || c = '\t')

/-- The substitution `re.sub(r' {2,}', ' ', text)`: runs of two or more
plain spaces collapse to one. -/
def spaces2Step (s : Str) : Option (Str × Nat) :=
  match s with
  | ' ' :: t =>
    if t.head? = some ' ' then some ([' '], 1 + (t.takeWhile (fun c => c = ' ')).length)
    else none
  | _ => none

def collapseSpaces2 : Str → Str := scanP spaces2Step

/-- Embedding of `TextCleaner._normalize_whitespace`. -/
def normalizeWhitespace (text : Str) : Str :=
  collapseSpaces2 (listReplace ['\t'] [' ', ' '] text)

/-- Embedding of `TextCleaner._fix_line_breaks`. -/
def fixLineBreaks (text : Str) : Str :=
  let t := listReplace ['\x0d', '\n'] ['\n'] text
  let t := listReplace ['\x0d'] ['\n'] t
  let t := collapseRun3 '\n' t
  List.intercalate ['\n'] ((t.splitOn '\n').map pyRStrip)

/-- Embedding of `TextCleaner._clean_punctuation`. -/
def cleanPunctuation (text : Str) : Str :=
  let t := listReplace ['\u201c'] ['"'] text
  let t := listReplace ['\u201d'] ['"'] t
  let t := listReplace ['\u2018'] ['\''] t
  let t := listReplace ['\u2019'] ['\''] t
  let t := listReplace ['\u2013'] ['-'] t
  let t := listReplace ['\u2014'] ['-'] t
  listReplace ['\u2026'] ['.', '.', '.'] t

/-- Embedding of `TextCleaner.clean`: the base cleaning pipeline. -/
def textCleanerClean (text : Str) : Str :=
  if text = [] then []
  else
    let t := removeRtfArtifacts text
    let t := replaceUnwantedChars t
    let t := normalizeWhitespace t
    let t := fixLineBreaks t
    let t := cleanPunctuation t
    pyStrip t

/-! Chord notation removal (`SongTextCleaner._remove_chord_notations`).

The chord regex `\[?[A-G][#b]?(?:maj|min|m|dim|aug|sus|add)?[0-9]*\]?` is
modelled by enumerating the candidate consumed lengths in the backtracking
preference order of the Python `re` engine (greedy/optional components try
the longer alternative first, alternations in written order). -/

def chordGroups : List Str := [S "maj", S "min", S "m", S "dim", S "aug", S "sus", S "add"]

/-- Candidate lengths for an optional alternation `(p₁|p₂|…)?` at the start
of `s`, longest-preference order as the `re` engine tries them. -/
def prefixOptCands (pats : List Str) (s : Str) : List Nat :=
  (pats.filterMap (fun p => if hasPrefixL p s then some p.length else none)) ++ [0]

/-- Candidate lengths for `[0-9]*` at the start of `s` (greedy: longest
first, down to zero). -/
def digitsCands (s : Str) : List Nat :=
  (List.range ((s.takeWhile isAsciiDigit).length + 1)).reverse

/-- Candidate consumed lengths of the chord core regex at the start of `s`,
in backtracking preference order. -/
def chordCoreCands (s : Str) : List Nat :=
  (prefixOptCands [['[']] s).flatMap fun a =>
    let s1 := s.drop a
    match s1.head? with
    | some c =>
      if 65 ≤ c.toNat ∧ c.toNat ≤ 71 then
        (prefixOptCands [['#'], ['b']] (s1.drop 1)).flatMap fun b =>
          let s2 := s1.drop (1 + b)
          (prefixOptCands chordGroups s2).flatMap fun g =>
            let s3 := s2.drop g
            (digitsCands s3).flatMap fun d =>
              let s4 := s3.drop d
              (prefixOptCands [[']']] s4).map fun e => a + 1 + b + g + d + e
      else []
    | none => []

/-- Embedding of `re.sub(r'\[' + chord_pattern + r'\]', '', text)` (and the analogous
parenthesised substitution): chords in enclosing brackets. -/
def bracketChordStep (close openC : Char) (s : Str) : Option (Str × Nat) :=
  match s with
  | c :: t =>
    if c = openC then
      ((chordCoreCands t).find? (fun k => (t.drop k).head? = some close)).map
        (fun k => ([], 1 + k + 1))
    else none
  | [] => none

def removeBracketedChords (close : Char) (openC : Char) : Str → Str :=
  scanP (bracketChordStep close openC)

/-- One standalone-chord match attempt at a line start for
`re.sub('^' + chord_pattern + r'\s+', '', text, flags=re.MULTILINE)`:
returns the consumed length (chord core plus the greedy whitespace run). -/
def chordLineMatch (s : Str) : Option Nat :=
  ((chordCoreCands s).find? (fun k => ((s.drop k).takeWhile pyIsSpace).length ≥ 1)).map
    (fun k => k + ((s.drop k).takeWhile pyIsSpace).length)

/-- Scanner for the standalone-chord substitution; the Boolean state
records whether the current position is a line start (`^` with
`re.MULTILINE`). -/
def lineChordStep (atStart : Bool) (s : Str) : Option (Str × Nat × Bool) :=
  if atStart then
    (chordLineMatch s).map (fun n => ([], n, decide ((s.take n).getLast? = some '\n')))
  else none

def removeLineStartChords : Str → Str :=
  scanSt lineChordStep (fun _ c => decide (c = '\n')) true

/-- Embedding of `SongTextCleaner._remove_chord_notations`. -/
def removeChordNotations (text : Str) : Str :=
  let t := removeBracketedChords ']' '[' text
  let t := removeBracketedChords ')' '(' t
  removeLineStartChords t

/-- One repetition-marker pattern of the form `open x\d+ close` or
`open \d+x close` (`(x2)`, `(2x)`, `[x2]`, `[2x]`), case-insensitive:
returns the consumed length at the start of `s`. -/
def repMarkerMatch (openC close : Char) (xFirst : Bool) (s : Str) : Option Nat :=
  match s with
  | c :: t =>
    if c = openC then
      if xFirst then
        match t with
        | x :: t2 =>
          if (x = 'x' ∨ x = 'X') then
            let ds := t2.takeWhile isAsciiDigit
            if ds ≠ [] ∧ (t2.drop ds.length).head? = some close then
              some (2 + ds.length + 1)
            else none
          else none
        | [] => none
      else
        let ds := t.takeWhile isAsciiDigit
        if ds ≠ [] then
          match t.drop ds.length with
          | x :: t2 =>
            if (x = 'x' ∨ x = 'X') ∧ t2.head? = some close then
              some (1 + ds.length + 2)
            else none
          | [] => none
        else none
    else none
  | [] => none

/-- Scanner applying one bracketed repetition-marker substitution. -/
def repMarkerStep (openC close : Char) (xFirst : Bool) (s : Str) : Option (Str × Nat) :=
  (repMarkerMatch openC close xFirst s).map (fun n => ([], n))

def removeRepMarker (openC close : Char) (xFirst : Bool) : Str → Str :=
  scanP (repMarkerStep openC close xFirst)

/-- The substitution `re.sub(r'x\d+$', '', text, flags=MULTILINE|IGNORECASE)`:
`x` (or `X`) followed by digits at end of line or end of text. -/
def xRepStep (s : Str) : Option (Str × Nat) :=
  match s with
  | c :: t =>
    if (c = 'x' ∨ c = 'X') then
      let ds := t.takeWhile isAsciiDigit
      if ds ≠ [] ∧ ((t.drop ds.length).head? = none ∨ (t.drop ds.length).head? = some '\n') then
        some ([], 1 + ds.length)
      else none
    else none
  | [] => none

def removeTrailingXRep : Str → Str := scanP xRepStep

/-- Embedding of `SongTextCleaner._clean_repetition_markers` (five substitutions in
source order). -/
def cleanRepetitionMarkers (text : Str) : Str :=
  let t := removeRepMarker '(' ')' true text
  let t := removeRepMarker '(' ')' false t
  let t := removeRepMarker '[' ']' true t
  let t := removeRepMarker '[' ']' false t
  removeTrailingXRep t

/-- Letter class of `re.sub(r'([.!?])([A-ZÅÄÖa-zåäö])', r'\1 \2', text)`. -/
def isPunctLetter (c : Char) : Bool := isAsciiLetter c || c = 'å' || c = 'ä' || c = 'ö' || c = 'Å' || c = 'Ä' || c = 'Ö'

/-- The substitution inserting a space after sentence punctuation. -/
def punctSpaceStep (s : Str) : Option (Str × Nat) :=
  match s with
  | c :: d :: _ =>
    if (c = '.' ∨ c = '!' ∨ c = '?') ∧ isPunctLetter d then some ([c, ' ', d], 2)
    else none
  | _ => none

def spaceAfterPunct : Str → Str := scanP punctSpaceStep

/-- The substitution `re.sub(r'\(\s+', '(', text)`. -/
def openParenStep (s : Str) : Option (Str × Nat) :=
  match s with
  | '(' :: t =>
    if (t.takeWhile pyIsSpace) = [] then none
    else some (['('], 1 + (t.takeWhile pyIsSpace).length)
  | _ => none

def trimAfterOpenParen : Str → Str := scanP openParenStep

/-- The substitution `re.sub(r'\s+\)', ')', text)`. -/
def closeParenStep (s : Str) : Option (Str × Nat) :=
  match s with
  | c :: t =>
    if pyIsSpace c ∧ (t.drop (t.takeWhile pyIsSpace).length).head? = some ')' then
      some ([')'], 1 + (t.takeWhile pyIsSpace).length + 1)
    else none
  | [] => none

def trimBeforeCloseParen : Str → Str := scanP closeParenStep

/-- Per-line capitalisation from `SongTextCleaner._fix_song_formatting`:
if the line has non-blank content and its first non-whitespace character is
lowercase, that character is uppercased in place. -/
def capLine (line : Str) : Str :=
  let pre := line.takeWhile pyIsSpace
  match line.dropWhile pyIsSpace with
  | [] => line
  | c :: t => if pyIsLower c then pre ++ pyToUpper c :: t else line

/-- Embedding of `SongTextCleaner._fix_song_formatting`. -/
def fixSongFormatting (text : Str) : Str :=
  let t := spaceAfterPunct text
  let t := trimAfterOpenParen t
  let t := trimBeforeCloseParen t
  List.intercalate ['\n'] ((t.splitOn '\n').map capLine)

/-- Embedding of `SongTextCleaner.clean`. -/
def songTextCleanerClean (removeChords : Bool) (text : Str) : Str :=
  let t := textCleanerClean text
  let t := if removeChords then removeChordNotations t else t
  let t := cleanRepetitionMarkers t
  fixSongFormatting t

/-- The module-level convenience function `clean_text`. -/
def cleanText (forSong removeChords : Bool) (text : Str) : Str :=
  if forSong then songTextCleanerClean removeChords text else textCleanerClean text

/-! ### Section detector (`src/processing/section_detector.py`)

The detector's mapping table is injected as an association list (the
Python class loads it from `config/section_mappings.json`; that file is not
part of the repository, so the constructor falls back to the hardcoded
default table embedded below).  The default number-formatting rules are
`preserve_numbers = True` with format template `"{section_name} {number}"`,
modelled directly in `normalizeSectionType`. -/

/-- The hardcoded fallback `section_mappings` table, in source order. -/
def sectionMappings : List (Str × Str) :=
  [(S "vers", S "Verse"), (S "verse", S "Verse"),
   (S "refräng", S "Chorus"), (S "chorus", S "Chorus"),
   (S "brygga", S "Bridge"), (S "bridge", S "Bridge"),
   (S "förrefräng", S "Pre-Chorus"), (S "pre-chorus", S "Pre-Chorus"),
   (S "intro", S "Intro"), (S "outro", S "Outro"), (S "slut", S "Outro"),
   (S "tag", S "Tag"), (S "ending", S "Ending")]

/-- Embedding of `self.section_markers = list(self.section_mappings.keys())`. -/
def sectionMarkers (maps : List (Str × Str)) : List Str := maps.map (fun p => p.1)

/-- Python `dict.get` on the mapping table. -/
def lookupStr (maps : List (Str × Str)) (k : Str) : Option Str :=
  (maps.find? (fun p => p.1 = k)).map (fun p => p.2)

/-- Python `str.title()`, restricted to the letters this program handles:
a letter starting a new word is uppercased, other letters lowercased. -/
def titleCaseAux : Bool → Str → Str
  | _, [] => []
  | prevAlpha, c :: t =>
    let isA := isLetterExt c
    (if isA ∧ ¬prevAlpha then pyToUpper c else if isA then pyToLower c else c) ::
      titleCaseAux isA t

def titleCase (s : Str) : Str := titleCaseAux false s

/-- Embedding of `SectionDetector._normalize_section_type` (with the default number
rules: `preserve_numbers` true, format `section_name`, space, `number`). -/
def normalizeSectionType (maps : List (Str × Str)) (sectionType : Str)
    (number : Option Str) : Str :=
  let key := pyStrip (lowerStr sectionType)
  let english := (lookupStr maps key).getD (titleCase sectionType)
  match number with
  | some n => if n = [] then english else english ++ ' ' :: n
  | none => english

/-- The numbered-section pattern `^(key₁|key₂|…)\s*(\d+)?$` compiled by
`_create_numbered_pattern`, matched against the cleaned line: alternatives
are tried in marker order; an alternative succeeds when the rest of the
line is optional whitespace then an optional digit run then end of line. -/
def numberedMatch : List Str → Str → Option (Str × Option Str)
  | [], _ => none
  | m :: ms, line =>
    if hasPrefixL m line then
      let r := (line.drop m.length).dropWhile pyIsSpace
      let ds := r.takeWhile isAsciiDigit
      if r.drop ds.length = [] then
        some (m, if ds = [] then none else some ds)
      else
        numberedMatch ms line
    else
      numberedMatch ms line

/-- The `startswith` fallback loop at the end of
`_identify_section_marker`: marker followed by a space and an optional
number, or marker followed by a colon. -/
def startsWithMarkerLoop (maps : List (Str × Str)) : List Str → Str → Option Str
  | [], _ => none
  | m :: ms, line =>
    if hasPrefixL (m ++ [' ']) line then
      let r := pyStrip (line.drop (m.length + 1))
      if r ≠ [] ∧ r.all isAsciiDigit then some (normalizeSectionType maps m (some r))
      else if r = [] then some (normalizeSectionType maps m none)
      else startsWithMarkerLoop maps ms line
    else if hasPrefixL (m ++ [':']) line then
      let r := pyStrip (line.drop (m.length + 1))
      if r ≠ [] ∧ r.all isAsciiDigit then some (normalizeSectionType maps m (some r))
      else some (normalizeSectionType maps m none)
    else startsWithMarkerLoop maps ms line

/-- Embedding of `SectionDetector._identify_section_marker`. -/
def identifySectionMarker (maps : List (Str × Str)) (line : Str) : Option Str :=
  let clean := lowerStr (pyStrip line)
  if clean = [] then none
  else
    match (sectionMarkers maps).find? (fun m => clean = lowerStr m) with
    | some m => some (normalizeSectionType maps m none)
    | none =>
      match numberedMatch (sectionMarkers maps) clean with
      | some (m, num) => some (normalizeSectionType maps (lowerStr m) num)
      | none => startsWithMarkerLoop maps (sectionMarkers maps) clean

/-- A detected song section. -/
structure Section where
  type : Str
  content : Str
deriving DecidableEq

/-- Python truthiness of the optional `current_section` string. -/
def optTruthy : Option Str → Bool
  | none => false
  | some s => s ≠ []

/-- Embedding of `SectionDetector._save_section`. -/
def saveSection (secs : List Section) (cur : Option Str) (buf : List Str) :
    List Section :=
  let content := pyStrip (List.intercalate ['\n'] buf)
  if content = [] then secs
  else
    let t := match cur with
      | none => S "verse"
      | some s => if s = [] then S "verse" else s
    secs ++ [⟨t, content⟩]

/-- The scanning loop of `SectionDetector.detect_sections`, carrying the
accumulated sections, the current section type and the content buffer. -/
def detectLoop (maps : List (Str × Str)) : List Str → List Section → Option Str →
    List Str → List Section
  | [], secs, cur, buf =>
    if optTruthy cur || buf ≠ [] then saveSection secs cur buf else secs
  | l :: ls, secs, cur, buf =>
    match identifySectionMarker maps l with
    | some t =>
      let secs' := if optTruthy cur || buf ≠ [] then saveSection secs cur buf else secs
      detectLoop maps ls secs' (some t) []
    | none => detectLoop maps ls secs cur (buf ++ [l])

/-- The dictionary returned by `SectionDetector.detect_sections`. -/
structure DetectResult where
  sections : List Section
  has_sections : Bool
  plain_text : Str
deriving DecidableEq

/-- Embedding of `SectionDetector.detect_sections`. -/
def detectSections (maps : List (Str × Str)) (text : Str) : DetectResult :=
  if text = [] then ⟨[], false, []⟩
  else
    let lines := text.splitOn '\n'
    let secs := detectLoop maps lines [] none []
    let secs := if secs = [] ∧ pyStrip text ≠ [] then [⟨S "verse", pyStrip text⟩] else secs
    let has : Bool :=
      match secs with
      | [] => false
      | [s] => decide (s.type ≠ S "verse")
      | _ :: _ :: _ => true
    ⟨secs, has, text⟩

/-! ### ProPresenter 6 exporter (`src/export/propresenter.py`) -/

/-- The configuration keys read by the exporter (`self.config.get(...)`),
as a record; `none` models an exporter constructed without a config. -/
structure Config where
  formattingEnabled : Bool
  changeFont : Bool
  fontFamily : Str
  fontSize : Nat
  maxLinesPerSlide : Nat
  autoBreakLongLines : Bool
  overwriteExisting : Bool
  includeCcliInFilename : Bool
  includeAuthorInFilename : Bool
deriving DecidableEq

/-- A song metadata record (`song_data` dictionary); absent fields are
modelled as empty strings. -/
structure SongData where
  title : Str
  author : Str
  copyright : Str
  administrator : Str
  reference_number : Str
  rowid : Str
deriving DecidableEq

def slideWidth : Nat := 1920
def slideHeight : Nat := 1080
def textPadding : Nat := 20

/-- Font family used by `create_rtf_data`/`create_winflow_data`:
configured family only when formatting is enabled and the change-font flag
is set, else the fixed default. -/
def cfgFontFamily : Option Config → Str
  | none => S "Arial"
  | some c => if c.formattingEnabled ∧ c.changeFont then c.fontFamily else S "Arial"

def cfgFontSize : Option Config → Nat
  | none => 72
  | some c => if c.formattingEnabled ∧ c.changeFont then c.fontSize else 72

def cfgMaxLines : Option Config → Nat
  | none => 4
  | some c => if c.formattingEnabled then c.maxLinesPerSlide else 4

def cfgAutoBreak : Option Config → Bool
  | none => true
  | some c => if c.formattingEnabled then c.autoBreakLongLines else true

def cfgOverwrite : Option Config → Bool
  | none => false
  | some c => c.overwriteExisting

/-- The reserved Windows filename characters of `sanitize_filename`. -/
def reservedChars : Str := ['<', '>', ':', '"', '/', '\\', '|', '?', '*']

/-- ASCII control characters removed by `sanitize_filename`
(`[\x00-\x1f\x7f]`). -/
def isCtrlChar (c : Char) : Bool := c.toNat ≤ 31 || c.toNat = 127

/-- The substitution `re.sub(r'\s+', ' ', filename)`. -/
def wsPlusStep (s : Str) : Option (Str × Nat) :=
  match s with
  | c :: t =>
    if pyIsSpace c then some ([' '], 1 + (t.takeWhile pyIsSpace).length) else none
  | [] => none

def collapseWsPlus : Str → Str := scanP wsPlusStep

/-- Embedding of `ProPresenter6Exporter.sanitize_filename`. -/
def sanitizeFilename (filename : Str) : Str :=
  let t := filename.filter (fun c => ¬ isCtrlChar c)
  let t := t.map (fun c => if reservedChars.contains c then '_' else c)
  let t := pyStripChars [' ', '.'] t
  let t := collapseWsPlus t
  let t := if t.length > 200 then pyStrip (t.take 200) else t
  if t = [] then S "Untitled_Song" else t

/-- Embedding of `ProPresenter6Exporter.get_group_color`. -/
def getGroupColor (sectionType : Str) : Str :=
  let k := lowerStr sectionType
  if k = S "verse" then S "0 0 1 1"
  else if k = S "chorus" then S "1 0.39 0.39 1"
  else if k = S "bridge" then S "0 0.5 1 1"
  else if k = S "pre-chorus" then S "0.5 0 1 1"
  else if k = S "intro" then S "0.5 0.5 0.5 1"
  else if k = S "outro" then S "0.5 0.5 0.5 1"
  else if k = S "ending" then S "0.5 0.5 0.5 1"
  else if k = S "tag" then S "1 0.5 0 1"
  else if k = S "interlude" then S "0 1 0.5 1"
  else S "0 0 0 1"

/-- Python `str.split()` with no argument: split on whitespace runs,
dropping empty pieces. -/
def pySplitWs (s : Str) : List Str :=
  (s.foldr
    (fun c acc =>
      if pyIsSpace c then [] :: acc else (c :: acc.headD []) :: acc.tail)
    [[]]).filter (fun w => w ≠ [])

/-- The legacy section-name map of `format_section_name`. -/
def legacySectionMap : List (Str × Str) :=
  [(S "verse", S "Verse"), (S "chorus", S "Chorus"), (S "refrain", S "Chorus"),
   (S "bridge", S "Bridge"), (S "pre-chorus", S "Pre-Chorus"),
   (S "intro", S "Intro"), (S "outro", S "Outro"), (S "ending", S "Outro"),
   (S "tag", S "Tag"), (S "interlude", S "Interlude")]

/-- Embedding of `ProPresenter6Exporter.format_section_name`. -/
def formatSectionName (sectionType : Str) : Str :=
  let lastIsDigits : Bool :=
    match (pySplitWs sectionType).getLast? with
    | some w => decide (w ≠ []) && w.all isAsciiDigit
    | none => false
  if sectionType.contains ' ' ∧ lastIsDigits then
    sectionType
  else
    (lookupStr legacySectionMap (lowerStr sectionType)).getD (titleCase sectionType)

/-- Fixed-size consecutive chunks (`range(0, len, max_lines)` slicing in
`split_content_into_slides`).  A zero chunk size would raise `ValueError`
in Python; it is modelled as producing no chunks. -/
def chunksOf {α : Type} (m : Nat) (l : List α) : List (List α) :=
  (List.range ((l.length + m - 1) / m)).map (fun i => (l.drop (i * m)).take m)

/-- The natural-slide accumulation loop of `split_content_into_slides`:
lines are stripped, blank lines close the current chunk. -/
def naturalSlides (lines : List Str) : List Str :=
  let step := fun (acc : List Str × List Str) (line : Str) =>
    let l := pyStrip line
    if l = [] then
      if acc.2 ≠ [] then (acc.1 ++ [List.intercalate ['\n'] acc.2], []) else acc
    else (acc.1, acc.2 ++ [l])
  let fin := lines.foldl step ([], [])
  if fin.2 ≠ [] then fin.1 ++ [List.intercalate ['\n'] fin.2] else fin.1

/-- Embedding of `ProPresenter6Exporter.split_content_into_slides`. -/
def splitContentIntoSlides (cfg : Option Config) (content : Str) : List Str :=
  let maxLines := cfgMaxLines cfg
  let autoBreak := cfgAutoBreak cfg
  let nats := naturalSlides (content.splitOn '\n')
  let slides := nats.flatMap (fun ns =>
    let slideLines := ns.splitOn '\n'
    if autoBreak ∧ slideLines.length > maxLines then
      (chunksOf maxLines slideLines).map (List.intercalate ['\n'])
    else [ns])
  if slides = [] ∧ pyStrip content ≠ [] then [pyStrip content] else slides

/-- The base64 alphabet. -/
def b64Char (n : Nat) : Char :=
  (S "ABCDEFGHIJKLMNOPQRSTUVWXYZabcdefghijklmnopqrstuvwxyz0123456789+/").getD n 'A'

/-- Standard base64 encoding of a byte sequence. -/
def b64encode : List Nat → Str
  | [] => []
  | [a] => [b64Char (a / 4), b64Char (a % 4 * 16), '=', '=']
  | [a, b] => [b64Char (a / 4), b64Char (a % 4 * 16 + b / 16), b64Char (b % 16 * 4), '=']
  | a :: b :: c :: rest =>
    [b64Char (a / 4), b64Char (a % 4 * 16 + b / 16), b64Char (b % 16 * 4 + c / 64),
     b64Char (c % 64)] ++ b64encode rest

/-- UTF-8 encoding of a single code point. -/
def utf8Char (n : Nat) : List Nat :=
  if n < 128 then [n]
  else if n < 2048 then [192 + n / 64, 128 + n % 64]
  else if n < 65536 then [224 + n / 4096, 128 + n / 64 % 64, 128 + n % 64]
  else [240 + n / 262144, 128 + n / 4096 % 64, 128 + n / 64 % 64, 128 + n % 64]

def utf8Encode (s : Str) : List Nat := s.flatMap (fun c => utf8Char c.toNat)

/-- Embedding of `ProPresenter6Exporter.encode_base64`: UTF-8 encode then base64. -/
def encodeBase64 (text : Str) : Str := b64encode (utf8Encode text)

/-- Python `str.encode('utf-16')`: little-endian UTF-16 with BOM
(the only string so encoded here is the fixed BMP-only `RVFont` XML). -/
def utf16Encode (s : Str) : List Nat :=
  255 :: 254 :: s.flatMap (fun c => [c.toNat % 256, c.toNat / 256])

/-- The RTF escaping at the top of `create_rtf_data`. -/
def rtfEscape (content : Str) : Str :=
  let t := listReplace ['\\'] ['\\', '\\'] content
  let t := listReplace ['\x7b'] ['\\', '\x7b'] t
  listReplace ['\x7d'] ['\\', '\x7d'] t

/-- Embedding of `ProPresenter6Exporter.create_rtf_data` (base64 of the generated RTF
stream; `\x7b`/`\x7d` denote the literal braces of the RTF markup). -/
def createRtfData (cfg : Option Config) (content : Str) : Str :=
  let content := rtfEscape content
  let fontFamily := cfgFontFamily cfg
  let rtfFontSize := cfgFontSize cfg * 2
  let lines := content.splitOn '\n'
  let header :=
    S "\x7b\\rtf1\\prortf1\\ansi\\ansicpg1252\\uc1\\htmautsp\\deff2" ++
    S "\x7b\\fonttbl\x7b\\f0\\fcharset0 Times New Roman;\x7d\x7b\\f2\\fcharset0 Georgia;\x7d\x7b\\f3\\fcharset0 " ++
    fontFamily ++
    S ";\x7d\x7b\\f4\\fcharset0 Impact;\x7d\x7d" ++
    S "\x7b\\colortbl;\\red0\\green0\\blue0;\\red255\\green255\\blue255;\x7d" ++
    S "\\loch\\hich\\dbch\\pard\\slleading0\\plain\\ltrpar\\itap0" ++
    S "\x7b\\lang1033\\fs" ++ natRepr rtfFontSize ++ S "\\f3\\cf1 \\cf1\\qc"
  let rtfLines := (lines.enum.map (fun p =>
    (if p.1 > 0 then S "\\par\x7d" else []) ++
    S "\x7b\\fs" ++ natRepr rtfFontSize ++ S "\\f3 \x7b\\cf2\\ltrch " ++ p.2 ++
    S "\x7d\\li0\\sa0\\sb0\\fi0\\qc")).flatten
  encodeBase64 (header ++ rtfLines ++ S "\x7d\x7d\x7d")

/-- The XML escaping applied per line in `create_winflow_data`
(sequential replaces, ampersand first). -/
def winflowEscapeLine (line : Str) : Str :=
  let t := listReplace ['&'] (S "&amp;") line
  let t := listReplace ['<'] (S "&lt;") t
  let t := listReplace ['>'] (S "&gt;") t
  let t := listReplace ['"'] (S "&quot;") t
  listReplace ['\''] (S "&apos;") t

/-- Embedding of `ProPresenter6Exporter.create_winflow_data`. -/
def createWinflowData (cfg : Option Config) (content : Str) : Str :=
  let fontFamily := cfgFontFamily cfg
  let fontSize := natRepr (cfgFontSize cfg)
  let paragraphs := (content.splitOn '\n').map (fun line =>
    S "<Paragraph Margin=\"0,0,0,0\" TextAlignment=\"Center\" FontFamily=\"" ++
    fontFamily ++ S "\" FontSize=\"" ++ fontSize ++ S "\">" ++
    S "<Run FontFamily=\"" ++ fontFamily ++
    S "\" FontStretch=\"Normal\" FontSize=\"" ++ fontSize ++
    S "\" Foreground=\"#FFFFFFFF\" Block.TextAlignment=\"Center\">" ++
    winflowEscapeLine line ++ S "</Run></Paragraph>")
  let winflow :=
    S "<FlowDocument TextAlignment=\"Center\" PagePadding=\"5,0,5,0\" AllowDrop=\"True\" " ++
    S "xmlns=\"http://schemas.microsoft.com/winfx/2006/xaml/presentation\">" ++
    paragraphs.flatten ++ S "</FlowDocument>"
  encodeBase64 winflow

/-- Embedding of `ProPresenter6Exporter.create_winfont_data` (a fixed string, encoded
UTF-16 then base64). -/
def createWinfontData : Str :=
  b64encode (utf16Encode (
    S "<?xml version=\"1.0\" encoding=\"utf-16\"?>" ++
    S "<RVFont xmlns:i=\"http://www.w3.org/2001/XMLSchema-instance\" " ++
    S "xmlns=\"http://schemas.datacontract.org/2004/07/ProPresenter.Common\">" ++
    S "<Kerning>0</Kerning><LineSpacing>0</LineSpacing>" ++
    S "<OutlineColor xmlns:d2p1=\"http://schemas.datacontract.org/2004/07/System.Windows.Media\">" ++
    S "<d2p1:A>255</d2p1:A><d2p1:B>0</d2p1:B><d2p1:G>0</d2p1:G><d2p1:R>0</d2p1:R>" ++
    S "<d2p1:ScA>1</d2p1:ScA><d2p1:ScB>0</d2p1:ScB><d2p1:ScG>0</d2p1:ScG><d2p1:ScR>0</d2p1:ScR>" ++
    S "</OutlineColor><OutlineWidth>0</OutlineWidth><Variants>Normal</Variants></RVFont>"))

/-! ### XML document model

`xml.etree.ElementTree` elements: a tag, attributes in insertion order, an
optional text and a list of children (tails are never set by this
exporter). -/

inductive XNode where
  | elem (tag : Str) (attrs : List (Str × Str)) (text : Option Str) (children : List XNode)

/-- Embedding of `ProPresenter6Exporter.create_text_element` (the guid is the generated
element UUID, modelled as a parameter since `uuid.uuid4` is random). -/
def createTextElement (cfg : Option Config) (guid : Str) (content : Str) : XNode :=
  let trimmed := pyStrip content
  let cleanContent := listReplace ['\n'] ['\x0d', '\n'] (listReplace ['\x0d', '\n'] ['\n'] trimmed)
  let x := textPadding
  let y := textPadding
  let w := slideWidth - textPadding * 2
  let h := slideHeight - textPadding * 2
  .elem (S "RVTextElement")
    [(S "displayName", S "Default"), (S "UUID", guid), (S "typeID", S "0"),
     (S "displayDelay", S "0"), (S "locked", S "false"), (S "persistent", S "0"),
     (S "fromTemplate", S "false"), (S "opacity", S "1"), (S "source", []),
     (S "bezelRadius", S "0"), (S "rotation", S "0"), (S "drawingFill", S "false"),
     (S "drawingShadow", S "false"), (S "drawingStroke", S "false"),
     (S "fillColor", S "1 1 1 1"), (S "adjustsHeightToFit", S "false"),
     (S "verticalAlignment", S "0"), (S "revealType", S "0")]
    none
    [.elem (S "RVRect3D") [(S "rvXMLIvarName", S "position")]
       (some ('\x7b' :: natRepr x ++ ' ' :: natRepr y ++ S " 0 " ++ natRepr w ++
         ' ' :: natRepr h ++ ['\x7d'])) [],
     .elem (S "shadow") [(S "rvXMLIvarName", S "shadow")]
       (some (S "10|0 0 0 1|\x7b4.94974746830583, -4.94974746830583\x7d")) [],
     .elem (S "dictionary") [(S "rvXMLIvarName", S "stroke")] none
       [.elem (S "NSColor") [(S "rvXMLDictionaryKey", S "RVShapeElementStrokeColorKey")]
          (some (S "0 0 0 1")) [],
        .elem (S "NSNumber")
          [(S "rvXMLDictionaryKey", S "RVShapeElementStrokeWidthKey"), (S "hint", S "double")]
          (some (S "0")) []],
     .elem (S "NSString") [(S "rvXMLIvarName", S "PlainText")]
       (some (encodeBase64 cleanContent)) [],
     .elem (S "NSString") [(S "rvXMLIvarName", S "RTFData")]
       (some (createRtfData cfg trimmed)) [],
     .elem (S "NSString") [(S "rvXMLIvarName", S "WinFlowData")]
       (some (createWinflowData cfg trimmed)) [],
     .elem (S "NSString") [(S "rvXMLIvarName", S "WinFontData")]
       (some createWinfontData) []]

/-- Embedding of `ProPresenter6Exporter.create_slide`. -/
def createSlide (cfg : Option Config) (slideGuid textGuid : Str) (content : Str) : XNode :=
  .elem (S "RVDisplaySlide")
    [(S "backgroundColor", S "0 0 0 0"), (S "highlightColor", []),
     (S "drawingBackgroundColor", S "false"), (S "enabled", S "true"),
     (S "hotKey", []), (S "label", []), (S "notes", []),
     (S "UUID", slideGuid), (S "chordChartPath", [])]
    none
    [.elem (S "array") [(S "rvXMLIvarName", S "cues")] none [],
     .elem (S "array") [(S "rvXMLIvarName", S "displayElements")] none
       [createTextElement cfg textGuid content]]

/-- Embedding of `ProPresenter6Exporter.create_slide_group` (guids drawn from the
supply `g`). -/
def createSlideGroup (cfg : Option Config) (g : Nat → Str) (sec : Section) : XNode :=
  let sectionType := if sec.type = [] then S "verse" else sec.type
  let content := pyStrip sec.content
  let slides :=
    if content = [] then []
    else (splitContentIntoSlides cfg content).enum.map
      (fun p => createSlide cfg (g (1 + 2 * p.1)) (g (2 + 2 * p.1)) p.2)
  .elem (S "RVSlideGrouping")
    [(S "name", formatSectionName sectionType),
     (S "color", getGroupColor sectionType),
     (S "uuid", g 0)]
    none
    [.elem (S "array") [(S "rvXMLIvarName", S "slides")] none slides]

/-- Embedding of `ProPresenter6Exporter.create_pro6_document`.  `now` is the formatted
`datetime.now()` timestamp and `g` the uuid supply, both parameters of the
model. -/
def createPro6Document (cfg : Option Config) (song : SongData) (sections : List Section)
    (now : Str) (g : Nat → Str) : XNode :=
  let groups := ((sections.filter (fun s => pyStrip s.content ≠ [])).enum.map
    (fun p => createSlideGroup cfg (fun n => g (Nat.pair p.1 n)) p.2))
  .elem (S "RVPresentationDocument")
    [(S "height", natRepr slideHeight), (S "width", natRepr slideWidth),
     (S "docType", S "0"), (S "versionNumber", S "600"), (S "usedCount", S "0"),
     (S "backgroundColor", S "0 0 0 1"), (S "drawingBackgroundColor", S "false"),
     (S "CCLIDisplay", if song.reference_number ≠ [] then S "true" else S "false"),
     (S "lastDateUsed", now), (S "selectedArrangementID", []),
     (S "category", S "Song"), (S "resourcesDirectory", []), (S "notes", []),
     (S "CCLIAuthor", song.author), (S "CCLIArtistCredits", song.author),
     (S "CCLISongTitle", if song.title = [] then S "Untitled" else song.title),
     (S "CCLIPublisher", song.administrator), (S "CCLICopyrightYear", []),
     (S "CCLISongNumber", song.reference_number), (S "chordChartPath", []),
     (S "os", S "1"), (S "buildNumber", S "6016")]
    none
    [.elem (S "RVTimeline")
       [(S "timeOffset", S "0"), (S "duration", S "0"),
        (S "selectedMediaTrackIndex", S "-1"), (S "loop", S "false"),
        (S "rvXMLIvarName", S "timeline")]
       none
       [.elem (S "array") [(S "rvXMLIvarName", S "timeCues")] none [],
        .elem (S "array") [(S "rvXMLIvarName", S "mediaTracks")] none []],
     .elem (S "array") [(S "rvXMLIvarName", S "groups")] none groups,
     .elem (S "array") [(S "rvXMLIvarName", S "arrangements")] none []]

mutual

/-- Embedding of `ProPresenter6Exporter.ensure_proper_array_tags`: every `array`
descendant with no children and no text gets empty text.  (ElementTree
nonetheless treats the empty string as falsy when serializing, so such
arrays still come out as self-closing tags; it is the regex rewrite in
`fix_self_closing_tags` that turns them into explicit pairs.) -/
def ensureProperArrayTags : XNode → XNode
  | .elem tag attrs txt children =>
    let txt' := if tag = S "array" ∧ children.isEmpty ∧ txt.isNone then some [] else txt
    .elem tag attrs txt' (ensureProperArrayTagsList children)

def ensureProperArrayTagsList : List XNode → List XNode
  | [] => []
  | x :: xs => ensureProperArrayTags x :: ensureProperArrayTagsList xs

end

/-- Embedding of `xml.sax.saxutils`-style attribute escaping performed by
`ElementTree` when serializing attribute values. -/
def escAttrChar (c : Char) : Str :=
  if c = '&' then S "&amp;"
  else if c = '<' then S "&lt;"
  else if c = '>' then S "&gt;"
  else if c = '"' then S "&quot;"
  else if c = '\x0d' then S "&#13;"
  else if c = '\n' then S "&#10;"
  else if c = '\t' then S "&#09;"
  else [c]

def escAttr (s : Str) : Str := s.flatMap escAttrChar

/-- Embedding of `ElementTree` text escaping (`&`, `<`, `>`). -/
def escCdataChar (c : Char) : Str :=
  if c = '&' then S "&amp;"
  else if c = '<' then S "&lt;"
  else if c = '>' then S "&gt;"
  else [c]

def escCdata (s : Str) : Str := s.flatMap escCdataChar

def serializeAttrs (attrs : List (Str × Str)) : Str :=
  attrs.flatMap (fun p => ' ' :: p.1 ++ '=' :: '"' :: escAttr p.2 ++ ['"'])

mutual

/-- Embedding of `ET.tostring(root, encoding='unicode')`: the serializer tests
`if text or len(elem)`, so an element whose text is falsy — `None` or the
empty string — and which has no children serializes as a self-closing tag
(with ElementTree's space before the slash); otherwise it gets an explicit
open/close pair, with falsy text contributing nothing. -/
def xserialize : XNode → Str
  | .elem tag attrs txt children =>
    let txt' : Option Str := match txt with | some [] => none | o => o
    let openPart := '<' :: tag ++ serializeAttrs attrs
    match txt', children with
    | none, [] => openPart ++ S " />"
    | _, _ =>
      openPart ++ '>' :: (match txt' with | some t => escCdata t | none => []) ++
        xserializeList children ++ S "</" ++ tag ++ ['>']

def xserializeList : List XNode → Str
  | [] => []
  | x :: xs => xserialize x ++ xserializeList xs

end

mutual

/-- Modelled from the spec: `xml.dom.minidom.parseString(...).toprettyxml`
(standard-library code outside this repository).  Per the specification the
pretty-printer re-serializes the parsed document and "can reintroduce
self-closing shorthand": an element whose parsed content is empty (no
children; empty text does not survive parsing) is written as a self-closing
tag, all other structure is preserved.  The XML declaration it prepends is
kept by `minidomPretty`; the inserted indentation whitespace is omitted, as
it does not affect tag structure. -/
def minidomSerialize : XNode → Str
  | .elem tag attrs txt children =>
    let txt' : Option Str := match txt with | some [] => none | o => o
    let openPart := '<' :: tag ++ serializeAttrs attrs
    match txt', children with
    | none, [] => openPart ++ S "/>"
    | _, _ =>
      openPart ++ '>' :: (match txt' with | some t => escCdata t | none => []) ++
        minidomSerializeList children ++ S "</" ++ tag ++ ['>']

def minidomSerializeList : List XNode → Str
  | [] => []
  | x :: xs => minidomSerialize x ++ minidomSerializeList xs

end

def minidomPretty (root : XNode) : Str :=
  S "<?xml version=\"1.0\" encoding=\"utf-8\"?>" ++ '\n' :: minidomSerialize root

/-! `ProPresenter6Exporter.fix_self_closing_tags`: the substitution
`re.sub(r'<array([^>]*?)rvXMLIvarName="([^"]*?)"([^>]*?)/>', repl, s)`
rewriting self-closing array tags into explicit open/close pairs.  The
lazy groups are modelled by first-occurrence scanning with backtracking
over the first group. -/

def fixLit : Str := S "rvXMLIvarName=\""

/-- The `([^>]*?)/>` tail: chars other than `>` up to the first `/>`. -/
def scanA2 : Str → Option (Str × Str)
  | [] => none
  | '/' :: '>' :: r => some ([], r)
  | '>' :: _ => none
  | c :: t => (scanA2 t).map (fun p => (c :: p.1, p.2))

/-- The `([^"]*?)"` group followed by the `([^>]*?)/>` tail. -/
def scanVA2 (s : Str) : Option (Str × Str × Str) :=
  let v := s.takeWhile (fun c => c ≠ '"')
  match s.drop v.length with
  | '"' :: s2 => (scanA2 s2).map (fun p => (v, p.1, p.2))
  | _ => none

/-- Scanning for the lazy `([^>]*?)` before the `rvXMLIvarName="` literal,
backtracking to the next literal occurrence when the rest of the pattern
fails. -/
def tryA1 (acc : Str) : Str → Option (Str × Str × Str × Str)
  | [] => none
  | c :: t =>
    if hasPrefixL fixLit (c :: t) then
      match scanVA2 ((c :: t).drop fixLit.length) with
      | some (v, a2, rest) => some (acc.reverse, v, a2, rest)
      | none => if c = '>' then none else tryA1 (c :: acc) t
    else if c = '>' then none else tryA1 (c :: acc) t

/-- One match attempt of the self-closing-array pattern at the head of
`s`, returning the replacement text and the unconsumed rest. -/
def matchSelfClosingArray (s : Str) : Option (Str × Str) :=
  if hasPrefixL (S "<array") s then
    match tryA1 [] (s.drop 6) with
    | some (a1, v, a2, rest) =>
      some (S "<array" ++ a1 ++ fixLit ++ v ++ '"' :: a2 ++ S "></array>", rest)
    | none => none
  else none

def fixSelfClosingAux : Nat → Str → Str
  | 0, s => s
  | _ + 1, [] => []
  | fuel + 1, c :: t =>
    match matchSelfClosingArray (c :: t) with
    | some (rep, rest) => rep ++ fixSelfClosingAux fuel rest
    | none => c :: fixSelfClosingAux fuel t

def fixSelfClosingTags (s : Str) : Str := fixSelfClosingAux s.length s

/-! ### Export to the file system -/

/-- The file system, modelled as an association list from paths to file
contents (directory creation is a no-op in this model). -/
abbrev FS := List (Str × Str)

def fsWrite (fs : FS) (p content : Str) : FS :=
  fs.filter (fun e => e.1 ≠ p) ++ [(p, content)]

def fsExists (fs : FS) (p : Str) : Bool := fs.any (fun e => e.1 = p)

def pathJoin (dir file : Str) : Str := dir ++ '/' :: file

/-- The content-validation check shared by `export_song` and
`_export_song_to_path`: some section has non-blank content. -/
def hasContentSections (sections : List Section) : Bool :=
  sections.any (fun s => pyStrip s.content ≠ [])

/-- The serialized document before pretty-printing: `ET.tostring` of the
ensured tree, with the self-closing-tag fix applied. -/
def exportXmlBeforePretty (cfg : Option Config) (song : SongData)
    (sections : List Section) (now : Str) (g : Nat → Str) : Str :=
  fixSelfClosingTags (xserialize (ensureProperArrayTags
    (createPro6Document cfg song sections now g)))

/-- The final file content written by `export_song` and
`_export_song_to_path`: the pretty-printed document with the
self-closing-tag fix applied again after pretty-printing. -/
def exportXmlFinal (cfg : Option Config) (song : SongData)
    (sections : List Section) (now : Str) (g : Nat → Str) : Str :=
  fixSelfClosingTags (minidomPretty (ensureProperArrayTags
    (createPro6Document cfg song sections now g)))

/-- Embedding of `ProPresenter6Exporter.export_song`: returns the success flag, the
path-or-error message, and the resulting file system. -/
def exportSong (cfg : Option Config) (song : SongData) (sections : List Section)
    (outputPath : Str) (now : Str) (g : Nat → Str) (fs : FS) : Bool × Str × FS :=
  if ¬ hasContentSections sections then
    (false,
     S "Song '" ++ song.title ++
       S "' has no lyrics data and cannot be exported (empty or corrupt song data)",
     fs)
  else
    let fullPath := pathJoin outputPath (sanitizeFilename song.title ++ S ".pro6")
    (true, fullPath, fsWrite fs fullPath (exportXmlFinal cfg song sections now g))

/-- Embedding of `ProPresenter6Exporter._export_song_to_path`. -/
def exportSongToPath (cfg : Option Config) (song : SongData) (sections : List Section)
    (filePath : Str) (now : Str) (g : Nat → Str) (fs : FS) : Bool × Str × FS :=
  if ¬ hasContentSections sections then
    (false,
     S "Song '" ++ song.title ++ S "' (ID: " ++ song.rowid ++
       S ") has no lyrics data and cannot be exported",
     fs)
  else
    (true, S "Successfully exported: " ++ song.title,
     fsWrite fs filePath (exportXmlFinal cfg song sections now g))

/-- Embedding of `ProPresenter6Exporter._generate_filename` without the fixed `.pro6`
suffix. -/
def generateFilenameStem (cfg : Option Config) (song : SongData) : Str :=
  let t := sanitizeFilename song.title
  let t := match cfg with
    | some c =>
      if c.includeCcliInFilename ∧ pyStrip song.reference_number ≠ [] then
        t ++ '_' :: pyStrip song.reference_number
      else t
    | none => t
  match cfg with
  | some c =>
    if c.includeAuthorInFilename ∧ pyStrip song.author ≠ [] then
      t ++ '_' :: sanitizeFilename (pyStrip song.author)
    else t
  | none => t

/-! ### Batch export (`ProPresenter6Exporter.export_songs_batch`) -/

/-- Observable events of a batch run: progress-callback invocations (with
their arguments) and per-song export invocations. -/
inductive BEvent where
  | progress (i total : Nat) (label : Str)
  | attempt (idx : Nat)
deriving DecidableEq

/-- One batch item: the song, its sections, and — since the model is pure —
an optional exception text standing for an exception raised inside this
song's per-song export path (Python: anything inside the per-song
`try` block, e.g. a failing progress callback or dialog). -/
structure BatchItem where
  song : SongData
  sections : List Section
  exn : Option Str

/-- Embedding of `ProPresenter6Exporter._handle_duplicate`: `rem` is the remembered
`self.duplicate_action`, `choice` the duplicate-dialog outcome for this
song (`none` when there is no parent window or no dialog result): action
token, custom name, and the apply-to-all flag.  Returns the action string
and the new remembered action. -/
def handleDuplicate (rem : Option Str) (choice : Option (Str × Str × Bool)) :
    Str × Option Str :=
  match rem with
  | some a => (a, rem)
  | none =>
    match choice with
    | some (a, custom, applyAll) =>
      let rem' := if applyAll then some a else none
      if a = S "rename_custom" ∧ custom ≠ [] then (S "rename:" ++ custom, rem')
      else (a, rem')
    | none => (S "skip", none)

/-- Embedding of `action.split(':', 1)[1] if ':' in action else action`. -/
def afterColon (a : Str) : Str :=
  if a.contains ':' then (a.dropWhile (fun c => c ≠ ':')).drop 1 else a

/-- The auto-rename loop: the first `stem_k` (k from 1) whose `.pro6` path
does not exist.  Searching `fs.length + 1` candidates always finds one. -/
def autoRenameStem (fs : FS) (dir stem : Str) : Str :=
  match (List.range (fs.length + 1)).find?
      (fun j => ¬ fsExists fs (pathJoin dir (stem ++ '_' :: natRepr (j + 1) ++ S ".pro6"))) with
  | some j => stem ++ '_' :: natRepr (j + 1)
  | none => stem ++ '_' :: natRepr (fs.length + 1)

/-- The running state of a batch export: success messages, failure
messages, the remembered duplicate action, the file system and the event
trace. -/
structure BatchState where
  succ : List Str
  fail : List Str
  rem : Option Str
  fs : FS
  events : List BEvent

/-- The `for` loop of `export_songs_batch` over the enumerated songs.
(The `existing_files` precomputation of the Python code only feeds the
`remaining` count displayed by the duplicate dialog, which the model
replaces by the per-index `choices` parameter.) -/
def batchLoop (cfg : Option Config) (choices : Nat → Option (Str × Str × Bool))
    (now : Str) (g : Nat → Str) (outputPath : Str) :
    List (Nat × BatchItem) → Nat → BatchState → BatchState
  | [], _, st => st
  | (i, item) :: rest, total, st =>
    let st := { st with events := st.events ++ [BEvent.progress i total item.song.title] }
    match item.exn with
    | some e =>
      batchLoop cfg choices now g outputPath rest total
        { st with fail := st.fail ++
            [S "Unexpected error exporting '" ++ item.song.title ++ S "': " ++ e] }
    | none =>
      let stem := generateFilenameStem cfg item.song
      let path := pathJoin outputPath (stem ++ S ".pro6")
      if fsExists st.fs path ∧ ¬ cfgOverwrite cfg then
        let ar := handleDuplicate st.rem (choices i)
        let st := { st with rem := ar.2 }
        if ar.1 = S "skip" then
          batchLoop cfg choices now g outputPath rest total
            { st with succ := st.succ ++ [S "Skipped: " ++ item.song.title] }
        else if ar.1 = S "cancel" then
          { st with fail := st.fail ++ [S "Cancelled: " ++ item.song.title] }
        else
          let stem' :=
            if ar.1 = S "rename" then autoRenameStem st.fs outputPath stem
            else if hasPrefixL (S "rename") ar.1 then afterColon ar.1
            else stem
          let st := { st with events := st.events ++ [BEvent.attempt i] }
          let r := exportSongToPath cfg item.song item.sections
            (pathJoin outputPath (stem' ++ S ".pro6")) now (fun n => g (Nat.pair i n)) st.fs
          batchLoop cfg choices now g outputPath rest total
            { st with fs := r.2.2,
                      succ := if r.1 then st.succ ++ [r.2.1] else st.succ,
                      fail := if r.1 then st.fail else st.fail ++ [r.2.1] }
      else
        let st := { st with events := st.events ++ [BEvent.attempt i] }
        let r := exportSongToPath cfg item.song item.sections path now
          (fun n => g (Nat.pair i n)) st.fs
        batchLoop cfg choices now g outputPath rest total
          { st with fs := r.2.2,
                    succ := if r.1 then st.succ ++ [r.2.1] else st.succ,
                    fail := if r.1 then st.fail else st.fail ++ [r.2.1] }

/-- Embedding of `ProPresenter6Exporter.export_songs_batch`: returns the batch state,
whose `events` include the final progress-callback invocation with the
completion marker. -/
def exportSongsBatch (cfg : Option Config) (items : List BatchItem)
    (outputPath : Str) (choices : Nat → Option (Str × Str × Bool))
    (now : Str) (g : Nat → Str) (fs : FS) : BatchState :=
  let st := batchLoop cfg choices now g outputPath items.enum items.length
    ⟨[], [], none, fs, []⟩
  { st with events := st.events ++ [BEvent.progress items.length items.length (S "Export complete")] }

/-! ### Predicates used in claim statements -/

/-- Plain single-line text: nonempty, only ASCII letters and spaces, no
edge spaces, no two adjacent spaces (the domain of the amended
normalization-idempotence claim). -/
def NiceLine (s : Str) : Prop :=
  s ≠ [] ∧ (∀ c ∈ s, isAsciiLetter c = true ∨ c = ' ') ∧
  s.head? ≠ some ' ' ∧ s.getLast? ≠ some ' ' ∧
  List.Chain' (fun a b => ¬(a = ' ' ∧ b = ' ')) s

/-- The two-character sequence `ab` occurs contiguously in `s`. -/
def pairInfix (a b : Char) (s : Str) : Prop :=
  ∃ l r, s = l ++ a :: b :: r

/-- The pre-encoding plain-text payload of a slide's text element: the
stripped content with line endings converted to CRLF (the string whose
UTF-8 bytes are base64-encoded into the `PlainText` field). -/
def plainTextPayload (content : Str) : Str :=
  listReplace ['\n'] ['\x0d', '\n'] (listReplace ['\x0d', '\n'] ['\n'] (pyStrip content))

/-- In a batch event trace, an export invocation for song `i` is
immediately preceded by the progress-callback invocation carrying `i`, the
total and song `i`'s title. -/
def attemptAfterItsCallback (items : List BatchItem) (total : Nat) :
    BEvent → BEvent → Prop :=
  fun a b => ∀ i, b = BEvent.attempt i →
    ∃ it, items.get? i = some it ∧ a = BEvent.progress i total it.song.title

mutual

/-- Well-formedness of the document trees this exporter builds (checked
against the concrete constructions in `createPro6Document` and its
helpers): tags are nonempty and free of `<`, `>`, `/`; attribute keys are
free of `<`, `>`; every `array` element carries exactly the single
`rvXMLIvarName` attribute, whose escaped value does not end in the
pattern literal; no other tag starts with `a`; and a childless element
has text, which may be empty only on an `array`. -/
def xmlOk : XNode → Prop
  | .elem tag attrs txt children =>
    tag ≠ [] ∧ (∀ c ∈ tag, c ≠ '>' ∧ c ≠ '/' ∧ c ≠ '<') ∧
    (∀ p ∈ attrs, ∀ c ∈ p.1, c ≠ '>' ∧ c ≠ '<') ∧
    (if tag = S "array"
     then ∃ v, attrs = [(S "rvXMLIvarName", v)] ∧ ¬ (S "rvXMLIvarName=" <:+ escAttr v)
     else tag.head? ≠ some 'a') ∧
    (children = [] → ∃ t, txt = some t ∧ (t = [] → tag = S "array")) ∧
    xmlOkList children

/-- `xmlOk` for every node of a list. -/
def xmlOkList : List XNode → Prop
  | [] => True
  | x :: xs => xmlOk x ∧ xmlOkList xs

end

/-- Safety of a string under the self-closing-tag substitution scan: at
every position the scanner either rewrites a match into a replacement
free of the two-character sequence `/>`, or steps over a character that
does not start such a sequence.  On safe strings the substitution output
contains no `/>`. -/
inductive SafeStr : Str → Prop
  | nil : SafeStr []
  | rewrite_tag : ∀ s rep rest, matchSelfClosingArray s = some (rep, rest) →
      ¬ pairInfix '/' '>' rep → SafeStr rest → SafeStr s
  | skip : ∀ c t, matchSelfClosingArray (c :: t) = none →
      ¬(c = '/' ∧ t.head? = some '>') → SafeStr t → SafeStr (c :: t)

/-! ## Theorems

### Generic facts about the substitution scanners -/

theorem scanPAux_congr {α : Type} (step : List α → Option (List α × Nat))
    (hstep : ∀ s out k, step s = some (out, k) → 1 ≤ k) :
    ∀ (f₁ f₂ : Nat) (s : List α), s.length ≤ f₁ → s.length ≤ f₂ →
      scanPAux step f₁ s = scanPAux step f₂ s := by
  intro f₁
  induction f₁ with
  | zero =>
    intro f₂ s h1 _
    have hs : s = [] := List.length_eq_zero.mp (Nat.le_zero.mp h1)
    subst hs
    cases f₂ <;> rfl
  | succ f ih =>
    intro f₂ s h1 h2
    cases s with
    | nil => cases f₂ <;> rfl
    | cons c t =>
      cases f₂ with
      | zero => simp at h2
      | succ f' =>
        simp only [List.length_cons] at h1 h2
        simp only [scanPAux]
        cases hst : step (c :: t) with
        | none =>
          simp only
          rw [ih f' t (by simpa using h1) (by simpa using h2)]
        | some p =>
          obtain ⟨out, k⟩ := p
          simp only
          have hk := hstep _ _ _ hst
          have hd : ((c :: t).drop k).length ≤ f := by
            simp only [List.length_drop, List.length_cons]
            omega
          have hd' : ((c :: t).drop k).length ≤ f' := by
            simp only [List.length_drop, List.length_cons]
            omega
          rw [ih f' _ hd hd']

theorem scanP_nil {α : Type} (step : List α → Option (List α × Nat)) :
    scanP step [] = [] := rfl

theorem scanP_cons_nomatch {α : Type} (step : List α → Option (List α × Nat))
    (c : α) (t : List α) (h : step (c :: t) = none) :
    scanP step (c :: t) = c :: scanP step t := by
  simp only [scanP, List.length_cons, scanPAux, h]

theorem scanP_cons_match {α : Type} (step : List α → Option (List α × Nat))
    (hstep : ∀ s out k, step s = some (out, k) → 1 ≤ k)
    (c : α) (t : List α) (out : List α) (k : Nat)
    (h : step (c :: t) = some (out, k)) :
    scanP step (c :: t) = out ++ scanP step ((c :: t).drop k) := by
  have hk := hstep _ _ _ h
  simp only [scanP, List.length_cons, scanPAux, h]
  congr 1
  exact scanPAux_congr step hstep _ _ _
    (by simp only [List.length_drop, List.length_cons]; omega)
    (by simp only [List.length_drop, List.length_cons]; omega)

/-- A scanner whose step matches on no suffix of `s` is the identity on
`s`. -/
theorem scanP_id {α : Type} (step : List α → Option (List α × Nat))
    (s : List α) (h : ∀ u, u <:+ s → step u = none) : scanP step s = s := by
  induction s with
  | nil => rfl
  | cons c t ih =>
    rw [scanP_cons_nomatch step c t (h (c :: t) (List.suffix_refl _))]
    rw [ih (fun u hu => h u (hu.trans (List.suffix_cons c t)))]

/-- Elements of a scanner's output are either heads of non-matching
suffixes of the input (characters passed through unchanged) or elements of
the output of some step match on a suffix. -/
theorem mem_scanP {α : Type} (step : List α → Option (List α × Nat))
    (hstep : ∀ s out k, step s = some (out, k) → 1 ≤ k) :
    ∀ (s : List α) (c : α), c ∈ scanP step s →
      (∃ u, u <:+ s ∧ u.head? = some c ∧ step u = none) ∨
      ∃ u out k, u <:+ s ∧ step u = some (out, k) ∧ c ∈ out := by
  have H : ∀ (n : Nat) (s : List α), s.length ≤ n → ∀ c, c ∈ scanP step s →
      (∃ u, u <:+ s ∧ u.head? = some c ∧ step u = none) ∨
      ∃ u out k, u <:+ s ∧ step u = some (out, k) ∧ c ∈ out := by
    intro n
    induction n with
    | zero =>
      intro s hs c hc
      have : s = [] := List.length_eq_zero.mp (Nat.le_zero.mp hs)
      subst this
      simp [scanP_nil] at hc
    | succ n ih =>
      intro s hs c hc
      cases s with
      | nil => simp [scanP_nil] at hc
      | cons a t =>
        cases hst : step (a :: t) with
        | none =>
          rw [scanP_cons_nomatch step a t hst] at hc
          rcases List.mem_cons.mp hc with h | h
          · exact Or.inl ⟨a :: t, List.suffix_refl _, by simp [h], hst⟩
          · rcases ih t (by simpa using hs) c h with ⟨u, hu, h1, h2⟩ | ⟨u, out, k, hu, h1, h2⟩
            · exact Or.inl ⟨u, hu.trans (List.suffix_cons a t), h1, h2⟩
            · exact Or.inr ⟨u, out, k, hu.trans (List.suffix_cons a t), h1, h2⟩
        | some p =>
          obtain ⟨out, k⟩ := p
          rw [scanP_cons_match step hstep a t out k hst] at hc
          rcases List.mem_append.mp hc with h | h
          · exact Or.inr ⟨a :: t, out, k, List.suffix_refl _, hst, h⟩
          · have hk := hstep _ _ _ hst
            have hlen : ((a :: t).drop k).length ≤ n := by
              simp only [List.length_drop, List.length_cons]
              simp only [List.length_cons] at hs
              omega
            rcases ih _ hlen c h with ⟨u, hu, h1, h2⟩ | ⟨u, out', k', hu, h1, h2⟩
            · exact Or.inl ⟨u, hu.trans (List.drop_suffix _ _), h1, h2⟩
            · exact Or.inr ⟨u, out', k', hu.trans (List.drop_suffix _ _), h1, h2⟩
  intro s
  exact H s.length s (Nat.le_refl _)

/-! ### Helper lemmas on the string primitives -/

theorem mem_dropWhileEndP {α : Type} (p : α → Bool) (l : List α) (c : α)
    (h : c ∈ dropWhileEndP p l) : c ∈ l := by
  simp only [dropWhileEndP, List.mem_reverse] at h
  exact List.mem_reverse.mp ((List.dropWhile_sublist p).mem h)

theorem length_dropWhileEndP_le {α : Type} (p : α → Bool) (l : List α) :
    (dropWhileEndP p l).length ≤ l.length := by
  simp only [dropWhileEndP, List.length_reverse]
  calc (l.reverse.dropWhile p).length ≤ l.reverse.length :=
        (List.dropWhile_sublist p).length_le
    _ = l.length := List.length_reverse l

theorem mem_pyStrip (s : Str) (c : Char) (h : c ∈ pyStrip s) : c ∈ s :=
  (List.dropWhile_sublist pyIsSpace).mem (mem_dropWhileEndP _ _ _ h)

theorem pyStrip_length_le (s : Str) : (pyStrip s).length ≤ s.length :=
  Nat.le_trans (length_dropWhileEndP_le _ _) (List.dropWhile_sublist pyIsSpace).length_le

theorem mem_pyStripChars (cs s : Str) (c : Char) (h : c ∈ pyStripChars cs s) : c ∈ s :=
  (List.dropWhile_sublist _).mem (mem_dropWhileEndP _ _ _ h)

theorem drop_length_takeWhile_eq_dropWhile {α : Type} (p : α → Bool) (l : List α) :
    l.drop (l.takeWhile p).length = l.dropWhile p := by
  induction l with
  | nil => rfl
  | cons a t ih =>
    by_cases h : p a
    · simp [List.takeWhile_cons, List.dropWhile_cons, h, ih]
    · simp [List.takeWhile_cons, List.dropWhile_cons, h]

theorem head_dropWhile_not {α : Type} (p : α → Bool) (l : List α) (c : α)
    (h : (l.dropWhile p).head? = some c) : p c = false := by
  induction l with
  | nil => simp [List.dropWhile] at h
  | cons a t ih =>
    by_cases hp : p a
    · rw [List.dropWhile_cons_of_pos hp] at h
      exact ih h
    · rw [List.dropWhile_cons_of_neg hp] at h
      simp only [List.head?_cons, Option.some.injEq] at h
      subst h
      exact Bool.of_not_eq_true hp

/-! ### C5: no-data rejection with atomicity -/

/-- **C5**: for every song whose section list is empty or contains only
sections with empty/whitespace content, `export_song` (and likewise
`_export_song_to_path`) returns `success = false` together with the
descriptive error message, and leaves the file system unchanged — no file
is created or modified. -/
theorem export_song_rejects_empty_songs (cfg : Option Config) (song : SongData)
    (sections : List Section) (outputPath filePath now : Str) (g : Nat → Str)
    (fs : FS) (h : ∀ s ∈ sections, pyStrip s.content = []) :
    exportSong cfg song sections outputPath now g fs =
      (false,
       S "Song '" ++ song.title ++
         S "' has no lyrics data and cannot be exported (empty or corrupt song data)",
       fs) ∧
    exportSongToPath cfg song sections filePath now g fs =
      (false,
       S "Song '" ++ song.title ++ S "' (ID: " ++ song.rowid ++
         S ") has no lyrics data and cannot be exported",
       fs) := by
  have hc : hasContentSections sections = false := by
    simp only [hasContentSections, List.any_eq_false, decide_eq_true_eq]
    intro s hs
    simpa using h s hs
  constructor
  · simp [exportSong, hc]
  · simp [exportSongToPath, hc]

theorem export_song_rejects_empty_songs_witness :
    exportSong none ⟨S "A", [], [], [], [], S "7"⟩ [⟨S "verse", S " "⟩]
        (S "out") [] (fun _ => []) [] =
      (false,
       S "Song '" ++ S "A" ++
         S "' has no lyrics data and cannot be exported (empty or corrupt song data)",
       []) :=
  (export_song_rejects_empty_songs none ⟨S "A", [], [], [], [], S "7"⟩
    [⟨S "verse", S " "⟩] (S "out") (S "p") [] (fun _ => []) [] (by decide)).1

/-! ### C7: filename sanitization -/

theorem wsPlusStep_pos : ∀ (s out : Str) (k : Nat), wsPlusStep s = some (out, k) → 1 ≤ k := by
  intro s out k h
  match s with
  | [] => simp [wsPlusStep] at h
  | c :: t =>
    simp only [wsPlusStep] at h
    split at h
    · injection h with h'
      injection h' with h1 h2
      omega
    · exact absurd h (by simp)

theorem wsPlusStep_out (s out : Str) (k : Nat) (h : wsPlusStep s = some (out, k)) :
    out = [' '] := by
  match s with
  | [] => simp [wsPlusStep] at h
  | c :: t =>
    simp only [wsPlusStep] at h
    split at h
    · injection h with h'
      injection h' with h1 h2
      exact h1.symm
    · exact absurd h (by simp)

theorem mem_collapseWsPlus (s : Str) (c : Char) (h : c ∈ collapseWsPlus s) :
    c = ' ' ∨ (c ∈ s ∧ pyIsSpace c = false) := by
  rcases mem_scanP wsPlusStep wsPlusStep_pos s c h with ⟨u, hu, hhd, hnone⟩ | ⟨u, out, k, _, hst, hout⟩
  · right
    cases u with
    | nil => simp at hhd
    | cons a t =>
      simp only [List.head?_cons, Option.some.injEq] at hhd
      subst hhd
      refine ⟨hu.sublist.mem (List.mem_cons_self _ _), ?_⟩
      simp only [wsPlusStep] at hnone
      split at hnone
      · exact absurd hnone (by simp)
      · rename_i hns
        simpa using hns
  · left
    rw [wsPlusStep_out u out k hst] at hout
    simpa using hout

/-- The output of the whitespace-collapse substitution has no two adjacent
spaces, and starts with a space only if the input does. -/
theorem collapseWsPlus_chain :
    ∀ (s : Str),
      List.Chain' (fun a b => ¬(a = ' ' ∧ b = ' ')) (collapseWsPlus s) ∧
      (∀ x, (collapseWsPlus s).head? = some x → pyIsSpace x = true →
        ∃ y t', s = y :: t' ∧ pyIsSpace y = true) := by
  have H : ∀ (n : Nat) (s : Str), s.length ≤ n →
      List.Chain' (fun a b => ¬(a = ' ' ∧ b = ' ')) (collapseWsPlus s) ∧
      (∀ x, (collapseWsPlus s).head? = some x → pyIsSpace x = true →
        ∃ y t', s = y :: t' ∧ pyIsSpace y = true) := by
    intro n
    induction n with
    | zero =>
      intro s hs
      have : s = [] := List.length_eq_zero.mp (Nat.le_zero.mp hs)
      subst this
      simp [collapseWsPlus, scanP_nil]
    | succ n ih =>
      intro s hs
      cases s with
      | nil => simp [collapseWsPlus, scanP_nil]
      | cons c t =>
        by_cases hsp : pyIsSpace c = true
        · have hst : wsPlusStep (c :: t) = some ([' '], 1 + (t.takeWhile pyIsSpace).length) := by
            simp [wsPlusStep, hsp]
          have hdrop : (c :: t).drop (1 + (t.takeWhile pyIsSpace).length) =
              t.drop (t.takeWhile pyIsSpace).length := by
            rw [Nat.add_comm]
            simp [List.drop_succ_cons]
          have hrw : collapseWsPlus (c :: t) =
              ' ' :: collapseWsPlus (t.drop (t.takeWhile pyIsSpace).length) := by
            unfold collapseWsPlus
            rw [scanP_cons_match wsPlusStep wsPlusStep_pos c t _ _ hst, hdrop]
            rfl
          have hd : t.drop (t.takeWhile pyIsSpace).length = t.dropWhile pyIsSpace :=
            drop_length_takeWhile_eq_dropWhile pyIsSpace t
          have hlen : (t.drop (t.takeWhile pyIsSpace).length).length ≤ n := by
            have := (List.dropWhile_sublist (l := t) pyIsSpace).length_le
            rw [hd]
            simp only [List.length_cons] at hs
            omega
          obtain ⟨ihc, ihh⟩ := ih _ hlen
          constructor
          · rw [hrw]
            apply List.chain'_cons'.mpr
            refine ⟨?_, ihc⟩
            intro y hy hcontra
            obtain ⟨z, t', hz, hzs⟩ := ihh y hy (by simp [hcontra.2, pyIsSpace])
            rw [hd] at hz
            have hzf : pyIsSpace z = false :=
              head_dropWhile_not pyIsSpace t z (by rw [hz]; rfl)
            rw [hzf] at hzs
            exact Bool.false_ne_true hzs
          · intro x hx _
            exact ⟨c, t, rfl, hsp⟩
        · have hst : wsPlusStep (c :: t) = none := by
            simp [wsPlusStep, hsp]
          have hrw : collapseWsPlus (c :: t) = c :: collapseWsPlus t :=
            scanP_cons_nomatch wsPlusStep c t hst
          obtain ⟨ihc, ihh⟩ := ih t (by simp only [List.length_cons] at hs; omega)
          constructor
          · rw [hrw]
            apply List.chain'_cons'.mpr
            refine ⟨?_, ihc⟩
            intro y hy hcontra
            obtain ⟨z, t', hz, hzs⟩ := ihh y hy (by simp [hcontra.2, pyIsSpace])
            rw [hcontra.1] at hsp
            simp [pyIsSpace] at hsp
          · intro x hx hxs
            rw [hrw] at hx
            simp only [List.head?_cons, Option.some.injEq] at hx
            subst hx
            exact absurd hxs (by simp [hsp])
  intro s
  exact H s.length s (Nat.le_refl _)

/-- **C7 counterexample**: the claimed postcondition "no leading/trailing
spaces or dots" fails.  A title consisting of one non-breaking space
sanitizes to a single space (the trim runs before the whitespace
collapse), and a long title with a dot at position 200 keeps its trailing
dot (only whitespace is re-trimmed after truncation). -/
theorem sanitize_filename_claim_counterexample :
    sanitizeFilename ['\xa0'] = [' '] ∧
    (sanitizeFilename (List.replicate 199 'a' ++ '.' :: List.replicate 10 'b')).getLast? =
      some '.' := by
  constructor
  · decide
  · decide

theorem dropWhileEndP_pre {α : Type} (p : α → Bool) (l : List α) :
    dropWhileEndP p l <+: l := by
  have h : l.reverse.dropWhile p <:+ l.reverse := List.dropWhile_suffix p
  have h2 : (l.reverse.dropWhile p).reverse.reverse <:+ l.reverse := by
    simpa using h
  exact (List.reverse_suffix).mp h2

theorem pyStrip_sub (s : Str) : pyStrip s <:+: s :=
  List.IsInfix.trans (dropWhileEndP_pre pyIsSpace _).isInfix
    (List.dropWhile_suffix pyIsSpace).isInfix

theorem pyStripChars_sub (cs s : Str) : pyStripChars cs s <:+: s :=
  List.IsInfix.trans (dropWhileEndP_pre _ _).isInfix
    (List.dropWhile_suffix _).isInfix

/-- **C7** (amended): for every title, `sanitize_filename` returns a
nonempty string of length at most 200 containing no reserved filesystem
characters (`< > : " / \ | ? *`) and no ASCII control characters (0-31,
127), in which the only whitespace character is the plain space and no two
spaces are adjacent, and which equals the fixed placeholder
`"Untitled_Song"` when it would otherwise be empty.  (The original claim's
"no leading/trailing spaces or dots, re-trimmed after truncation" is not
guaranteed: trimming runs before whitespace collapsing, so a collapsed
non-space whitespace character can remain at an edge, and only whitespace —
not dots — is re-trimmed after the 200-character truncation, as the
counterexample shows.) -/
theorem sanitize_filename_postconditions (title : Str) :
    sanitizeFilename title ≠ [] ∧
    (sanitizeFilename title).length ≤ 200 ∧
    (∀ c ∈ sanitizeFilename title, reservedChars.contains c = false) ∧
    (∀ c ∈ sanitizeFilename title, isCtrlChar c = false) ∧
    (∀ c ∈ sanitizeFilename title, pyIsSpace c = true → c = ' ') ∧
    List.Chain' (fun a b => ¬(a = ' ' ∧ b = ' ')) (sanitizeFilename title) := by
  have key : ∀ (t5 : Str),
      t5.length ≤ 200 →
      (∀ c ∈ t5, reservedChars.contains c = false) →
      (∀ c ∈ t5, isCtrlChar c = false) →
      (∀ c ∈ t5, pyIsSpace c = true → c = ' ') →
      List.Chain' (fun a b => ¬(a = ' ' ∧ b = ' ')) t5 →
      (if t5 = [] then S "Untitled_Song" else t5) ≠ [] ∧
      (if t5 = [] then S "Untitled_Song" else t5).length ≤ 200 ∧
      (∀ c ∈ (if t5 = [] then S "Untitled_Song" else t5), reservedChars.contains c = false) ∧
      (∀ c ∈ (if t5 = [] then S "Untitled_Song" else t5), isCtrlChar c = false) ∧
      (∀ c ∈ (if t5 = [] then S "Untitled_Song" else t5), pyIsSpace c = true → c = ' ') ∧
      List.Chain' (fun a b => ¬(a = ' ' ∧ b = ' '))
        (if t5 = [] then S "Untitled_Song" else t5) := by
    intro t5 hlen hres hctrl hsp hch
    by_cases h5 : t5 = []
    · subst h5
      have hiff : (if ([] : Str) = [] then S "Untitled_Song" else ([] : Str)) =
          S "Untitled_Song" := rfl
      rw [hiff]
      exact ⟨by decide, by decide, by decide, by decide, by decide, by simp [S]⟩
    · rw [if_neg h5]
      exact ⟨h5, hlen, hres, hctrl, hsp, hch⟩
  -- properties of the pipeline up to the whitespace collapse
  have h2 : ∀ c ∈ (title.filter (fun c => ¬ isCtrlChar c)).map
      (fun c => if reservedChars.contains c then '_' else c),
      reservedChars.contains c = false ∧ isCtrlChar c = false := by
    intro c hc
    rcases List.mem_map.mp hc with ⟨d, hd, hdc⟩
    have hdctrl : isCtrlChar d = false := by
      have := (List.mem_filter.mp hd).2
      simpa using this
    by_cases hres : reservedChars.contains d
    · rw [if_pos hres] at hdc
      subst hdc
      exact ⟨by decide, by decide⟩
    · rw [if_neg hres] at hdc
      subst hdc
      exact ⟨by simpa using hres, hdctrl⟩
  have h3 : ∀ c ∈ pyStripChars [' ', '.'] ((title.filter (fun c => ¬ isCtrlChar c)).map
      (fun c => if reservedChars.contains c then '_' else c)),
      reservedChars.contains c = false ∧ isCtrlChar c = false := by
    intro c hc
    exact h2 c (mem_pyStripChars _ _ _ hc)
  have h4 : ∀ c ∈ collapseWsPlus (pyStripChars [' ', '.']
      ((title.filter (fun c => ¬ isCtrlChar c)).map
        (fun c => if reservedChars.contains c then '_' else c))),
      reservedChars.contains c = false ∧ isCtrlChar c = false ∧
        (pyIsSpace c = true → c = ' ') := by
    intro c hc
    rcases mem_collapseWsPlus _ c hc with hsp | ⟨hmem, hnsp⟩
    · subst hsp
      exact ⟨by decide, by decide, fun _ => rfl⟩
    · obtain ⟨ha, hb⟩ := h3 c hmem
      exact ⟨ha, hb, fun h => absurd h (by simp [hnsp])⟩
  have hch4 := (collapseWsPlus_chain (pyStripChars [' ', '.']
      ((title.filter (fun c => ¬ isCtrlChar c)).map
        (fun c => if reservedChars.contains c then '_' else c)))).1
  -- the truncation stage
  simp only [sanitizeFilename]
  split
  · -- length > 200: truncate to 200 and strip
    rename_i hgt
    apply key
    · calc (pyStrip _).length ≤ (List.take 200 _).length := pyStrip_length_le _
        _ ≤ 200 := by simp [List.length_take]
    · intro c hc
      exact (h4 c (List.mem_of_mem_take (mem_pyStrip _ _ hc))).1
    · intro c hc
      exact (h4 c (List.mem_of_mem_take (mem_pyStrip _ _ hc))).2.1
    · intro c hc
      exact (h4 c (List.mem_of_mem_take (mem_pyStrip _ _ hc))).2.2
    · have hch5 := List.Chain'.prefix hch4 ( List.take_prefix 200 _)
      exact List.Chain'.infix hch5 (pyStrip_sub _)
  · rename_i hle
    apply key
    · omega
    · intro c hc; exact (h4 c hc).1
    · intro c hc; exact (h4 c hc).2.1
    · intro c hc; exact (h4 c hc).2.2
    · exact hch4

/-! ### C4: section count invariant -/

theorem dropWhile_eq_self_of {α : Type} (p : α → Bool) (l : List α)
    (h : ∀ c, l.head? = some c → p c = false) : l.dropWhile p = l := by
  cases l with
  | nil => rfl
  | cons a t => exact List.dropWhile_cons_of_neg (by simp [h a rfl])

theorem pyStrip_eq_self (s : Str)
    (h1 : ∀ c, s.head? = some c → pyIsSpace c = false)
    (h2 : ∀ c, s.getLast? = some c → pyIsSpace c = false) : pyStrip s = s := by
  unfold pyStrip
  rw [dropWhile_eq_self_of pyIsSpace s h1]
  unfold dropWhileEndP
  rw [dropWhile_eq_self_of pyIsSpace s.reverse (by
    intro c hc
    rw [List.head?_reverse] at hc
    exact h2 c hc)]
  exact List.reverse_reverse s

/-- The scanning loop on marker-free lines accumulates everything into the
final buffer. -/
theorem detectLoop_all_none (maps : List (Str × Str)) :
    ∀ (lines : List Str) (secs : List Section) (cur : Option Str) (buf : List Str),
      (∀ l ∈ lines, identifySectionMarker maps l = none) →
      detectLoop maps lines secs cur buf =
        (if optTruthy cur || (buf ++ lines) ≠ [] then saveSection secs cur (buf ++ lines)
         else secs) := by
  intro lines
  induction lines with
  | nil =>
    intro secs cur buf _
    simp [detectLoop]
  | cons l ls ih =>
    intro secs cur buf h
    have hl : identifySectionMarker maps l = none := h l (List.mem_cons_self _ _)
    simp only [detectLoop, hl]
    rw [ih secs cur (buf ++ [l]) (fun x hx => h x (List.mem_cons_of_mem _ hx))]
    simp

/-- **C4 counterexample**: the whitespace-only text `" "` has zero
recognized marker lines, yet `detect_sections` returns an empty section
list (length 0, not 1): the synthetic verse is only produced when the
stripped text is non-blank. -/
theorem detect_sections_claim_counterexample :
    (∀ line ∈ (S " ").splitOn '\n', identifySectionMarker sectionMappings line = none) ∧
    (detectSections sectionMappings (S " ")).sections.length = 0 ∧
    (detectSections sectionMappings (S " ")).has_sections = false := by
  refine ⟨?_, by decide, by decide⟩
  decide

/-- **C4** (amended): for any text with non-blank content in which zero
marker lines are recognized, `detect_sections` returns exactly one section
of type `"verse"` containing the entire cleaned (stripped) text, and
`has_sections = false`.  (For blank text — the counterexample — the
sections list is empty instead.) -/
theorem detect_sections_single_verse (maps : List (Str × Str)) (text : Str)
    (hne : pyStrip text ≠ [])
    (hnone : ∀ line ∈ text.splitOn '\n', identifySectionMarker maps line = none) :
    detectSections maps text = ⟨[⟨S "verse", pyStrip text⟩], false, text⟩ := by
  have htext : text ≠ [] := by
    intro h
    subst h
    exact hne rfl
  have hsplit : List.intercalate ['\n'] (text.splitOn '\n') = text :=
    List.intercalate_splitOn text '\n'
  have hlines : text.splitOn '\n' ≠ [] := by
    intro h
    rw [h] at hsplit
    exact htext (by simpa [List.intercalate] using hsplit.symm)
  have hloop : detectLoop maps (text.splitOn '\n') [] none [] =
      [⟨S "verse", pyStrip text⟩] := by
    rw [detectLoop_all_none maps _ [] none [] hnone]
    rw [if_pos]
    · simp only [saveSection, List.nil_append, hsplit, if_neg hne]
    · simp [optTruthy, hlines]
  simp only [detectSections, if_neg htext, hloop]
  rw [if_neg (by simp)]
  simp

theorem detect_sections_single_verse_witness :
    detectSections sectionMappings (S "hello\nworld") =
      ⟨[⟨S "verse", S "hello\nworld"⟩], false, S "hello\nworld"⟩ := by
  have h := detect_sections_single_verse sectionMappings (S "hello\nworld")
    (by decide) (by decide)
  rw [h]
  decide

/-! ### C3: marker round-trip in the section detector -/

theorem digit_char_facts (c : Char) (h : isAsciiDigit c = true) :
    pyIsSpace c = false ∧ pyToLower c = c ∧ c ≠ '\n' := by
  have h48 : 48 ≤ c.toNat ∧ c.toNat ≤ 57 := by
    simpa [isAsciiDigit] using h
  have hsp : pyIsSpace c = false := by
    cases hps : pyIsSpace c with
    | false => rfl
    | true =>
      exfalso
      simp only [pyIsSpace, Bool.or_eq_true, decide_eq_true_eq] at hps
      have hn : c.toNat = 32 ∨ c.toNat = 9 ∨ c.toNat = 10 ∨ c.toNat = 13 ∨
          c.toNat = 11 ∨ c.toNat = 12 ∨ c.toNat = 133 ∨ c.toNat = 160 ∨
          c.toNat = 8232 ∨ c.toNat = 8233 := by
        rcases hps with ((((((((h1 | h1) | h1) | h1) | h1) | h1) | h1) | h1) | h1) | h1 <;>
          (subst h1; decide)
      omega
  refine ⟨hsp, ?_, ?_⟩
  · have hU : ¬ isAsciiUpper c = true := by
      simp only [isAsciiUpper, Bool.and_eq_true, decide_eq_true_eq, not_and]
      omega
    have hA : ¬ c = 'Å' := fun hh => by subst hh; revert h48; decide
    have hA2 : ¬ c = 'Ä' := fun hh => by subst hh; revert h48; decide
    have hO : ¬ c = 'Ö' := fun hh => by subst hh; revert h48; decide
    simp [pyToLower, hU, hA, hA2, hO]
  · intro hh
    subst hh
    revert h48
    decide

theorem hasPrefixL_iff (p s : Str) : hasPrefixL p s = true ↔ p <+: s := by
  induction p generalizing s with
  | nil => simp [hasPrefixL]
  | cons c cs ih =>
    cases s with
    | nil => simp [hasPrefixL]
    | cons d ds => simp [hasPrefixL, List.cons_prefix_cons, ih]

theorem hasPrefixL_append (p r : Str) : hasPrefixL p (p ++ r) = true :=
  (hasPrefixL_iff p (p ++ r)).mpr ⟨r, rfl⟩

/-- The exact-match `find?` over the marker list returns the (lowercased)
key itself when the cleaned line equals it. -/
theorem find?_marker (markers : List Str) (k : Str) (hk : k ∈ markers)
    (hlow : ∀ m ∈ markers, lowerStr m = m) :
    markers.find? (fun m => k = lowerStr m) = some k := by
  induction markers with
  | nil => cases hk
  | cons m ms ih =>
    have hm : lowerStr m = m := hlow m (List.mem_cons_self _ _)
    by_cases hkm : k = m
    · subst hkm
      rw [List.find?_cons_of_pos _ (by simp [hm])]
    · rw [List.find?_cons_of_neg _ (by simp [hm, hkm])]
      exact ih (List.mem_of_ne_of_mem hkm hk)
        (fun x hx => hlow x (List.mem_cons_of_mem _ hx))

/-- On the hardcoded fallback table, `dict.get` returns the stored value. -/
theorem lookupStr_sectionMappings (k v : Str) (h : (k, v) ∈ sectionMappings) :
    lookupStr sectionMappings k = some v := by
  fin_cases h <;> decide

/-- The numbered-pattern alternation succeeds on `key ++ " " ++ digits`
exactly at the intended key, provided all markers are space-free and the
key itself contains no whitespace or digit characters. -/
theorem numberedMatch_key (markers : List Str) (k ds : Str)
    (hkm : k ∈ markers) (hds : ds ≠ []) (hdig : ∀ c ∈ ds, isAsciiDigit c = true)
    (hall : ∀ m ∈ markers, ' ' ∉ m)
    (hknice : ∀ c ∈ k, pyIsSpace c = false ∧ isAsciiDigit c = false) :
    numberedMatch markers (k ++ ' ' :: ds) = some (k, some ds) := by
  induction markers with
  | nil => cases hkm
  | cons m ms ih =>
    by_cases hmk : m = k
    · subst hmk
      have hdsid : ds.dropWhile pyIsSpace = ds := by
        apply dropWhile_eq_self_of
        intro c hc
        exact (digit_char_facts c (hdig c (List.mem_of_mem_head? hc))).1
      have htake : ds.takeWhile isAsciiDigit = ds :=
        List.takeWhile_eq_self_iff.mpr hdig
      simp only [numberedMatch]
      rw [if_pos (hasPrefixL_append m (' ' :: ds))]
      rw [List.drop_left m (' ' :: ds)]
      rw [List.dropWhile_cons_of_pos (by decide)]
      rw [hdsid, htake, List.drop_length]
      rw [if_pos rfl, if_neg hds]
    · cases hpre : hasPrefixL m (k ++ ' ' :: ds) with
      | false =>
        simp only [numberedMatch]
        rw [if_neg (by simp [hpre])]
        exact ih (List.mem_of_ne_of_mem (fun h => hmk h.symm) hkm)
          (fun x hx => hall x (List.mem_cons_of_mem _ hx))
      | true =>
        have hm : m <+: k ++ ' ' :: ds := (hasPrefixL_iff m _).mp hpre
        have hmsp : ' ' ∉ m := hall m (List.mem_cons_self _ _)
        have hlen : m.length ≤ k.length := by
          by_contra hlen
          push_neg at hlen
          apply hmsp
          obtain ⟨r, hr⟩ := hm
          have hsp : (k ++ ' ' :: ds)[k.length]? = some ' ' := by
            rw [List.getElem?_append_right (le_refl k.length)]
            simp
          rw [← hr, List.getElem?_append_left hlen] at hsp
          exact List.getElem?_mem hsp
        have hmk' : m <+: k :=
          List.prefix_of_prefix_length_le hm (List.prefix_append k (' ' :: ds)) hlen
        obtain ⟨c, rest, hcr⟩ : ∃ c rest, k.drop m.length = c :: rest := by
          cases hd : k.drop m.length with
          | nil =>
            have hge : k.length ≤ m.length := by
              have hh := congrArg List.length hd
              simp only [List.length_drop, List.length_nil] at hh
              omega
            exact absurd (List.IsPrefix.eq_of_length hmk' (le_antisymm hlen hge)) hmk
          | cons c rest => exact ⟨c, rest, rfl⟩
        have hcink : c ∈ k := by
          apply List.mem_of_mem_drop
          rw [hcr]
          exact List.mem_cons_self c rest
        obtain ⟨hcsp, hcdig⟩ := hknice c hcink
        have hdropline : (k ++ ' ' :: ds).drop m.length = c :: (rest ++ ' ' :: ds) := by
          rw [List.drop_append_of_le_length hlen, hcr]
          simp
        simp only [numberedMatch]
        rw [if_pos hpre]
        rw [hdropline]
        rw [List.dropWhile_cons_of_neg (by simp [hcsp])]
        rw [List.takeWhile_cons_of_neg (by simp [hcdig])]
        simp only [List.length_nil, List.drop_zero]
        rw [if_neg (by simp)]
        exact ih (List.mem_of_ne_of_mem (fun h => hmk h.symm) hkm)
          (fun x hx => hall x (List.mem_cons_of_mem _ hx))

/-- When the cleaned line equals a table key exactly,
`_identify_section_marker` returns the canonical label for that key. -/
theorem identify_marker_exact (k v : Str) (hkv : (k, v) ∈ sectionMappings)
    (line : Str) (hline : lowerStr (pyStrip line) = k) :
    identifySectionMarker sectionMappings line = some v := by
  have hfacts : ∀ p ∈ sectionMappings,
      lowerStr p.1 = p.1 ∧ pyStrip p.1 = p.1 ∧ p.1 ≠ [] := by decide
  have hne : k ≠ [] := (hfacts _ hkv).2.2
  have hkmem : k ∈ sectionMarkers sectionMappings :=
    List.mem_map.mpr ⟨(k, v), hkv, rfl⟩
  have hlow : ∀ m ∈ sectionMarkers sectionMappings, lowerStr m = m := by
    intro m hm
    obtain ⟨p, hp, rfl⟩ := List.mem_map.mp hm
    exact (hfacts p hp).1
  have hfind := find?_marker (sectionMarkers sectionMappings) k hkmem hlow
  have hnorm : normalizeSectionType sectionMappings k none = v := by
    simp only [normalizeSectionType, (hfacts _ hkv).1, (hfacts _ hkv).2.1,
      lookupStr_sectionMappings k v hkv, Option.getD_some]
  simp only [identifySectionMarker, hline, hfind]
  rw [if_neg hne, hnorm]

/-- When the cleaned line is a table key followed by a space and digits,
`_identify_section_marker` returns the canonical label plus the number. -/
theorem identify_numbered (k v ds : Str) (hkv : (k, v) ∈ sectionMappings)
    (hds : ds ≠ []) (hdig : ∀ c ∈ ds, isAsciiDigit c = true)
    (line : Str) (hline : lowerStr (pyStrip line) = k ++ ' ' :: ds) :
    identifySectionMarker sectionMappings line = some (v ++ ' ' :: ds) := by
  have hfacts : ∀ p ∈ sectionMappings,
      lowerStr p.1 = p.1 ∧ pyStrip p.1 = p.1 ∧ ' ' ∉ p.1 ∧
      (∀ c ∈ p.1, pyIsSpace c = false ∧ isAsciiDigit c = false) := by decide
  have hkmem : k ∈ sectionMarkers sectionMappings :=
    List.mem_map.mpr ⟨(k, v), hkv, rfl⟩
  have hallsp : ∀ m ∈ sectionMarkers sectionMappings, ' ' ∉ m := by
    intro m hm
    obtain ⟨p, hp, rfl⟩ := List.mem_map.mp hm
    exact (hfacts p hp).2.2.1
  have hfind : (sectionMarkers sectionMappings).find?
      (fun m => k ++ ' ' :: ds = lowerStr m) = none := by
    apply List.find?_eq_none.mpr
    intro m hm
    obtain ⟨p, hp, rfl⟩ := List.mem_map.mp hm
    rw [(hfacts p hp).1]
    simp only [decide_eq_true_eq]
    intro heq
    exact (hfacts p hp).2.2.1 (heq ▸ (by simp : ' ' ∈ k ++ ' ' :: ds))
  have hnum : numberedMatch (sectionMarkers sectionMappings) (k ++ ' ' :: ds) =
      some (k, some ds) :=
    numberedMatch_key (sectionMarkers sectionMappings) k ds hkmem hds hdig hallsp
      (fun c hc => (hfacts _ hkv).2.2.2 c hc)
  have hnorm : normalizeSectionType sectionMappings k (some ds) = v ++ ' ' :: ds := by
    simp only [normalizeSectionType, (hfacts _ hkv).1, (hfacts _ hkv).2.1,
      lookupStr_sectionMappings k v hkv, Option.getD_some]
    rw [if_neg hds]
  simp only [identifySectionMarker, hline, hfind, hnum, (hfacts _ hkv).1]
  rw [if_neg (by simp), hnorm]

/-- A two-line text whose first line is recognised as marker `t` and whose
second line is unrecognised, already stripped and non-blank, detects as the
single section `(t, line2)`. -/
theorem detect_two_lines (maps : List (Str × Str)) (line1 line2 t : Str)
    (hid1 : identifySectionMarker maps line1 = some t)
    (hid2 : identifySectionMarker maps line2 = none)
    (ht : t ≠ []) (h2strip : pyStrip line2 = line2) (h2ne : line2 ≠ [])
    (hnl1 : '\n' ∉ line1) (hnl2 : '\n' ∉ line2) :
    detectSections maps (line1 ++ '\n' :: line2) =
      ⟨[⟨t, line2⟩], decide (t ≠ S "verse"), line1 ++ '\n' :: line2⟩ := by
  have htext : line1 ++ '\n' :: line2 ≠ [] := by
    intro h
    have hh := congrArg List.length h
    simp at hh
  have hsplit : (line1 ++ '\n' :: line2).splitOn '\n' = [line1, line2] := by
    have h1 : ['\n'].intercalate [line1, line2] = line1 ++ '\n' :: line2 := by
      simp [List.intercalate]
    rw [← h1]
    exact List.splitOn_intercalate [line1, line2] '\n' (by simp [hnl1, hnl2]) (by simp)
  have hloop : detectLoop maps [line1, line2] [] none [] = [⟨t, line2⟩] := by
    simp only [detectLoop, hid1, hid2]
    simp [optTruthy, ht, saveSection, List.intercalate, h2strip, h2ne]
  simp only [detectSections]
  rw [if_neg htext]
  rw [hsplit, hloop]
  rw [if_neg (by simp)]

theorem getLast?_append_ne {α : Type} (l1 l2 : List α) (h : l2 ≠ []) :
    (l1 ++ l2).getLast? = l2.getLast? := by
  rw [List.getLast?_append]
  cases hl : l2.getLast? with
  | none => exact absurd (List.getLast?_eq_none_iff.mp hl) h
  | some a => rfl

theorem mem_of_getLast?_eq {α : Type} (l : List α) (a : α) (h : l.getLast? = some a) :
    a ∈ l := by
  rw [← List.head?_reverse] at h
  exact List.mem_reverse.mp (List.mem_of_mem_head? h)

/-- **C3**: marker round-trip in the section detector — for every key `k`
mapped to canonical label `v` in the hardcoded table, the input
`"{k}\ncontent"` yields exactly one section with type `v` and content
`"content"`; comparison is case-insensitive (the all-uppercase key detects
identically); and for any nonempty digit string `n`, `"{k} {n}\ncontent"`
yields the single section typed `"{v} {n}"` with the same content. -/
theorem marker_round_trip (k v : Str) (hkv : (k, v) ∈ sectionMappings) :
    detectSections sectionMappings (k ++ '\n' :: S "content") =
      ⟨[⟨v, S "content"⟩], decide (v ≠ S "verse"), k ++ '\n' :: S "content"⟩ ∧
    detectSections sectionMappings (List.map pyToUpper k ++ '\n' :: S "content") =
      ⟨[⟨v, S "content"⟩], decide (v ≠ S "verse"),
        List.map pyToUpper k ++ '\n' :: S "content"⟩ ∧
    ∀ ds : Str, ds ≠ [] → (∀ c ∈ ds, isAsciiDigit c = true) →
      detectSections sectionMappings ((k ++ ' ' :: ds) ++ '\n' :: S "content") =
        ⟨[⟨v ++ ' ' :: ds, S "content"⟩], decide (v ++ ' ' :: ds ≠ S "verse"),
          (k ++ ' ' :: ds) ++ '\n' :: S "content"⟩ := by
  have hfacts : ∀ p ∈ sectionMappings,
      lowerStr (pyStrip p.1) = p.1 ∧
      lowerStr (pyStrip (List.map pyToUpper p.1)) = p.1 ∧
      p.1 ≠ [] ∧ p.2 ≠ [] ∧ '\n' ∉ p.1 ∧ '\n' ∉ List.map pyToUpper p.1 ∧
      lowerStr p.1 = p.1 ∧
      (∀ c ∈ p.1, pyIsSpace c = false ∧ isAsciiDigit c = false) := by decide
  obtain ⟨hlineK, hlineU, hkne, hvne, hknl, hunl, hklow, hknice⟩ := hfacts (k, v) hkv
  have hc1 : identifySectionMarker sectionMappings (S "content") = none := by decide
  have hc2 : pyStrip (S "content") = S "content" := by decide
  have hc3 : S "content" ≠ [] := by decide
  have hc4 : '\n' ∉ S "content" := by decide
  refine ⟨?_, ?_, ?_⟩
  · exact detect_two_lines sectionMappings k (S "content") v
      (identify_marker_exact k v hkv k hlineK) hc1 hvne hc2 hc3 hknl hc4
  · exact detect_two_lines sectionMappings (List.map pyToUpper k) (S "content") v
      (identify_marker_exact k v hkv _ hlineU) hc1 hvne hc2 hc3 hunl hc4
  · intro ds hds hdig
    have hdsnl : '\n' ∉ ds := fun hh => (digit_char_facts '\n' (hdig _ hh)).2.2 rfl
    have hdlow : List.map pyToLower ds = ds := by
      calc ds.map pyToLower = ds.map id :=
            List.map_congr_left (fun c hc => (digit_char_facts c (hdig c hc)).2.1)
        _ = ds := List.map_id ds
    have hstrip3 : pyStrip (k ++ ' ' :: ds) = k ++ ' ' :: ds := by
      apply pyStrip_eq_self
      · intro c hc
        cases k with
        | nil => exact absurd rfl hkne
        | cons a k' =>
          have hac : a = c := by simpa using hc
          subst hac
          exact (hknice a (List.mem_cons_self _ _)).1
      · intro c hc
        rw [show k ++ ' ' :: ds = (k ++ [' ']) ++ ds by simp,
          getLast?_append_ne _ _ hds] at hc
        exact (digit_char_facts c (hdig c (mem_of_getLast?_eq ds c hc))).1
    have hlower3 : lowerStr (k ++ ' ' :: ds) = k ++ ' ' :: ds := by
      simp only [lowerStr, List.map_append, List.map_cons]
      rw [(by decide : pyToLower ' ' = ' '), hdlow]
      have hk' : List.map pyToLower k = k := hklow
      rw [hk']
    have hline3 : lowerStr (pyStrip (k ++ ' ' :: ds)) = k ++ ' ' :: ds := by
      rw [hstrip3]
      exact hlower3
    have hvdsne : v ++ ' ' :: ds ≠ [] := by simp
    have hnl3 : '\n' ∉ k ++ ' ' :: ds := by
      simp only [List.mem_append, List.mem_cons, not_or]
      exact ⟨hknl, by decide, hdsnl⟩
    exact detect_two_lines sectionMappings (k ++ ' ' :: ds) (S "content")
      (v ++ ' ' :: ds) (identify_numbered k v ds hkv hds hdig _ hline3)
      hc1 hvdsne hc2 hc3 hnl3 hc4

theorem marker_round_trip_witness :
    detectSections sectionMappings (S "refräng 12\ncontent") =
      ⟨[⟨S "Chorus 12", S "content"⟩], true, S "refräng 12\ncontent"⟩ := by
  have h := (marker_round_trip (S "refräng") (S "Chorus") (by decide)).2.2 (S "12")
    (by decide) (by decide)
  have heq : S "refräng 12\ncontent" =
      (S "refräng" ++ ' ' :: S "12") ++ '\n' :: S "content" := by decide
  rw [heq, h]
  decide

/-! ### C2: idempotence of text normalization -/

theorem toNat_of_pyIsSpace (c : Char) (h : pyIsSpace c = true) :
    c.toNat = 32 ∨ c.toNat = 9 ∨ c.toNat = 10 ∨ c.toNat = 13 ∨ c.toNat = 11 ∨
    c.toNat = 12 ∨ c.toNat = 133 ∨ c.toNat = 160 ∨ c.toNat = 8232 ∨
    c.toNat = 8233 := by
  simp only [pyIsSpace, Bool.or_eq_true, decide_eq_true_eq] at h
  rcases h with ((((((((h1 | h1) | h1) | h1) | h1) | h1) | h1) | h1) | h1) | h1 <;>
    (subst h1; decide)

theorem letter_toNat (c : Char) (h : isAsciiLetter c = true) :
    (97 ≤ c.toNat ∧ c.toNat ≤ 122) ∨ (65 ≤ c.toNat ∧ c.toNat ≤ 90) := by
  have h1 : isAsciiLower c = true ∨ isAsciiUpper c = true := by
    simpa [isAsciiLetter] using h
  rcases h1 with h1 | h1
  · exact Or.inl (by simpa [isAsciiLower] using h1)
  · exact Or.inr (by simpa [isAsciiUpper] using h1)

theorem nice_toNat (c : Char) (h : isAsciiLetter c = true ∨ c = ' ') :
    c.toNat = 32 ∨ (65 ≤ c.toNat ∧ c.toNat ≤ 90) ∨
      (97 ≤ c.toNat ∧ c.toNat ≤ 122) := by
  rcases h with h | h
  · rcases letter_toNat c h with h1 | h1 <;> omega
  · subst h
    left
    rfl

theorem nice_char_ne (c : Char) (h : isAsciiLetter c = true ∨ c = ' ') (d : Char)
    (hd : (d.toNat = 32 ∨ (65 ≤ d.toNat ∧ d.toNat ≤ 90) ∨
      (97 ≤ d.toNat ∧ d.toNat ≤ 122)) → False) : c ≠ d := by
  intro he
  subst he
  exact hd (nice_toNat c h)

theorem pyIsSpace_false_of_letter (c : Char) (h : isAsciiLetter c = true) :
    pyIsSpace c = false := by
  cases hps : pyIsSpace c with
  | false => rfl
  | true =>
    exfalso
    have h1 := toNat_of_pyIsSpace c hps
    have h2 := letter_toNat c h
    rcases h1 with h1 | h1 | h1 | h1 | h1 | h1 | h1 | h1 | h1 | h1 <;>
      rcases h2 with h2 | h2 <;> omega

theorem controlWordStep_eq_none (c : Char) (r : Str) (h : c ≠ '\\') :
    controlWordStep (c :: r) = none := by
  unfold controlWordStep
  split
  · rename_i heq
    injection heq with h1 _
    exact absurd h1 h
  · rfl

theorem nice_not_digit (c : Char) (h : isAsciiLetter c = true ∨ c = ' ') :
    isAsciiDigit c = false := by
  have h1 := nice_toNat c h
  cases hd : isAsciiDigit c with
  | false => rfl
  | true =>
    exfalso
    have h2 : 48 ≤ c.toNat ∧ c.toNat ≤ 57 := by simpa [isAsciiDigit] using hd
    rcases h1 with h1 | h1 | h1 <;> omega

theorem scanP_id_of_head {α : Type} (step : List α → Option (List α × Nat))
    (s : List α) (hnil : step [] = none)
    (h : ∀ c t, (c :: t) <:+ s → step (c :: t) = none) : scanP step s = s := by
  apply scanP_id
  intro u hu
  cases u with
  | nil => exact hnil
  | cons c t => exact h c t hu

theorem braceGroupStep_eq_none (c : Char) (t : Str) (h : c ≠ '\x7b') :
    braceGroupStep (c :: t) = none := by
  unfold braceGroupStep
  split
  · rename_i heq
    injection heq with h1 _
    exact absurd h1 h
  · rfl

theorem hexEscapeStep_eq_none (c : Char) (t : Str) (h : c ≠ '\\') :
    hexEscapeStep (c :: t) = none := by
  unfold hexEscapeStep
  split
  · rename_i heq
    injection heq with h1 _
    exact absurd h1 h
  · rfl

theorem replaceStep_nil {α : Type} [DecidableEq α] (p : α) (ps rep : List α) :
    replaceStep (p :: ps) rep [] = none := by
  unfold replaceStep
  rw [if_neg]
  rintro ⟨-, hpre⟩
  simp at hpre

theorem replaceStep_eq_none_head {α : Type} [DecidableEq α] (p : α) (ps rep : List α)
    (c : α) (t : List α) (h : c ≠ p) : replaceStep (p :: ps) rep (c :: t) = none := by
  unfold replaceStep
  rw [if_neg]
  rintro ⟨-, hpre⟩
  have hp := List.isPrefixOf_iff_prefix.mp hpre
  exact h (List.cons_prefix_cons.mp hp).1.symm

/-- Identity of `str.replace` when the pattern's first element never occurs. -/
theorem listReplace_id {α : Type} [DecidableEq α] (p : α) (ps rep : List α)
    (s : List α) (h : ∀ c ∈ s, c ≠ p) : listReplace (p :: ps) rep s = s := by
  apply scanP_id_of_head _ _ (replaceStep_nil p ps rep)
  intro c t ht
  exact replaceStep_eq_none_head p ps rep c t
    (h c (ht.subset (List.mem_cons_self _ _)))

theorem run3Step_eq_none {α : Type} [DecidableEq α] (x c : α) (t : List α)
    (h : c ≠ x) : run3Step x (c :: t) = none := by
  unfold run3Step
  split
  · rename_i c2 t2 heq
    injection heq with h1 h2
    subst h1
    subst h2
    rw [if_neg]
    rintro ⟨h1, -⟩
    exact h h1
  · rfl

theorem spaces2Step_eq_none (c : Char) (t : Str)
    (h : c ≠ ' ' ∨ t.head? ≠ some ' ') : spaces2Step (c :: t) = none := by
  unfold spaces2Step
  split
  · rename_i heq
    injection heq with h1 h2
    rcases h with h | h
    · exact absurd h1 h
    · subst h2
      rw [if_neg (by exact fun hh => h (h1 ▸ hh))]
  · rfl

theorem punctSpaceStep_eq_none (c : Char) (t : Str)
    (h : ¬(c = '.' ∨ c = '!' ∨ c = '?')) : punctSpaceStep (c :: t) = none := by
  unfold punctSpaceStep
  split
  · rename_i heq
    injection heq with h1 _
    subst h1
    rw [if_neg]
    rintro ⟨h2, -⟩
    exact h h2
  · rfl

theorem openParenStep_eq_none (c : Char) (t : Str) (h : c ≠ '(') :
    openParenStep (c :: t) = none := by
  unfold openParenStep
  split
  · rename_i heq
    injection heq with h1 _
    exact absurd h1 h
  · rfl

theorem closeParenStep_eq_none (c : Char) (t : Str)
    (h : ¬(pyIsSpace c = true ∧ (t.drop (t.takeWhile pyIsSpace).length).head? = some ')')) :
    closeParenStep (c :: t) = none := by
  unfold closeParenStep
  split
  · rename_i c2 t2 heq
    injection heq with h1 h2
    subst h1
    subst h2
    rw [if_neg h]
  · rfl

theorem repMarkerMatch_eq_none (openC close : Char) (xFirst : Bool) (c : Char)
    (t : Str) (h : c ≠ openC) : repMarkerMatch openC close xFirst (c :: t) = none := by
  unfold repMarkerMatch
  split
  · rename_i c2 t2 heq
    injection heq with h1 h2
    subst h1
    subst h2
    rw [if_neg h]
  · rfl

theorem repMarkerStep_eq_none (openC close : Char) (xFirst : Bool) (c : Char)
    (t : Str) (h : c ≠ openC) : repMarkerStep openC close xFirst (c :: t) = none := by
  unfold repMarkerStep
  rw [repMarkerMatch_eq_none openC close xFirst c t h]
  rfl

theorem xRepStep_eq_none (c : Char) (t : Str) (h : t.takeWhile isAsciiDigit = []) :
    xRepStep (c :: t) = none := by
  unfold xRepStep
  split
  · rename_i c2 t2 heq
    injection heq with h1 h2
    subst h1
    subst h2
    split
    · simp [h]
    · rfl
  · rfl

theorem toNat_ofNat_valid (n : Nat) (h : n.isValidChar) : (Char.ofNat n).toNat = n := by
  unfold Char.ofNat
  split
  · rfl
  · rename_i hh
    exact absurd h hh

theorem removeRtfArtifacts_nice (s : Str)
    (hch : ∀ c ∈ s, isAsciiLetter c = true ∨ c = ' ') :
    removeRtfArtifacts s = s := by
  have hbs : ∀ c ∈ s, c ≠ '\\' := fun c hc =>
    nice_char_ne c (hch c hc) '\\' (by decide)
  have h1 : removeControlWords s = s :=
    scanP_id_of_head _ s rfl (fun c t ht =>
      controlWordStep_eq_none c t (hbs c (ht.subset (List.mem_cons_self _ _))))
  have h2 : removeBraceGroups s = s :=
    scanP_id_of_head _ s rfl (fun c t ht =>
      braceGroupStep_eq_none c t
        (nice_char_ne c (hch c (ht.subset (List.mem_cons_self _ _))) '\x7b' (by decide)))
  have h3 : removeHexEscapes s = s :=
    scanP_id_of_head _ s rfl (fun c t ht =>
      hexEscapeStep_eq_none c t (hbs c (ht.subset (List.mem_cons_self _ _))))
  unfold removeRtfArtifacts
  simp only [h1, h2, h3, listReplace_id '\\' ['\x7b'] ['\x7b'] s hbs,
    listReplace_id '\\' ['\x7d'] ['\x7d'] s hbs,
    listReplace_id '\\' ['\\'] ['\\'] s hbs]

theorem replaceUnwantedChars_nice (s : Str)
    (hch : ∀ c ∈ s, isAsciiLetter c = true ∨ c = ' ') :
    replaceUnwantedChars s = s := by
  unfold replaceUnwantedChars
  simp only [listReplace_id '\x00' [] [] s
      (fun c hc => nice_char_ne c (hch c hc) '\x00' (by decide)),
    listReplace_id '\x0b' [] ['\n'] s
      (fun c hc => nice_char_ne c (hch c hc) '\x0b' (by decide)),
    listReplace_id '\x0c' [] ['\n'] s
      (fun c hc => nice_char_ne c (hch c hc) '\x0c' (by decide)),
    listReplace_id '\xa0' [] [' '] s
      (fun c hc => nice_char_ne c (hch c hc) '\xa0' (by decide)),
    listReplace_id ' ' [] ['\n'] s
      (fun c hc => nice_char_ne c (hch c hc) ' ' (by decide)),
    listReplace_id ' ' [] ['\n', '\n'] s
      (fun c hc => nice_char_ne c (hch c hc) ' ' (by decide))]
  apply List.filter_eq_self.mpr
  intro c hc
  have h1 := nice_toNat c (hch c hc)
  simp only [Bool.or_eq_true, decide_eq_true_eq]
  left
  left
  rcases h1 with h | h | h <;> omega

theorem normalizeWhitespace_nice (s : Str)
    (hch : ∀ c ∈ s, isAsciiLetter c = true ∨ c = ' ')
    (hchain : List.Chain' (fun a b => ¬(a = ' ' ∧ b = ' ')) s) :
    normalizeWhitespace s = s := by
  unfold normalizeWhitespace
  rw [listReplace_id '\t' [] [' ', ' '] s
    (fun c hc => nice_char_ne c (hch c hc) '\t' (by decide))]
  apply scanP_id_of_head _ s rfl
  intro c t ht
  apply spaces2Step_eq_none
  by_cases hc : c = ' '
  · right
    intro hh
    cases t with
    | nil => simp at hh
    | cons d t2 =>
      have hd : d = ' ' := by simpa using hh
      have hch2 : List.Chain' (fun a b => ¬(a = ' ' ∧ b = ' ')) (c :: d :: t2) :=
        hchain.suffix ht
      exact (List.chain'_cons.mp hch2).1 ⟨hc, hd⟩
  · left
    exact hc

theorem splitOn_eq_self_of_not_mem {α : Type} [DecidableEq α] (x : α) (s : List α)
    (h : x ∉ s) : s.splitOn x = [s] := by
  have h1 : [x].intercalate [s] = s := by simp [List.intercalate]
  calc s.splitOn x = ([x].intercalate [s]).splitOn x := by rw [h1]
    _ = [s] := List.splitOn_intercalate [s] x (by simpa using h) (by simp)

theorem fixLineBreaks_nice (s : Str)
    (hch : ∀ c ∈ s, isAsciiLetter c = true ∨ c = ' ')
    (hlast : s.getLast? ≠ some ' ') : fixLineBreaks s = s := by
  have hnl : ∀ c ∈ s, c ≠ '\n' := fun c hc =>
    nice_char_ne c (hch c hc) '\n' (by decide)
  have hcr : ∀ c ∈ s, c ≠ '\x0d' := fun c hc =>
    nice_char_ne c (hch c hc) '\x0d' (by decide)
  have h3 : collapseRun3 '\n' s = s :=
    scanP_id_of_head _ s rfl (fun c t ht =>
      run3Step_eq_none '\n' c t (hnl c (ht.subset (List.mem_cons_self _ _))))
  have h4 : pyRStrip s = s := by
    have hrev : s.reverse.dropWhile pyIsSpace = s.reverse := by
      apply dropWhile_eq_self_of
      intro c hcrev
      rw [List.head?_reverse] at hcrev
      have hcm : c ∈ s := mem_of_getLast?_eq s c hcrev
      rcases hch c hcm with hl | hsp
      · exact pyIsSpace_false_of_letter c hl
      · exact absurd (hsp ▸ hcrev) hlast
    unfold pyRStrip dropWhileEndP
    rw [hrev, List.reverse_reverse]
  unfold fixLineBreaks
  simp only [listReplace_id '\x0d' ['\n'] ['\n'] s hcr,
    listReplace_id '\x0d' [] ['\n'] s hcr, h3,
    splitOn_eq_self_of_not_mem '\n' s (fun hmem => hnl '\n' hmem rfl)]
  simp [h4, List.intercalate]

theorem cleanPunctuation_nice (s : Str)
    (hch : ∀ c ∈ s, isAsciiLetter c = true ∨ c = ' ') :
    cleanPunctuation s = s := by
  unfold cleanPunctuation
  simp only [listReplace_id '“' [] ['"'] s
      (fun c hc => nice_char_ne c (hch c hc) '“' (by decide)),
    listReplace_id '”' [] ['"'] s
      (fun c hc => nice_char_ne c (hch c hc) '”' (by decide)),
    listReplace_id '‘' [] ['\''] s
      (fun c hc => nice_char_ne c (hch c hc) '‘' (by decide)),
    listReplace_id '’' [] ['\''] s
      (fun c hc => nice_char_ne c (hch c hc) '’' (by decide)),
    listReplace_id '–' [] ['-'] s
      (fun c hc => nice_char_ne c (hch c hc) '–' (by decide)),
    listReplace_id '—' [] ['-'] s
      (fun c hc => nice_char_ne c (hch c hc) '—' (by decide)),
    listReplace_id '…' [] ['.', '.', '.'] s
      (fun c hc => nice_char_ne c (hch c hc) '…' (by decide))]

theorem textCleanerClean_nice (s : Str) (h : NiceLine s) : textCleanerClean s = s := by
  obtain ⟨hne, hch, hhead, hlast, hchain⟩ := h
  unfold textCleanerClean
  rw [if_neg hne]
  simp only [removeRtfArtifacts_nice s hch, replaceUnwantedChars_nice s hch,
    normalizeWhitespace_nice s hch hchain, fixLineBreaks_nice s hch hlast,
    cleanPunctuation_nice s hch]
  apply pyStrip_eq_self
  · intro c hc
    rcases hch c (List.mem_of_mem_head? hc) with hl | hsp
    · exact pyIsSpace_false_of_letter c hl
    · exact absurd (hsp ▸ hc) hhead
  · intro c hc
    rcases hch c (mem_of_getLast?_eq s c hc) with hl | hsp
    · exact pyIsSpace_false_of_letter c hl
    · exact absurd (hsp ▸ hc) hlast

theorem cleanRepetitionMarkers_nice (s : Str)
    (hch : ∀ c ∈ s, isAsciiLetter c = true ∨ c = ' ') :
    cleanRepetitionMarkers s = s := by
  have hpar : ∀ c ∈ s, c ≠ '(' := fun c hc =>
    nice_char_ne c (hch c hc) '(' (by decide)
  have hbrk : ∀ c ∈ s, c ≠ '[' := fun c hc =>
    nice_char_ne c (hch c hc) '[' (by decide)
  have hrep : ∀ (o cl : Char) (xf : Bool), (∀ c ∈ s, c ≠ o) →
      removeRepMarker o cl xf s = s := fun o cl xf ho =>
    scanP_id_of_head _ s rfl (fun c t ht =>
      repMarkerStep_eq_none o cl xf c t (ho c (ht.subset (List.mem_cons_self _ _))))
  have hx : removeTrailingXRep s = s := by
    apply scanP_id_of_head _ s rfl
    intro c t ht
    apply xRepStep_eq_none
    cases t with
    | nil => rfl
    | cons d t2 =>
      have hd : isAsciiDigit d = false :=
        nice_not_digit d
          (hch d (ht.subset (List.mem_cons_of_mem _ (List.mem_cons_self _ _))))
      rw [List.takeWhile_cons_of_neg (by simp [hd])]
  unfold cleanRepetitionMarkers
  simp only [hrep '(' ')' true hpar, hrep '(' ')' false hpar,
    hrep '[' ']' true hbrk, hrep '[' ']' false hbrk, hx]

theorem fixSongFormatting_nice (s : Str)
    (hch : ∀ c ∈ s, isAsciiLetter c = true ∨ c = ' ') :
    fixSongFormatting s = capLine s := by
  have h1 : spaceAfterPunct s = s := by
    apply scanP_id_of_head _ s rfl
    intro c t ht
    apply punctSpaceStep_eq_none
    have hc := hch c (ht.subset (List.mem_cons_self _ _))
    rintro (hh | hh | hh)
    · exact nice_char_ne c hc '.' (by decide) hh
    · exact nice_char_ne c hc '!' (by decide) hh
    · exact nice_char_ne c hc '?' (by decide) hh
  have h2 : trimAfterOpenParen s = s := by
    apply scanP_id_of_head _ s rfl
    intro c t ht
    exact openParenStep_eq_none c t
      (nice_char_ne c (hch c (ht.subset (List.mem_cons_self _ _))) '(' (by decide))
  have h3 : trimBeforeCloseParen s = s := by
    apply scanP_id_of_head _ s rfl
    intro c t ht
    apply closeParenStep_eq_none
    rintro ⟨-, hhd⟩
    rw [drop_length_takeWhile_eq_dropWhile pyIsSpace t] at hhd
    have hmem : ')' ∈ t := (List.dropWhile_sublist pyIsSpace).subset
      (List.mem_of_mem_head? hhd)
    exact nice_char_ne ')'
      (hch ')' (ht.subset (List.mem_cons_of_mem _ hmem))) ')' (by decide) rfl
  have hnl : '\n' ∉ s := fun hm => nice_char_ne '\n' (hch _ hm) '\n' (by decide) rfl
  unfold fixSongFormatting
  simp only [h1, h2, h3, splitOn_eq_self_of_not_mem '\n' s hnl]
  simp [List.intercalate]

theorem cleanText_nice (s : Str) (h : NiceLine s) : cleanText true false s = capLine s := by
  unfold cleanText
  rw [if_pos rfl]
  unfold songTextCleanerClean
  simp only [Bool.false_eq_true, if_false, textCleanerClean_nice s h,
    cleanRepetitionMarkers_nice s h.2.1, fixSongFormatting_nice s h.2.1]

theorem capLine_cons (c : Char) (t : Str) (h : pyIsSpace c = false) :
    capLine (c :: t) = if pyIsLower c then pyToUpper c :: t else c :: t := by
  unfold capLine
  rw [List.takeWhile_cons_of_neg (by simp [h]), List.dropWhile_cons_of_neg (by simp [h])]
  rfl

theorem capLine_props (s : Str) (h : NiceLine s) :
    NiceLine (capLine s) ∧ capLine (capLine s) = capLine s := by
  obtain ⟨hne, hch, hhead, hlast, hchain⟩ := h
  cases s with
  | nil => exact absurd rfl hne
  | cons c t =>
    have hcmem := hch c (List.mem_cons_self _ _)
    have hcletter : isAsciiLetter c = true := by
      rcases hcmem with hl | hsp
      · exact hl
      · exact absurd (show (c :: t).head? = some ' ' by simp [hsp]) hhead
    have hcsp : pyIsSpace c = false := pyIsSpace_false_of_letter c hcletter
    by_cases hl : pyIsLower c = true
    · have hlow : isAsciiLower c = true := by
        have hpl : ((isAsciiLower c = true ∨ c = 'å') ∨ c = 'ä') ∨ c = 'ö' := by
          simpa [pyIsLower] using hl
        rcases hpl with ((h1 | h1) | h1) | h1
        · exact h1
        all_goals
          (exfalso; rcases letter_toNat c hcletter with hb | hb <;>
            (rw [h1] at hb; revert hb; decide))
      have hub : 97 ≤ c.toNat ∧ c.toNat ≤ 122 := by simpa [isAsciiLower] using hlow
      have hupN : (pyToUpper c).toNat = c.toNat - 32 := by
        unfold pyToUpper
        rw [if_pos hlow]
        exact toNat_ofNat_valid _ (Or.inl (by omega))
      have hu_letter : isAsciiLetter (pyToUpper c) = true := by
        simp only [isAsciiLetter, isAsciiUpper, isAsciiLower, Bool.or_eq_true,
          Bool.and_eq_true, decide_eq_true_eq, hupN]
        omega
      have hu_nospace : pyIsSpace (pyToUpper c) = false :=
        pyIsSpace_false_of_letter _ hu_letter
      have hu_not_lower : pyIsLower (pyToUpper c) = false := by
        cases hpl : pyIsLower (pyToUpper c) with
        | false => rfl
        | true =>
          exfalso
          have hpl2 : ((isAsciiLower (pyToUpper c) = true ∨ pyToUpper c = 'å') ∨
              pyToUpper c = 'ä') ∨ pyToUpper c = 'ö' := by simpa [pyIsLower] using hpl
          rcases hpl2 with ((h1 | h1) | h1) | h1
          · have hb : 97 ≤ (pyToUpper c).toNat ∧ (pyToUpper c).toNat ≤ 122 := by
              simpa [isAsciiLower] using h1
            rw [hupN] at hb
            omega
          all_goals
            (have hb := congrArg Char.toNat h1; rw [hupN] at hb; revert hb;
              simp; omega)
      have hu_ne_space : pyToUpper c ≠ ' ' := by
        intro hh
        have hb := congrArg Char.toNat hh
        rw [hupN] at hb
        have h32 : (' ').toNat = 32 := rfl
        rw [h32] at hb
        omega
      rw [capLine_cons c t hcsp, if_pos hl]
      constructor
      · refine ⟨by simp, ?_, ?_, ?_, ?_⟩
        · intro d hd
          rcases List.mem_cons.mp hd with hd | hd
          · rw [hd]
            exact Or.inl hu_letter
          · exact hch d (List.mem_cons_of_mem _ hd)
        · intro hh
          rw [List.head?_cons] at hh
          exact hu_ne_space (Option.some.inj hh)
        · cases t with
          | nil =>
            intro hh
            simp only [List.getLast?_singleton] at hh
            exact hu_ne_space (Option.some.inj hh)
          | cons d t2 =>
            rw [List.getLast?_cons_cons]
            rw [List.getLast?_cons_cons] at hlast
            exact hlast
        · cases t with
          | nil => exact List.chain'_singleton _
          | cons d t2 =>
            rw [List.chain'_cons]
            rw [List.chain'_cons] at hchain
            exact ⟨fun hx => hu_ne_space hx.1, hchain.2⟩
      · rw [capLine_cons _ t hu_nospace, if_neg (by simp [hu_not_lower])]
    · rw [capLine_cons c t hcsp, if_neg hl]
      refine ⟨⟨by simp, hch, hhead, hlast, hchain⟩, ?_⟩
      rw [capLine_cons c t hcsp, if_neg hl]

/-- **C2 counterexample**: song-mode cleaning is not idempotent.  With
chord removal disabled, `"\\\\\\"` (three backslashes) cleans to two
backslashes, which clean again to one (the `\\\\ -> \\` replacement
cascades).  With chord removal enabled, `"cm blah"` cleans to
`"Cm blah"` (capitalisation), which cleans again to `"Blah"` (the
capitalised `Cm` now parses as a chord at line start). -/
theorem clean_text_idempotence_counterexample :
    cleanText true false (cleanText true false (S "\\\\\\")) ≠
      cleanText true false (S "\\\\\\") ∧
    cleanText true true (cleanText true true (S "cm blah")) ≠
      cleanText true true (S "cm blah") := by
  constructor <;> decide

/-- **C2** (amended): on plain single-line song text — nonempty, ASCII
letters and single internal spaces only — and with chord removal disabled,
song-mode cleaning is idempotent: `clean(clean(x)) = clean(x)`.  (Full
idempotence as claimed is false, see the counterexample: the backslash
collapse cascades, and with chord removal enabled the per-line
capitalisation can turn a lowercase word into a chord that the second pass
removes.) -/
theorem clean_text_song_idempotent (s : Str) (h : NiceLine s) :
    cleanText true false (cleanText true false s) = cleanText true false s := by
  obtain ⟨h2, h3⟩ := capLine_props s h
  rw [cleanText_nice s h, cleanText_nice _ h2, h3]

theorem clean_text_song_idempotent_witness :
    NiceLine (S "hello world") ∧
    cleanText true false (cleanText true false (S "hello world")) =
      cleanText true false (S "hello world") := by
  have hn : NiceLine (S "hello world") := by
    refine ⟨by decide, by decide, by decide, by decide, ?_⟩
    simp [S, List.chain'_cons]
  exact ⟨hn, clean_text_song_idempotent (S "hello world") hn⟩

/-! ### C1: Unicode recovery in the RTF parser -/

theorem takeWhile_append_all {α : Type} (p : α → Bool) (l z : List α)
    (hl : ∀ a ∈ l, p a = true) (hz : ∀ a, z.head? = some a → p a = false) :
    (l ++ z).takeWhile p = l := by
  induction l with
  | nil =>
    cases z with
    | nil => rfl
    | cons a t => exact List.takeWhile_cons_of_neg (by simp [hz a rfl])
  | cons a l ih =>
    rw [List.cons_append,
      List.takeWhile_cons_of_pos (by simp [hl a (List.mem_cons_self _ _)])]
    rw [ih (fun x hx => hl x (List.mem_cons_of_mem _ hx))]

theorem matchUnicodeEscape_pos :
    ∀ s out k, matchUnicodeEscape s = some (out, k) → 1 ≤ k := by
  intro s out k h
  unfold matchUnicodeEscape at h
  split at h
  all_goals try simp at h
  all_goals
    (obtain ⟨-, -, hk⟩ := h
     split at hk <;> split at hk <;> omega)

theorem matchUnicodeEscape_none_head (c : Nat) (t : CodeStr) (h : c ≠ 92) :
    matchUnicodeEscape (c :: t) = none := by
  unfold matchUnicodeEscape
  split
  · rename_i heq
    injection heq with h1 _
    exact absurd h1 h
  · rfl

theorem scanP_append_of_none {α : Type} (step : List α → Option (List α × Nat))
    (pre rest : List α)
    (h : ∀ c t, (c :: t) <:+ pre → step ((c :: t) ++ rest) = none) :
    scanP step (pre ++ rest) = pre ++ scanP step rest := by
  induction pre with
  | nil => rfl
  | cons c p ih =>
    rw [List.cons_append,
      scanP_cons_nomatch step c (p ++ rest) (h c p (List.suffix_refl _)),
      ih (fun c2 t2 ht2 => h c2 t2 (ht2.trans (List.suffix_cons c p)))]
    rfl

/-- The escape regex matches at the head of `\u(-)digits(?) ++ rest`,
consuming exactly the escape and producing the `unicode_replace`
replacement. -/
theorem matchUnicodeEscape_at (ds rest : CodeStr) (neg q : Bool)
    (hne : ds ≠ []) (hdig : ∀ d ∈ ds, isDigitCode d = true)
    (hstop : q = true ∨ (∀ d, rest.head? = some d → isDigitCode d = false ∧ d ≠ 63)) :
    matchUnicodeEscape
        ((92 :: 117 :: ((if neg then [45] else []) ++ ds ++ (if q then [63] else []))) ++ rest) =
      some
        (unicodeReplacement
            (if neg then -(digitsVal ds : Int) else (digitsVal ds : Int))
            (92 :: 117 :: ((if neg then [45] else []) ++ ds ++ (if q then [63] else []))),
          2 + (if neg then 1 else 0) + ds.length + (if q then 1 else 0)) := by
  obtain ⟨d0, ds1, rfl⟩ : ∃ d0 ds1, ds = d0 :: ds1 := by
    cases ds with
    | nil => exact absurd rfl hne
    | cons a t => exact ⟨a, t, rfl⟩
  have hd0 : 48 ≤ d0 ∧ d0 ≤ 57 := by
    simpa [isDigitCode] using hdig d0 (List.mem_cons_self _ _)
  cases neg <;> cases q
  · -- positive code, no trailing question mark
    rcases hstop with hq | hstop
    · exact absurd hq (by simp)
    have hd45 : (d0 = 45) = False := eq_false (by omega)
    have h63 : (rest.head? = some 63) = False :=
      eq_false (fun hh => (hstop 63 hh).2 rfl)
    have htake : (d0 :: (ds1 ++ rest)).takeWhile isDigitCode = d0 :: ds1 := by
      have := takeWhile_append_all isDigitCode (d0 :: ds1) rest hdig
        (fun a ha => (hstop a ha).1)
      simpa using this
    have hdrop : (d0 :: (ds1 ++ rest)).drop (d0 :: ds1).length = rest := by
      simpa using List.drop_left (d0 :: ds1) rest
    simp [matchUnicodeEscape, hd45, h63, htake, hdrop]
  · -- positive code with trailing question mark
    have hd45 : (d0 = 45) = False := eq_false (by omega)
    have htake : (d0 :: (ds1 ++ 63 :: rest)).takeWhile isDigitCode = d0 :: ds1 := by
      have := takeWhile_append_all isDigitCode (d0 :: ds1) (63 :: rest) hdig
        (fun a ha => by
          rw [List.head?_cons] at ha
          rw [← Option.some.inj ha]
          decide)
      simpa using this
    have hdrop : (d0 :: (ds1 ++ 63 :: rest)).drop (d0 :: ds1).length = 63 :: rest := by
      simpa using List.drop_left (d0 :: ds1) (63 :: rest)
    simp [matchUnicodeEscape, hd45, htake, hdrop]
  · -- negative code, no trailing question mark
    rcases hstop with hq | hstop
    · exact absurd hq (by simp)
    have h63 : (rest.head? = some 63) = False :=
      eq_false (fun hh => (hstop 63 hh).2 rfl)
    have htake : (d0 :: (ds1 ++ rest)).takeWhile isDigitCode = d0 :: ds1 := by
      have := takeWhile_append_all isDigitCode (d0 :: ds1) rest hdig
        (fun a ha => (hstop a ha).1)
      simpa using this
    have hdrop : ∀ L : Nat, (45 :: (d0 :: (ds1 ++ rest))).drop (1 + L) =
        (d0 :: (ds1 ++ rest)).drop L := by
      intro L
      rw [Nat.add_comm]
      exact List.drop_succ_cons
    have hdrop2 : (d0 :: (ds1 ++ rest)).drop (d0 :: ds1).length = rest := by
      simpa using List.drop_left (d0 :: ds1) rest
    simp [matchUnicodeEscape, h63, htake, hdrop, hdrop2]
  · -- negative code with trailing question mark
    have htake : (d0 :: (ds1 ++ 63 :: rest)).takeWhile isDigitCode = d0 :: ds1 := by
      have := takeWhile_append_all isDigitCode (d0 :: ds1) (63 :: rest) hdig
        (fun a ha => by
          rw [List.head?_cons] at ha
          rw [← Option.some.inj ha]
          decide)
      simpa using this
    have hdrop : ∀ L : Nat, (45 :: (d0 :: (ds1 ++ 63 :: rest))).drop (1 + L) =
        (d0 :: (ds1 ++ 63 :: rest)).drop L := by
      intro L
      rw [Nat.add_comm]
      exact List.drop_succ_cons
    have hdrop2 : (d0 :: (ds1 ++ 63 :: rest)).drop (d0 :: ds1).length = 63 :: rest := by
      simpa using List.drop_left (d0 :: ds1) (63 :: rest)
    simp [matchUnicodeEscape, htake, hdrop, hdrop2]

/-- **C1**: Unicode recovery in the rich-text parser.  (1) For any text
`pre ++ "\\u" ++ (-)digits(?) ++ rest` whose prefix contains no backslash,
`_fix_unicode_characters` replaces the whole escape by `unicode_replace`
of its code — the override table takes precedence, a negative code is
corrected by `+65536` before `chr`, out-of-range codes fall back to the
matched text — and continues on `rest`.  (2) Parsed text containing
`\\u228?` yields `ä` in `plain_text`, and (3) `\\u-268?` recovers the
code point `65536 - 268 = 65268` via the two's-complement correction. -/
theorem unicode_recovery :
    (∀ (pre ds rest : CodeStr) (neg q : Bool),
      (∀ c ∈ pre, c ≠ 92) → ds ≠ [] → (∀ d ∈ ds, isDigitCode d = true) →
      (q = true ∨ (∀ d, rest.head? = some d → isDigitCode d = false ∧ d ≠ 63)) →
      fixUnicodeCharacters
          (pre ++ (92 :: 117 :: ((if neg then [45] else []) ++ ds ++
            (if q then [63] else []))) ++ rest) =
        pre ++
          unicodeReplacement
            (if neg then -(digitsVal ds : Int) else (digitsVal ds : Int))
            (92 :: 117 :: ((if neg then [45] else []) ++ ds ++
              (if q then [63] else []))) ++
          fixUnicodeCharacters rest) ∧
    (parsePostBasic (codesOf "A \\u228? B")).plain_text = codesOf "A ä B" ∧
    (parsePostBasic (codesOf "A \\u-268? B")).plain_text = [65, 32, 65268, 32, 66] := by
  refine ⟨?_, by decide, by decide⟩
  intro pre ds rest neg q hpre hne hdig hstop
  unfold fixUnicodeCharacters
  rw [List.append_assoc pre]
  rw [scanP_append_of_none matchUnicodeEscape pre _ (fun c t ht =>
    matchUnicodeEscape_none_head c _ (hpre c (ht.subset (List.mem_cons_self _ _))))]
  rw [List.append_assoc pre]
  congr 1
  have hm := matchUnicodeEscape_at ds rest neg q hne hdig hstop
  simp only [List.cons_append] at hm ⊢
  rw [scanP_cons_match matchUnicodeEscape matchUnicodeEscape_pos _ _ _ _ hm]
  congr 1
  congr 1
  rw [show 2 + (if neg then 1 else 0) + ds.length + (if q then 1 else 0) =
      ((if neg then 1 else 0) + ds.length + (if q then 1 else 0)) + 1 + 1 by omega]
  rw [List.drop_succ_cons, List.drop_succ_cons]
  exact List.drop_left' (by cases neg <;> cases q <;> simp <;> omega)

theorem unicode_recovery_witness :
    fixUnicodeCharacters (codesOf "x\\u228?y") = [120, 228, 121] := by
  have h := unicode_recovery.1 [120] [50, 50, 56] [121] false true
    (by decide) (by decide) (by decide) (Or.inl rfl)
  have heq : codesOf "x\\u228?y" =
      [120] ++ (92 :: 117 :: ((if (false : Bool) then [45] else []) ++ [50, 50, 56] ++
        (if (true : Bool) then [63] else []))) ++ [121] := by decide
  rw [heq, h]
  decide

/-! ### C10: slide content invariants -/

theorem suffix_append_cases {α : Type} (l1 l2 l3 : List α) (h : l3 <:+ l1 ++ l2) :
    l3 <:+ l2 ∨ ∃ l', l3 = l' ++ l2 ∧ l' <:+ l1 := by
  obtain ⟨t, ht⟩ := h
  rcases List.append_eq_append_iff.mp ht with ⟨a', ha1, ha2⟩ | ⟨c', hc1, hc2⟩
  · exact Or.inr ⟨a', ha2, ⟨t, ha1.symm⟩⟩
  · exact Or.inl ⟨c', hc2.symm⟩

/-- The separator does not occur in the pieces of `splitOn`. -/
theorem sep_not_mem_splitOn {α : Type} [DecidableEq α] (x : α) (s : List α) :
    ∀ p ∈ s.splitOn x, x ∉ p := by
  induction s with
  | nil =>
    intro p hp
    rw [List.splitOn_nil] at hp
    simp at hp
    simp [hp]
  | cons a s ih =>
    intro p hp
    have hc : (a :: s).splitOn x = if (a == x) = true then [] :: s.splitOn x
        else (s.splitOn x).modifyHead (List.cons a) := List.splitOnP_cons _ a s
    rw [hc] at hp
    by_cases hax : a = x
    · rw [if_pos (by simp [hax])] at hp
      rcases List.mem_cons.mp hp with hp | hp
      · simp [hp]
      · exact ih p hp
    · rw [if_neg (by simp [hax])] at hp
      cases hsp : s.splitOn x with
      | nil => exact absurd hsp (List.splitOnP_ne_nil _ _)
      | cons q qs =>
        rw [hsp] at hp
        rcases List.mem_cons.mp hp with hp | hp
        · subst hp
          intro hmem
          rcases List.mem_cons.mp hmem with hmem | hmem
          · exact hax hmem.symm
          · exact ih q (hsp ▸ List.mem_cons_self _ _) hmem
        · exact ih p (hsp ▸ List.mem_cons_of_mem _ hp)

theorem pyStrip_last_not_space (l : Str) :
    ∀ c, (pyStrip l).getLast? = some c → pyIsSpace c = false := by
  intro c hc
  rw [show pyStrip l = ((l.dropWhile pyIsSpace).reverse.dropWhile pyIsSpace).reverse
    from rfl] at hc
  rw [List.getLast?_reverse] at hc
  exact head_dropWhile_not pyIsSpace _ c hc

theorem pyStrip_head_not_space (l : Str) :
    ∀ c, (pyStrip l).head? = some c → pyIsSpace c = false := by
  intro c hc
  have hpre : dropWhileEndP pyIsSpace (l.dropWhile pyIsSpace) <+:
      l.dropWhile pyIsSpace := dropWhileEndP_pre _ _
  have hX : (l.dropWhile pyIsSpace).head? = some c := by
    obtain ⟨r, hr⟩ := hpre
    rw [← hr]
    cases hA : dropWhileEndP pyIsSpace (l.dropWhile pyIsSpace) with
    | nil =>
      rw [show pyStrip l = dropWhileEndP pyIsSpace (l.dropWhile pyIsSpace) from rfl,
        hA] at hc
      simp at hc
    | cons a t =>
      rw [show pyStrip l = dropWhileEndP pyIsSpace (l.dropWhile pyIsSpace) from rfl,
        hA] at hc
      simpa using hc
  exact head_dropWhile_not pyIsSpace l c hX

theorem pyStrip_fixed_last (l : Str) (h : pyStrip l = l) :
    ∀ c, l.getLast? = some c → pyIsSpace c = false := by
  intro c hc
  rw [← h] at hc
  exact pyStrip_last_not_space l c hc

theorem pyStrip_fixed_head (l : Str) (h : pyStrip l = l) :
    ∀ c, l.head? = some c → pyIsSpace c = false := by
  intro c hc
  rw [← h] at hc
  exact pyStrip_head_not_space l c hc

theorem pyStrip_idem (s : Str) : pyStrip (pyStrip s) = pyStrip s :=
  pyStrip_eq_self (pyStrip s) (pyStrip_head_not_space s) (pyStrip_last_not_space s)

theorem head?_intercalate_cons (x : Char) (l1 : Str) (rest : List Str) (h : l1 ≠ []) :
    (List.intercalate [x] (l1 :: rest)).head? = l1.head? := by
  obtain ⟨c, t, rfl⟩ : ∃ c t, l1 = c :: t := by
    cases l1 with
    | nil => exact absurd rfl h
    | cons c t => exact ⟨c, t, rfl⟩
  cases rest with
  | nil => simp [List.intercalate]
  | cons l2 rest2 => simp [List.intercalate, List.intersperse_cons_cons]

theorem intercalate_cons_ne_nil (x : Char) (l1 : Str) (rest : List Str) (h : l1 ≠ []) :
    List.intercalate [x] (l1 :: rest) ≠ [] := by
  intro hh
  have h2 := head?_intercalate_cons x l1 rest h
  rw [hh] at h2
  cases l1 with
  | nil => exact h rfl
  | cons c t => simp at h2

theorem getLast?_intercalate_mem (x : Char) :
    ∀ (L : List Str), (∀ li ∈ L, li ≠ []) → ∀ c,
      (List.intercalate [x] L).getLast? = some c → ∃ li ∈ L, li.getLast? = some c := by
  intro L
  induction L with
  | nil =>
    intro _ c hc
    simp [List.intercalate] at hc
  | cons l1 rest ih =>
    intro hne c hc
    cases rest with
    | nil =>
      refine ⟨l1, List.mem_cons_self _ _, ?_⟩
      simpa [List.intercalate] using hc
    | cons l2 rest2 =>
      rw [show List.intercalate [x] (l1 :: l2 :: rest2) =
          l1 ++ ([x] ++ List.intercalate [x] (l2 :: rest2)) from by
        simp [List.intercalate, List.intersperse_cons_cons]] at hc
      rw [getLast?_append_ne _ _ (by simp)] at hc
      rw [getLast?_append_ne _ _
        (intercalate_cons_ne_nil x l2 rest2 (hne l2 (by simp)))] at hc
      obtain ⟨li, hmem, hlast⟩ :=
        ih (fun li hli => hne li (List.mem_cons_of_mem _ hli)) c hc
      exact ⟨li, List.mem_cons_of_mem _ hmem, hlast⟩

theorem mem_intercalate (x : Char) : ∀ (L : List Str) (c : Char),
    c ∈ List.intercalate [x] L → c = x ∨ ∃ li ∈ L, c ∈ li := by
  intro L
  induction L with
  | nil =>
    intro c hc
    simp [List.intercalate] at hc
  | cons l1 rest ih =>
    intro c hc
    cases rest with
    | nil =>
      right
      exact ⟨l1, by simp, by simpa [List.intercalate] using hc⟩
    | cons l2 rest2 =>
      rw [show List.intercalate [x] (l1 :: l2 :: rest2) =
          l1 ++ (x :: List.intercalate [x] (l2 :: rest2)) from by
        simp [List.intercalate, List.intersperse_cons_cons]] at hc
      rcases List.mem_append.mp hc with h | h
      · right
        exact ⟨l1, by simp, h⟩
      · rcases List.mem_cons.mp h with h | h
        · left
          exact h
        · rcases ih c h with h | ⟨li, hm, hc2⟩
          · left
            exact h
          · right
            exact ⟨li, List.mem_cons_of_mem _ hm, hc2⟩

/-- A slide joined from newline-free lines that do not end in a carriage
return contains no CR-LF pair. -/
theorem no_crlf_intercalate :
    ∀ (L : List Str), (∀ li ∈ L, '\n' ∉ li ∧ li.getLast? ≠ some '\x0d') →
      ∀ u v, u <:+ List.intercalate ['\n'] L → u = '\x0d' :: v →
        v.head? ≠ some '\n' := by
  intro L
  induction L with
  | nil =>
    intro _ u v hu hveq
    rw [show List.intercalate ['\n'] ([] : List Str) = [] from rfl] at hu
    rw [hveq] at hu
    simp at hu
  | cons l1 rest ih =>
    intro hL u v hu hveq
    cases rest with
    | nil =>
      rw [show List.intercalate ['\n'] [l1] = l1 from by simp [List.intercalate]] at hu
      subst hveq
      intro hh
      cases v with
      | nil => simp at hh
      | cons d v2 =>
        rw [List.head?_cons] at hh
        have hd := Option.some.inj hh
        subst hd
        exact (hL l1 (List.mem_cons_self _ _)).1
          (hu.subset (List.mem_cons_of_mem _ (List.mem_cons_self _ _)))
    | cons l2 rest2 =>
      rw [show List.intercalate ['\n'] (l1 :: l2 :: rest2) =
          l1 ++ ('\n' :: List.intercalate ['\n'] (l2 :: rest2)) from by
        simp [List.intercalate, List.intersperse_cons_cons]] at hu
      rcases suffix_append_cases l1 _ u hu with hcase | ⟨a', ha1, ha2⟩
      · rcases List.suffix_cons_iff.mp hcase with heq | hsuf
        · rw [hveq] at heq
          injection heq with h1 _
          exact absurd h1 (by decide)
        · exact ih (fun li hli => hL li (List.mem_cons_of_mem _ hli)) u v hsuf hveq
      · cases a' with
        | nil =>
          simp only [List.nil_append] at ha1
          rw [hveq] at ha1
          injection ha1 with h1 _
          exact absurd h1 (by decide)
        | cons b bs =>
          rw [hveq] at ha1
          rw [List.cons_append] at ha1
          injection ha1 with h1 h2
          cases bs with
          | nil =>
            have hend : l1.getLast? = some '\x0d' := by
              obtain ⟨w, hw⟩ := ha2
              rw [← hw, getLast?_append_ne _ _ (by simp)]
              simp [← h1]
            exact absurd hend (hL l1 (List.mem_cons_self _ _)).2
          | cons b2 bs2 =>
            intro hh
            rw [h2] at hh
            rw [List.cons_append, List.head?_cons] at hh
            have hb2 := Option.some.inj hh
            subst hb2
            exact (hL l1 (List.mem_cons_self _ _)).1
              (ha2.subset (List.mem_cons_of_mem _ (List.mem_cons_self _ _)))

theorem listReplace_crlf_id (sl : Str)
    (h : ∀ u v, u <:+ sl → u = '\x0d' :: v → v.head? ≠ some '\n') :
    listReplace ['\x0d', '\n'] ['\n'] sl = sl := by
  apply scanP_id_of_head _ _ (replaceStep_nil _ _ _)
  intro c t ht
  by_cases hc : c = '\x0d'
  · subst hc
    unfold replaceStep
    rw [if_neg]
    rintro ⟨-, hpre⟩
    have hp := List.isPrefixOf_iff_prefix.mp hpre
    obtain ⟨r, hr⟩ := (List.cons_prefix_cons.mp hp).2
    have hhead : t.head? = some '\n' := by
      rw [← hr]
      simp
    exact h ('\x0d' :: t) t ht rfl hhead
  · exact replaceStep_eq_none_head _ _ _ c t hc

theorem replaceStep_pos {α : Type} [DecidableEq α] (p : α) (ps rep : List α) :
    ∀ s out k, replaceStep (p :: ps) rep s = some (out, k) → 1 ≤ k := by
  intro s out k h
  unfold replaceStep at h
  split at h
  · have hk := congrArg Prod.snd (Option.some.inj h)
    simp only [List.length_cons] at hk
    omega
  · exact absurd h (by simp)

/-- The LF-to-CRLF encoding never produces a string starting with a bare
line feed. -/
theorem encode_head_ne_lf (t : Str) :
    (listReplace ['\n'] ['\x0d', '\n'] t).head? ≠ some '\n' := by
  cases t with
  | nil => simp [listReplace, scanP, scanPAux]
  | cons c t2 =>
    by_cases hc : c = '\n'
    · subst hc
      rw [show listReplace ['\n'] ['\x0d', '\n'] ('\n' :: t2) =
          ['\x0d', '\n'] ++ listReplace ['\n'] ['\x0d', '\n'] (('\n' :: t2).drop 1) from
        scanP_cons_match _ (replaceStep_pos '\n' [] ['\x0d', '\n']) _ _ _ _ (by
          unfold replaceStep
          rw [if_pos]
          · rfl
          · exact ⟨by simp, by simp [List.isPrefixOf]⟩)]
      simp
    · rw [show listReplace ['\n'] ['\x0d', '\n'] (c :: t2) =
          c :: listReplace ['\n'] ['\x0d', '\n'] t2 from
        scanP_cons_nomatch _ _ _ (replaceStep_eq_none_head '\n' [] ['\x0d', '\n'] c t2 hc)]
      simp [hc]

/-- Decoding CR-LF back to LF inverts the LF-to-CRLF encoding. -/
theorem decode_encode (y : Str) :
    listReplace ['\x0d', '\n'] ['\n'] (listReplace ['\n'] ['\x0d', '\n'] y) = y := by
  have H : ∀ (n : Nat) (y : Str), y.length ≤ n →
      listReplace ['\x0d', '\n'] ['\n'] (listReplace ['\n'] ['\x0d', '\n'] y) = y := by
    intro n
    induction n with
    | zero =>
      intro y hy
      have : y = [] := List.length_eq_zero.mp (Nat.le_zero.mp hy)
      subst this
      rfl
    | succ n ih =>
      intro y hy
      cases y with
      | nil => rfl
      | cons c t =>
        by_cases hc : c = '\n'
        · subst hc
          rw [show listReplace ['\n'] ['\x0d', '\n'] ('\n' :: t) =
              ['\x0d', '\n'] ++ listReplace ['\n'] ['\x0d', '\n'] (('\n' :: t).drop 1) from
            scanP_cons_match _ (replaceStep_pos '\n' [] ['\x0d', '\n']) _ _ _ _ (by
              unfold replaceStep
              rw [if_pos]
              · rfl
              · exact ⟨by simp, by simp [List.isPrefixOf]⟩)]
          rw [show (['\x0d', '\n'] ++ listReplace ['\n'] ['\x0d', '\n'] (('\n' :: t).drop 1)) =
              '\x0d' :: '\n' :: listReplace ['\n'] ['\x0d', '\n'] t from rfl]
          rw [show listReplace ['\x0d', '\n'] ['\n']
              ('\x0d' :: '\n' :: listReplace ['\n'] ['\x0d', '\n'] t) =
              ['\n'] ++ listReplace ['\x0d', '\n'] ['\n']
                (('\x0d' :: '\n' :: listReplace ['\n'] ['\x0d', '\n'] t).drop 2) from
            scanP_cons_match _ (replaceStep_pos '\x0d' ['\n'] ['\n']) _ _ _ _ (by
              unfold replaceStep
              rw [if_pos]
              · rfl
              · exact ⟨by simp, by simp [List.isPrefixOf]⟩)]
          rw [show (('\x0d' :: '\n' :: listReplace ['\n'] ['\x0d', '\n'] t).drop 2) =
              listReplace ['\n'] ['\x0d', '\n'] t from rfl]
          rw [ih t (by simpa using hy)]
          rfl
        · rw [show listReplace ['\n'] ['\x0d', '\n'] (c :: t) =
              c :: listReplace ['\n'] ['\x0d', '\n'] t from
            scanP_cons_nomatch _ _ _
              (replaceStep_eq_none_head '\n' [] ['\x0d', '\n'] c t hc)]
          by_cases hcr : c = '\x0d'
          · subst hcr
            rw [show listReplace ['\x0d', '\n'] ['\n']
                ('\x0d' :: listReplace ['\n'] ['\x0d', '\n'] t) =
                '\x0d' :: listReplace ['\x0d', '\n'] ['\n']
                  (listReplace ['\n'] ['\x0d', '\n'] t) from
              scanP_cons_nomatch _ _ _ (by
                unfold replaceStep
                rw [if_neg]
                rintro ⟨-, hpre⟩
                have hp := List.isPrefixOf_iff_prefix.mp hpre
                obtain ⟨r, hr⟩ := (List.cons_prefix_cons.mp hp).2
                have hhead : (listReplace ['\n'] ['\x0d', '\n'] t).head? = some '\n' := by
                  rw [← hr]
                  simp
                exact encode_head_ne_lf t hhead)]
            rw [ih t (by simpa using hy)]
          · rw [show listReplace ['\x0d', '\n'] ['\n']
                (c :: listReplace ['\n'] ['\x0d', '\n'] t) =
                c :: listReplace ['\x0d', '\n'] ['\n']
                  (listReplace ['\n'] ['\x0d', '\n'] t) from
              scanP_cons_nomatch _ _ _
                (replaceStep_eq_none_head '\x0d' ['\n'] ['\n'] c _ hcr)]
            rw [ih t (by simpa using hy)]
  exact H y.length y (le_refl _)

/-- Decoding the PlainText payload recovers the CR-LF-decoded stripped
content. -/
theorem payload_roundtrip (x : Str) :
    listReplace ['\x0d', '\n'] ['\n'] (plainTextPayload x) =
      listReplace ['\x0d', '\n'] ['\n'] (pyStrip x) := by
  unfold plainTextPayload
  exact decode_encode (listReplace ['\x0d', '\n'] ['\n'] (pyStrip x))

theorem chunksOf_nil {α : Type} (m : Nat) : chunksOf m ([] : List α) = [] := by
  unfold chunksOf
  cases m with
  | zero => simp
  | succ m2 => simp [Nat.div_eq_of_lt]

theorem chunksOf_cons_of {α : Type} (m : Nat) (hm : 1 ≤ m) (l : List α) (hl : l ≠ []) :
    chunksOf m l = l.take m :: chunksOf m (l.drop m) := by
  unfold chunksOf
  have hpos : 0 < l.length := List.length_pos.mpr hl
  have hlen : (l.length + m - 1) / m = ((l.drop m).length + m - 1) / m + 1 := by
    rw [List.length_drop]
    rcases Nat.lt_or_ge l.length m with h | h
    · rw [Nat.sub_eq_zero_of_le (le_of_lt h)]
      have h0 : (0 + m - 1) / m = 0 := Nat.div_eq_of_lt (by omega)
      rw [h0]
      have h1 : (l.length + m - 1) / m = 1 :=
        Nat.div_eq_of_lt_le (by omega) (by omega)
      omega
    · have h2 : l.length + m - 1 = (l.length - m + m - 1) + m := by omega
      rw [h2, Nat.add_div_right _ (by omega)]
  rw [hlen, List.range_succ_eq_map]
  simp only [List.map_cons, List.map_map]
  congr 1
  · simp
  · apply List.map_congr_left
    intro i hi
    simp only [Function.comp]
    rw [List.drop_drop]
    congr 2
    rw [Nat.succ_mul, Nat.mul_comm i m]
    exact Nat.add_comm _ _

theorem chunksOf_flatten {α : Type} (m : Nat) (hm : 1 ≤ m) :
    ∀ (n : Nat) (l : List α), l.length ≤ n → (chunksOf m l).flatMap id = l := by
  intro n
  induction n with
  | zero =>
    intro l h
    have hnil : l = [] := List.length_eq_zero.mp (Nat.le_zero.mp h)
    subst hnil
    rw [chunksOf_nil]
    rfl
  | succ n ih =>
    intro l h
    by_cases hl : l = []
    · subst hl
      rw [chunksOf_nil]
      rfl
    · rw [chunksOf_cons_of m hm l hl]
      rw [List.flatMap_cons]
      rw [ih (l.drop m) (by
        rw [List.length_drop]
        have := List.length_pos.mpr hl
        omega)]
      simpa using List.take_append_drop m l

theorem chunksOf_mem_props {α : Type} (m : Nat) (hm : 1 ≤ m) :
    ∀ (n : Nat) (l : List α), l.length ≤ n → ∀ ch ∈ chunksOf m l,
      ch ≠ [] ∧ ∀ a ∈ ch, a ∈ l := by
  intro n
  induction n with
  | zero =>
    intro l h ch hch
    have hnil : l = [] := List.length_eq_zero.mp (Nat.le_zero.mp h)
    subst hnil
    rw [chunksOf_nil] at hch
    cases hch
  | succ n ih =>
    intro l h ch hch
    by_cases hl : l = []
    · subst hl
      rw [chunksOf_nil] at hch
      cases hch
    · rw [chunksOf_cons_of m hm l hl] at hch
      rcases List.mem_cons.mp hch with hch | hch
      · subst hch
        constructor
        · intro hh
          have := congrArg List.length hh
          simp only [List.length_take, List.length_nil] at this
          have := List.length_pos.mpr hl
          omega
        · intro a ha
          exact List.mem_of_mem_take ha
      · obtain ⟨h1, h2⟩ := ih (l.drop m) (by
          rw [List.length_drop]
          have := List.length_pos.mpr hl
          omega) ch hch
        exact ⟨h1, fun a ha => List.mem_of_mem_drop (h2 a ha)⟩

/-- Specification of the natural-slide accumulation loop: the slides'
lines are, in order, the stripped non-blank input lines, and every slide
line is a non-blank stripped newline-free string. -/
theorem natFold_spec :
    ∀ (lines : List Str), (∀ l ∈ lines, '\n' ∉ l) →
    ∀ (done cur res : List Str),
      (∀ l ∈ cur, l ≠ [] ∧ pyStrip l = l ∧ '\n' ∉ l) →
      (∀ ns ∈ done, ∀ l ∈ ns.splitOn '\n', l ≠ [] ∧ pyStrip l = l ∧ '\n' ∉ l) →
      res = (fun fin : List Str × List Str =>
        if fin.2 ≠ [] then fin.1 ++ [List.intercalate ['\n'] fin.2] else fin.1)
        (lines.foldl
          (fun acc line =>
            if pyStrip line = [] then
              if acc.2 ≠ [] then (acc.1 ++ [List.intercalate ['\n'] acc.2], []) else acc
            else (acc.1, acc.2 ++ [pyStrip line])) (done, cur)) →
      res.flatMap (fun ns => ns.splitOn '\n') =
        done.flatMap (fun ns => ns.splitOn '\n') ++ cur ++
          (lines.map pyStrip).filter (fun l => l ≠ []) ∧
      ∀ ns ∈ res, ∀ l ∈ ns.splitOn '\n', l ≠ [] ∧ pyStrip l = l ∧ '\n' ∉ l := by
  intro lines
  induction lines with
  | nil =>
    intro _ done cur res hcur hdone hres
    simp only [List.foldl_nil] at hres
    by_cases hc : cur = []
    · subst hc
      simp only [ne_eq, not_true_eq_false, if_neg, List.append_nil] at hres
      subst hres
      refine ⟨by simp, hdone⟩
    · have hsplit : (List.intercalate ['\n'] cur).splitOn '\n' = cur :=
        List.splitOn_intercalate cur '\n' (fun l hl => (hcur l hl).2.2) hc
      rw [if_pos (by simpa using hc)] at hres
      subst hres
      constructor
      · rw [List.flatMap_append]
        simp [hsplit]
      · intro ns hns
        rcases List.mem_append.mp hns with hns | hns
        · exact hdone ns hns
        · have : ns = List.intercalate ['\n'] cur := by simpa using hns
          subst this
          rw [hsplit]
          exact hcur
  | cons line lines2 ih =>
    intro hnl done cur res hcur hdone hres
    rw [List.foldl_cons] at hres
    by_cases hl : pyStrip line = []
    · by_cases hc : cur = []
      · have hstep : (if pyStrip line = [] then
            if (done, cur).2 ≠ [] then
              ((done, cur).1 ++ [List.intercalate ['\n'] (done, cur).2], [])
            else (done, cur)
          else ((done, cur).1, (done, cur).2 ++ [pyStrip line])) = (done, cur) := by
          simp [hl, hc]
        rw [hstep] at hres
        obtain ⟨h1, h2⟩ := ih (fun l hml => hnl l (List.mem_cons_of_mem _ hml))
          done cur res hcur hdone hres
        refine ⟨?_, h2⟩
        rw [h1]
        simp [hl]
      · have hstep : (if pyStrip line = [] then
            if (done, cur).2 ≠ [] then
              ((done, cur).1 ++ [List.intercalate ['\n'] (done, cur).2], [])
            else (done, cur)
          else ((done, cur).1, (done, cur).2 ++ [pyStrip line])) =
            (done ++ [List.intercalate ['\n'] cur], []) := by
          simp [hl, hc]
        rw [hstep] at hres
        have hsplit : (List.intercalate ['\n'] cur).splitOn '\n' = cur :=
          List.splitOn_intercalate cur '\n' (fun l hml => (hcur l hml).2.2) hc
        have hdone2 : ∀ ns ∈ done ++ [List.intercalate ['\n'] cur],
            ∀ l ∈ ns.splitOn '\n', l ≠ [] ∧ pyStrip l = l ∧ '\n' ∉ l := by
          intro ns hns
          rcases List.mem_append.mp hns with hns | hns
          · exact hdone ns hns
          · have : ns = List.intercalate ['\n'] cur := by simpa using hns
            subst this
            rw [hsplit]
            exact hcur
        obtain ⟨h1, h2⟩ := ih (fun l hml => hnl l (List.mem_cons_of_mem _ hml))
          (done ++ [List.intercalate ['\n'] cur]) [] res (by simp) hdone2 hres
        refine ⟨?_, h2⟩
        rw [h1]
        rw [List.flatMap_append]
        simp [hsplit, hl]
    · have hstep : (if pyStrip line = [] then
          if (done, cur).2 ≠ [] then
            ((done, cur).1 ++ [List.intercalate ['\n'] (done, cur).2], [])
          else (done, cur)
        else ((done, cur).1, (done, cur).2 ++ [pyStrip line])) =
          (done, cur ++ [pyStrip line]) := by
        simp [hl]
      rw [hstep] at hres
      have hcur2 : ∀ l ∈ cur ++ [pyStrip line], l ≠ [] ∧ pyStrip l = l ∧ '\n' ∉ l := by
        intro l hml
        rcases List.mem_append.mp hml with hml | hml
        · exact hcur l hml
        · have : l = pyStrip line := by simpa using hml
          subst this
          exact ⟨hl, pyStrip_idem line,
            fun hmem => hnl line (List.mem_cons_self _ _) (mem_pyStrip line '\n' hmem)⟩
      obtain ⟨h1, h2⟩ := ih (fun l hml => hnl l (List.mem_cons_of_mem _ hml))
        done (cur ++ [pyStrip line]) res hcur2 hdone hres
      refine ⟨?_, h2⟩
      rw [h1]
      simp [hl]

theorem naturalSlides_spec (lines : List Str) (hnl : ∀ l ∈ lines, '\n' ∉ l) :
    (naturalSlides lines).flatMap (fun ns => ns.splitOn '\n') =
      (lines.map pyStrip).filter (fun l => l ≠ []) ∧
    ∀ ns ∈ naturalSlides lines, ∀ l ∈ ns.splitOn '\n',
      l ≠ [] ∧ pyStrip l = l ∧ '\n' ∉ l := by
  obtain ⟨h1, h2⟩ := natFold_spec lines hnl [] [] (naturalSlides lines)
    (by simp) (by simp) rfl
  refine ⟨?_, h2⟩
  rw [h1]
  simp

theorem pyStrip_eq_nil_of_all_space (s : Str) (h : ∀ c ∈ s, pyIsSpace c = true) :
    pyStrip s = [] := by
  unfold pyStrip
  rw [List.dropWhile_eq_nil_iff.mpr h]
  rfl

theorem all_space_of_pyStrip_nil (s : Str) (h : pyStrip s = []) :
    ∀ c ∈ s, pyIsSpace c = true := by
  intro c hc
  have hX : s.dropWhile pyIsSpace = [] := by
    by_contra hX
    obtain ⟨a, t, ha⟩ : ∃ a t, s.dropWhile pyIsSpace = a :: t := by
      cases hd : s.dropWhile pyIsSpace with
      | nil => exact absurd hd hX
      | cons a t => exact ⟨a, t, rfl⟩
    have hna : pyIsSpace a = false :=
      head_dropWhile_not pyIsSpace s a (by rw [ha]; rfl)
    have hrev : (a :: t).reverse.dropWhile pyIsSpace = [] := by
      have h2 : dropWhileEndP pyIsSpace (a :: t) = [] := by
        rw [← ha]
        exact h
      unfold dropWhileEndP at h2
      exact List.reverse_eq_nil_iff.mp h2
    have hfa := List.dropWhile_eq_nil_iff.mp hrev a (by simp)
    rw [hna] at hfa
    cases hfa
  exact List.dropWhile_eq_nil_iff.mp hX c hc

theorem strip_content_nil_of_filter_nil (content : Str)
    (hf : ((content.splitOn '\n').map pyStrip).filter (fun l => l ≠ []) = []) :
    pyStrip content = [] := by
  apply pyStrip_eq_nil_of_all_space
  intro c hc
  have hc2 : c ∈ List.intercalate ['\n'] (content.splitOn '\n') := by
    rw [List.intercalate_splitOn content '\n']
    exact hc
  rcases mem_intercalate '\n' _ c hc2 with h | ⟨li, hli, hcli⟩
  · subst h
    rfl
  · have hstrip : pyStrip li = [] := by
      have h2 := List.filter_eq_nil_iff.mp hf (pyStrip li)
        (List.mem_map_of_mem pyStrip hli)
      simpa using h2
    exact all_space_of_pyStrip_nil li hstrip c hcli

/-- **C10**: in every exported document a slide's text never contains a
blank line and every slide line is stripped: the per-slide lines are, in
order, exactly the section content's stripped non-blank lines (blank
lines are consumed solely as separators); each slide is itself stripped
and nonempty, and decoding the CR-LF-encoded PlainText payload of a slide
recovers the slide text; the `PlainText` attribute of a text element is
the base64 encoding of that payload. -/
theorem slide_content_invariants (cfg : Option Config) (content : Str)
    (hm : 1 ≤ cfgMaxLines cfg) :
    (splitContentIntoSlides cfg content).flatMap (fun sl => sl.splitOn '\n') =
      ((content.splitOn '\n').map pyStrip).filter (fun l => l ≠ []) ∧
    (∀ sl ∈ splitContentIntoSlides cfg content,
      sl ≠ [] ∧ pyStrip sl = sl ∧
      (∀ l ∈ sl.splitOn '\n', l ≠ [] ∧ pyStrip l = l) ∧
      listReplace ['\x0d', '\n'] ['\n'] (plainTextPayload sl) = sl) ∧
    (∀ guid s, ∃ attrs ch1 ch2 ch3 rest,
      createTextElement cfg guid s = XNode.elem (S "RVTextElement") attrs none
        (ch1 :: ch2 :: ch3 ::
          XNode.elem (S "NSString") [(S "rvXMLIvarName", S "PlainText")]
            (some (encodeBase64 (plainTextPayload s))) [] :: rest)) := by
  have hnl : ∀ l ∈ content.splitOn '\n', '\n' ∉ l := fun l hl =>
    sep_not_mem_splitOn '\n' content l hl
  obtain ⟨hflat, hprops⟩ := naturalSlides_spec (content.splitOn '\n') hnl
  have hstage :
      ((naturalSlides (content.splitOn '\n')).flatMap (fun ns =>
        if cfgAutoBreak cfg ∧ (ns.splitOn '\n').length > cfgMaxLines cfg then
          (chunksOf (cfgMaxLines cfg) (ns.splitOn '\n')).map (List.intercalate ['\n'])
        else [ns])).flatMap (fun sl => sl.splitOn '\n') =
      (naturalSlides (content.splitOn '\n')).flatMap (fun ns => ns.splitOn '\n') := by
    rw [List.bind_assoc]
    apply List.flatMap_congr
    intro ns hns
    by_cases hbr : cfgAutoBreak cfg ∧ (ns.splitOn '\n').length > cfgMaxLines cfg
    · rw [if_pos hbr]
      rw [List.flatMap_map]
      have hch : ∀ ch ∈ chunksOf (cfgMaxLines cfg) (ns.splitOn '\n'),
          (List.intercalate ['\n'] ch).splitOn '\n' = ch := by
        intro ch hchm
        obtain ⟨hne, hsub⟩ :=
          chunksOf_mem_props (cfgMaxLines cfg) hm _ _ (le_refl _) ch hchm
        exact List.splitOn_intercalate ch '\n'
          (fun l hl => (hprops ns hns l (hsub l hl)).2.2) hne
      rw [List.flatMap_congr hch]
      exact chunksOf_flatten (cfgMaxLines cfg) hm _ _ (le_refl _)
    · rw [if_neg hbr]
      simp
  have hfall : ¬((naturalSlides (content.splitOn '\n')).flatMap (fun ns =>
      if cfgAutoBreak cfg ∧ (ns.splitOn '\n').length > cfgMaxLines cfg then
        (chunksOf (cfgMaxLines cfg) (ns.splitOn '\n')).map (List.intercalate ['\n'])
      else [ns]) = [] ∧ pyStrip content ≠ []) := by
    rintro ⟨hnil, hne⟩
    apply hne
    apply strip_content_nil_of_filter_nil
    rw [← hflat, ← hstage, hnil]
    rfl
  have heq : splitContentIntoSlides cfg content =
      (naturalSlides (content.splitOn '\n')).flatMap (fun ns =>
        if cfgAutoBreak cfg ∧ (ns.splitOn '\n').length > cfgMaxLines cfg then
          (chunksOf (cfgMaxLines cfg) (ns.splitOn '\n')).map (List.intercalate ['\n'])
        else [ns]) := by
    simp only [splitContentIntoSlides]
    rw [if_neg hfall]
  refine ⟨?_, ?_, ?_⟩
  · rw [heq, hstage, hflat]
  · intro sl hsl
    rw [heq] at hsl
    have hlines : ∀ l ∈ sl.splitOn '\n', l ≠ [] ∧ pyStrip l = l ∧ '\n' ∉ l := by
      intro l hl
      obtain ⟨ns, hns, hsl2⟩ := List.mem_flatMap.mp hsl
      by_cases hbr : cfgAutoBreak cfg ∧ (ns.splitOn '\n').length > cfgMaxLines cfg
      · rw [if_pos hbr] at hsl2
        obtain ⟨ch, hchm, hint⟩ := List.mem_map.mp hsl2
        obtain ⟨hne, hsub⟩ :=
          chunksOf_mem_props (cfgMaxLines cfg) hm _ _ (le_refl _) ch hchm
        have hsp : sl.splitOn '\n' = ch := by
          rw [← hint]
          exact List.splitOn_intercalate ch '\n'
            (fun l2 hl2 => (hprops ns hns l2 (hsub l2 hl2)).2.2) hne
        rw [hsp] at hl
        exact hprops ns hns l (hsub l hl)
      · rw [if_neg hbr] at hsl2
        have hsn : sl = ns := by simpa using hsl2
        subst hsn
        exact hprops sl hns l hl
    obtain ⟨l1, rest, hL⟩ : ∃ l1 rest, sl.splitOn '\n' = l1 :: rest := by
      cases hLc : sl.splitOn '\n' with
      | nil => exact absurd hLc (List.splitOnP_ne_nil _ _)
      | cons a t => exact ⟨a, t, rfl⟩
    have hl1 : l1 ∈ sl.splitOn '\n' := by
      rw [hL]
      exact List.mem_cons_self _ _
    have hsl_eq : List.intercalate ['\n'] (sl.splitOn '\n') = sl :=
      List.intercalate_splitOn sl '\n'
    have hslne : sl ≠ [] := by
      intro hnil
      rw [hnil, List.splitOn_nil] at hL
      injection hL with h1 _
      exact (hlines l1 hl1).1 h1.symm
    have hstripsl : pyStrip sl = sl := by
      apply pyStrip_eq_self
      · intro c hc
        rw [← hsl_eq, hL,
          head?_intercalate_cons '\n' l1 rest (hlines l1 hl1).1] at hc
        exact pyStrip_fixed_head l1 (hlines l1 hl1).2.1 c hc
      · intro c hc
        rw [← hsl_eq, hL] at hc
        obtain ⟨li, hli, hlast⟩ := getLast?_intercalate_mem '\n' (l1 :: rest)
          (fun li hli => (hlines li (by rw [hL]; exact hli)).1) c hc
        exact pyStrip_fixed_last li (hlines li (by rw [hL]; exact hli)).2.1 c hlast
    have hnocrlf := no_crlf_intercalate (sl.splitOn '\n') (fun li hli =>
      ⟨(hlines li hli).2.2, fun hlst => by
        have hsp := pyStrip_fixed_last li (hlines li hli).2.1 '\x0d' hlst
        simp [pyIsSpace] at hsp⟩)
    refine ⟨hslne, hstripsl,
      fun l hl => ⟨(hlines l hl).1, (hlines l hl).2.1⟩, ?_⟩
    rw [payload_roundtrip, hstripsl]
    apply listReplace_crlf_id
    intro u v hu hveq
    apply hnocrlf u v ?_ hveq
    rw [hsl_eq]
    exact hu
  · intro guid s2
    exact ⟨_, _, _, _, _, rfl⟩

theorem slide_content_invariants_witness :
    (splitContentIntoSlides none (S "one\n\ntwo")).flatMap (fun sl => sl.splitOn '\n') =
      [S "one", S "two"] := by
  have h := (slide_content_invariants none (S "one\n\ntwo") (by decide)).1
  rw [h]
  decide

/-! ### C8: batch failure isolation -/

/-- When neither the remembered action nor the dialog outcome is
`cancel`, `_handle_duplicate` returns a non-cancel action and remembers a
non-cancel action. -/
theorem handleDuplicate_no_cancel (rem : Option Str) (choice : Option (Str × Str × Bool))
    (hrem : ∀ a, rem = some a → a ≠ S "cancel")
    (hcho : ∀ a custom b, choice = some (a, custom, b) → a ≠ S "cancel") :
    (handleDuplicate rem choice).1 ≠ S "cancel" ∧
    (∀ a, (handleDuplicate rem choice).2 = some a → a ≠ S "cancel") := by
  cases rem with
  | some a =>
    refine ⟨hrem a rfl, fun a2 ha2 => hrem a2 ?_⟩
    simp only [handleDuplicate] at ha2
    rw [ha2]
  | none =>
    cases choice with
    | none =>
      constructor
      · simp only [handleDuplicate]
        decide
      · intro a ha
        simp only [handleDuplicate] at ha
        cases ha
    | some t =>
      obtain ⟨a, custom, applyAll⟩ := t
      have hane := hcho a custom applyAll rfl
      by_cases hrc : a = S "rename_custom" ∧ custom ≠ []
      · constructor
        · simp only [handleDuplicate, if_pos hrc]
          intro hh
          have hlen := congrArg List.length hh
          rw [List.length_append] at hlen
          have h8 : (S "rename:").length = 7 := by decide
          have h6 : (S "cancel").length = 6 := by decide
          omega
        · intro a2 ha2
          simp only [handleDuplicate, if_pos hrc] at ha2
          cases applyAll with
          | false => simp at ha2
          | true =>
            simp at ha2
            rw [← ha2]
            exact hane
      · constructor
        · simp only [handleDuplicate, if_neg hrc]
          exact hane
        · intro a2 ha2
          simp only [handleDuplicate, if_neg hrc] at ha2
          cases applyAll with
          | false => simp at ha2
          | true =>
            simp at ha2
            rw [← ha2]
            exact hane

/-- The batch loop processes every remaining song — each iteration settles
exactly one song into the success or failure list — and converts each
per-song exception into its failure-list entry; the failure list only
grows. -/
theorem batchLoop_isolation (cfg : Option Config)
    (choices : Nat → Option (Str × Str × Bool)) (now : Str) (g : Nat → Str)
    (outputPath : Str)
    (hnc : ∀ i a custom b, choices i = some (a, custom, b) → a ≠ S "cancel") :
    ∀ (l : List (Nat × BatchItem)) (total : Nat) (st : BatchState),
      (∀ a, st.rem = some a → a ≠ S "cancel") →
      (batchLoop cfg choices now g outputPath l total st).succ.length +
          (batchLoop cfg choices now g outputPath l total st).fail.length =
        st.succ.length + st.fail.length + l.length ∧
      (∀ m ∈ st.fail, m ∈ (batchLoop cfg choices now g outputPath l total st).fail) ∧
      (∀ i item e, (i, item) ∈ l → item.exn = some e →
        (S "Unexpected error exporting '" ++ item.song.title ++ S "': " ++ e) ∈
          (batchLoop cfg choices now g outputPath l total st).fail) := by
  intro l total st
  induction l, total, st using batchLoop.induct cfg choices now g outputPath with
  | case1 total st =>
    intro _
    refine ⟨by simp [batchLoop], fun m hm => by simpa [batchLoop] using hm,
      fun i item e hmem _ => absurd hmem (by simp)⟩
  | case2 i item rest total st0 st1 e hexn ih =>
    intro hrem
    obtain ⟨h1, h2, h3⟩ := ih (fun a ha => hrem a ha)
    simp only [batchLoop, hexn]
    refine ⟨?_, ?_, ?_⟩
    · refine h1.trans ?_
      simp only [List.length_append, List.length_cons, List.length_nil]
      omega
    · intro m hm
      exact h2 m (by simp [hm])
    · intro i2 item2 e2 hmem hexn2
      rcases List.mem_cons.mp hmem with hmem | hmem
      · injection hmem with hi hitem
        subst hi
        subst hitem
        rw [hexn] at hexn2
        have he := Option.some.inj hexn2
        subst he
        exact h2 _ (by simp)
      · exact h3 i2 item2 e2 hmem hexn2
  | case3 i item rest total st0 st1 hexn stem path hdup ar st2 hskip ih =>
    intro hrem
    obtain ⟨har, hrem2⟩ := handleDuplicate_no_cancel st1.rem (choices i) hrem
      (fun a custom b hc => hnc i a custom b hc)
    obtain ⟨h1, h2, h3⟩ := ih (fun a ha => hrem2 a ha)
    simp only [batchLoop, hexn]
    rw [if_pos hdup, if_pos hskip]
    refine ⟨?_, ?_, ?_⟩
    · refine h1.trans ?_
      simp only [List.length_append, List.length_cons, List.length_nil]
      omega
    · intro m hm
      exact h2 m (by simp [hm])
    · intro i2 item2 e2 hmem hexn2
      rcases List.mem_cons.mp hmem with hmem | hmem
      · injection hmem with hi hitem
        subst hi
        subst hitem
        rw [hexn] at hexn2
        cases hexn2
      · exact h3 i2 item2 e2 hmem hexn2
  | case4 i item rest total st0 st1 hexn stem path hdup ar hnoskip hcancel =>
    intro hrem
    obtain ⟨har, -⟩ := handleDuplicate_no_cancel st1.rem (choices i) hrem
      (fun a custom b hc => hnc i a custom b hc)
    exact absurd hcancel har
  | case5 i item rest total st0 st1 hexn stem path hdup ar st2 hnoskip hnocancel stem2 st3 r ih =>
    intro hrem
    obtain ⟨har, hrem2⟩ := handleDuplicate_no_cancel st1.rem (choices i) hrem
      (fun a custom b hc => hnc i a custom b hc)
    obtain ⟨h1, h2, h3⟩ := ih (fun a ha => hrem2 a ha)
    simp only [batchLoop, hexn]
    rw [if_pos hdup, if_neg hnoskip, if_neg hnocancel]
    refine ⟨?_, ?_, ?_⟩
    · refine h1.trans ?_
      by_cases hr1 : r.1 = true <;> simp [hr1] <;> omega
    · intro m hm
      refine h2 m ?_
      by_cases hr1 : r.1 = true
      · simpa [hr1] using hm
      · simp [hr1, hm]
    · intro i2 item2 e2 hmem hexn2
      rcases List.mem_cons.mp hmem with hmem | hmem
      · injection hmem with hi hitem
        subst hi
        subst hitem
        rw [hexn] at hexn2
        cases hexn2
      · exact h3 i2 item2 e2 hmem hexn2
  | case6 i item rest total st0 st1 hexn stem path hnd st2 r ih =>
    intro hrem
    obtain ⟨h1, h2, h3⟩ := ih (fun a ha => hrem a ha)
    simp only [batchLoop, hexn]
    rw [if_neg hnd]
    refine ⟨?_, ?_, ?_⟩
    · refine h1.trans ?_
      by_cases hr1 : r.1 = true <;> simp [hr1] <;> omega
    · intro m hm
      refine h2 m ?_
      by_cases hr1 : r.1 = true
      · simpa [hr1] using hm
      · simp [hr1, hm]
    · intro i2 item2 e2 hmem hexn2
      rcases List.mem_cons.mp hmem with hmem | hmem
      · injection hmem with hi hitem
        subst hi
        subst hitem
        rw [hexn] at hexn2
        cases hexn2
      · exact h3 i2 item2 e2 hmem hexn2

/-- C8: batch failure isolation.  In `export_songs_batch` (with no `cancel`
dialog outcome), every song of the batch is settled — the success and
failure lists together contain exactly one entry per song, so an exception
in one song's per-song export path never aborts the processing of the
remaining songs — and each per-song exception is caught at the song
boundary and converted into the failure-list entry
`"Unexpected error exporting '<title>': <exception text>"`. -/
theorem batch_failure_isolation (cfg : Option Config) (items : List BatchItem)
    (outputPath : Str) (choices : Nat → Option (Str × Str × Bool))
    (now : Str) (g : Nat → Str) (fs : FS)
    (hnc : ∀ i a custom b, choices i = some (a, custom, b) → a ≠ S "cancel") :
    (exportSongsBatch cfg items outputPath choices now g fs).succ.length +
        (exportSongsBatch cfg items outputPath choices now g fs).fail.length =
      items.length ∧
    ∀ item ∈ items, ∀ e, item.exn = some e →
      (S "Unexpected error exporting '" ++ item.song.title ++ S "': " ++ e) ∈
        (exportSongsBatch cfg items outputPath choices now g fs).fail := by
  obtain ⟨h1, h2, h3⟩ := batchLoop_isolation cfg choices now g outputPath hnc
    items.enum items.length ⟨[], [], none, fs, []⟩ (fun a ha => by cases ha)
  constructor
  · dsimp only at h1
    simp only [List.length_nil, List.enum_length] at h1
    simp only [exportSongsBatch]
    omega
  · intro item hmem e hexn
    obtain ⟨n, hn⟩ := List.get?_of_mem hmem
    have henum : (n, item) ∈ items.enum := List.mk_mem_enum_iff_get?.mpr hn
    have hmsg := h3 n item e henum hexn
    simp only [exportSongsBatch]
    exact hmsg

/-- Witness for the batch-failure-isolation theorem: a concrete two-song
batch whose first item raises an exception; both songs are settled and the
exception text appears in the failure list. -/
theorem batch_failure_isolation_witness :
    (∀ (i : Nat) (a custom : Str) (b : Bool),
      (fun _ => (none : Option (Str × Str × Bool))) i = some (a, custom, b) →
      a ≠ S "cancel") ∧
    ((exportSongsBatch none
          [⟨⟨S "A", [], [], [], [], S "1"⟩, [], some (S "boom")⟩,
           ⟨⟨S "B", [], [], [], [], S "2"⟩, [], none⟩]
          (S "out") (fun _ => none) [] (fun _ => []) []).succ.length +
        (exportSongsBatch none
          [⟨⟨S "A", [], [], [], [], S "1"⟩, [], some (S "boom")⟩,
           ⟨⟨S "B", [], [], [], [], S "2"⟩, [], none⟩]
          (S "out") (fun _ => none) [] (fun _ => []) []).fail.length = 2 ∧
      ∀ item ∈ [(⟨⟨S "A", [], [], [], [], S "1"⟩, [], some (S "boom")⟩ : BatchItem),
                ⟨⟨S "B", [], [], [], [], S "2"⟩, [], none⟩], ∀ e, item.exn = some e →
        (S "Unexpected error exporting '" ++ item.song.title ++ S "': " ++ e) ∈
          (exportSongsBatch none
            [⟨⟨S "A", [], [], [], [], S "1"⟩, [], some (S "boom")⟩,
             ⟨⟨S "B", [], [], [], [], S "2"⟩, [], none⟩]
            (S "out") (fun _ => none) [] (fun _ => []) []).fail) :=
  ⟨fun _ _ _ _ h => Option.noConfusion h,
   batch_failure_isolation none
     [⟨⟨S "A", [], [], [], [], S "1"⟩, [], some (S "boom")⟩,
      ⟨⟨S "B", [], [], [], [], S "2"⟩, [], none⟩]
     (S "out") (fun _ => none) [] (fun _ => []) []
     (fun _ _ _ _ h => Option.noConfusion h)⟩

/-- Appending a progress event to an event trace preserves the
callback-before-attempt chain (the relation only constrains pairs whose
second component is an attempt). -/
theorem chain_concat_progress (items : List BatchItem) (total : Nat) (ev : List BEvent)
    (h : List.Chain' (attemptAfterItsCallback items total) ev) (i t : Nat) (lbl : Str) :
    List.Chain' (attemptAfterItsCallback items total) (ev ++ [BEvent.progress i t lbl]) := by
  rw [List.chain'_append]
  refine ⟨h, List.chain'_singleton _, fun x hx y hy => ?_⟩
  simp at hy
  subst hy
  intro j hj
  cases hj

/-- Appending an attempt event right after its own progress-callback event
preserves the callback-before-attempt chain. -/
theorem chain_concat_attempt (items : List BatchItem) (total : Nat) (ev : List BEvent)
    (i : Nat) (it : BatchItem) (hget : items.get? i = some it)
    (h : List.Chain' (attemptAfterItsCallback items total) ev)
    (hlast : ev.getLast? = some (BEvent.progress i total it.song.title)) :
    List.Chain' (attemptAfterItsCallback items total) (ev ++ [BEvent.attempt i]) := by
  rw [List.chain'_append]
  refine ⟨h, List.chain'_singleton _, fun x hx y hy => ?_⟩
  simp at hy
  subst hy
  rw [hlast] at hx
  simp at hx
  subst hx
  intro j hj
  injection hj with hj
  subst hj
  exact ⟨it, hget, rfl⟩

/-- Appending a non-attempt event never makes an attempt the head of a
trace whose head is no attempt. -/
theorem head_ne_attempt_concat (ev : List BEvent) (x : BEvent)
    (hx : ∀ j, x ≠ BEvent.attempt j)
    (h : ∀ i, ev.head? ≠ some (BEvent.attempt i)) :
    ∀ i, (ev ++ [x]).head? ≠ some (BEvent.attempt i) := by
  intro i
  cases ev with
  | nil => simpa using hx i
  | cons a t => simpa using h i

/-- Appending to a nonempty trace keeps its head. -/
theorem head_concat_of_ne_nil (ev : List BEvent) (x : BEvent) (h : ev ≠ []) :
    (ev ++ [x]).head? = ev.head? := by
  cases ev with
  | nil => exact absurd rfl h
  | cons a t => rfl

/-- Invariant of the batch loop's event trace: every export attempt for
song `i` is immediately preceded by the progress-callback event carrying
`i` and song `i`'s title, and the trace never starts with an attempt. -/
theorem batchLoop_events_inv (cfg : Option Config)
    (choices : Nat → Option (Str × Str × Bool)) (now : Str) (g : Nat → Str)
    (outputPath : Str) (items : List BatchItem) :
    ∀ (l : List (Nat × BatchItem)) (total : Nat) (st : BatchState),
      (∀ p ∈ l, items.get? p.1 = some p.2) →
      List.Chain' (attemptAfterItsCallback items total) st.events →
      (∀ i, st.events.head? ≠ some (BEvent.attempt i)) →
      List.Chain' (attemptAfterItsCallback items total)
        (batchLoop cfg choices now g outputPath l total st).events ∧
      (∀ i, (batchLoop cfg choices now g outputPath l total st).events.head? ≠
        some (BEvent.attempt i)) := by
  intro l total st
  induction l, total, st using batchLoop.induct cfg choices now g outputPath with
  | case1 total st =>
    intro _ hc hh
    exact ⟨by simpa [batchLoop] using hc, by simpa [batchLoop] using hh⟩
  | case2 i item rest total st0 st1 e hexn ih =>
    intro hl hc hh
    simp only [batchLoop, hexn]
    exact ih (fun p hp => hl p (List.mem_cons_of_mem _ hp))
      (chain_concat_progress items total st0.events hc i total item.song.title)
      (head_ne_attempt_concat st0.events _ (fun j h => BEvent.noConfusion h) hh)
  | case3 i item rest total st0 st1 hexn stem path hdup ar st2 hskip ih =>
    intro hl hc hh
    simp only [batchLoop, hexn]
    rw [if_pos hdup, if_pos hskip]
    exact ih (fun p hp => hl p (List.mem_cons_of_mem _ hp))
      (chain_concat_progress items total st0.events hc i total item.song.title)
      (head_ne_attempt_concat st0.events _ (fun j h => BEvent.noConfusion h) hh)
  | case4 i item rest total st0 st1 hexn stem path hdup ar hnoskip hcancel =>
    intro hl hc hh
    simp only [batchLoop, hexn]
    rw [if_pos hdup, if_neg hnoskip, if_pos hcancel]
    exact ⟨chain_concat_progress items total st0.events hc i total item.song.title,
      head_ne_attempt_concat st0.events _ (fun j h => BEvent.noConfusion h) hh⟩
  | case5 i item rest total st0 st1 hexn stem path hdup ar st2 hnoskip hnocancel stem2 st3 r ih =>
    intro hl hc hh
    simp only [batchLoop, hexn]
    rw [if_pos hdup, if_neg hnoskip, if_neg hnocancel]
    exact ih (fun p hp => hl p (List.mem_cons_of_mem _ hp))
      (chain_concat_attempt items total (st0.events ++ [BEvent.progress i total item.song.title])
        i item (hl (i, item) (List.mem_cons_self _ _))
        (chain_concat_progress items total st0.events hc i total item.song.title)
        (List.getLast?_concat _))
      (by
        intro i2
        rw [head_concat_of_ne_nil _ _ (by simp)]
        exact head_ne_attempt_concat st0.events _ (fun j h => BEvent.noConfusion h) hh i2)
  | case6 i item rest total st0 st1 hexn stem path hnd st2 r ih =>
    intro hl hc hh
    simp only [batchLoop, hexn]
    rw [if_neg hnd]
    exact ih (fun p hp => hl p (List.mem_cons_of_mem _ hp))
      (chain_concat_attempt items total (st0.events ++ [BEvent.progress i total item.song.title])
        i item (hl (i, item) (List.mem_cons_self _ _))
        (chain_concat_progress items total st0.events hc i total item.song.title)
        (List.getLast?_concat _))
      (by
        intro i2
        rw [head_concat_of_ne_nil _ _ (by simp)]
        exact head_ne_attempt_concat st0.events _ (fun j h => BEvent.noConfusion h) hh i2)

/-- C9 counterexample: the claim says the progress callback fires once
after each song's export completes; in the code it fires immediately
before each song's export attempt.  For a concrete two-song batch the
trace is: callback for song 0, attempt 0, callback for song 1, attempt 1,
completion callback — each per-song callback precedes its export instead
of following it. -/
theorem progress_callback_claim_counterexample :
    (exportSongsBatch none
        [⟨⟨S "C", [], [], [], [], S "1"⟩, [], none⟩,
         ⟨⟨S "D", [], [], [], [], S "2"⟩, [], none⟩]
        (S "out") (fun _ => none) [] (fun _ => []) []).events =
      [BEvent.progress 0 2 (S "C"), BEvent.attempt 0,
       BEvent.progress 1 2 (S "D"), BEvent.attempt 1,
       BEvent.progress 2 2 (S "Export complete")] := by decide

/-- C9 (amended): in every batch export, each song's export attempt is
immediately preceded by the progress-callback invocation carrying that
song's index, the song total and the song's title (so the callback fires
once before — not after — each song's export), the trace never begins
with an export attempt, and the trace always ends with the final callback
invocation `(total, total, "Export complete")`. -/
theorem progress_callback_timing (cfg : Option Config) (items : List BatchItem)
    (outputPath : Str) (choices : Nat → Option (Str × Str × Bool))
    (now : Str) (g : Nat → Str) (fs : FS) :
    List.Chain' (attemptAfterItsCallback items items.length)
      (exportSongsBatch cfg items outputPath choices now g fs).events ∧
    (∀ i, (exportSongsBatch cfg items outputPath choices now g fs).events.head? ≠
      some (BEvent.attempt i)) ∧
    (exportSongsBatch cfg items outputPath choices now g fs).events.getLast? =
      some (BEvent.progress items.length items.length (S "Export complete")) := by
  obtain ⟨hc, hh⟩ := batchLoop_events_inv cfg choices now g outputPath items
    items.enum items.length ⟨[], [], none, fs, []⟩
    (fun p hp => by
      obtain ⟨i, a⟩ := p
      exact List.mk_mem_enum_iff_get?.mp hp)
    (by simp) (by simp)
  refine ⟨?_, ?_, ?_⟩
  · simp only [exportSongsBatch]
    exact chain_concat_progress items items.length _ hc items.length items.length
      (S "Export complete")
  · simp only [exportSongsBatch]
    exact head_ne_attempt_concat _ _ (fun j h => BEvent.noConfusion h) hh
  · simp only [exportSongsBatch]
    exact List.getLast?_concat _

/-- A two-character infix never fits in the empty string. -/
theorem pairInfix_nil (a b : Char) : pairInfix a b [] ↔ False := by
  constructor
  · rintro ⟨l, r, h⟩
    cases l <;> simp_all
  · exact False.elim

/-- Peeling one character off a two-character-infix occurrence. -/
theorem pairInfix_cons (a b c : Char) (u : Str) :
    pairInfix a b (c :: u) ↔ (c = a ∧ u.head? = some b) ∨ pairInfix a b u := by
  constructor
  · rintro ⟨l, r, h⟩
    cases l with
    | nil =>
      injection h with h1 h2
      subst h1
      subst h2
      exact Or.inl ⟨rfl, rfl⟩
    | cons d l2 =>
      injection h with h1 h2
      exact Or.inr ⟨l2, r, h2⟩
  · rintro (⟨h1, h2⟩ | ⟨l, r, h⟩)
    · subst h1
      cases u with
      | nil => cases h2
      | cons e u2 =>
        injection h2 with h2
        subst h2
        exact ⟨[], u2, rfl⟩
    · exact ⟨c :: l, r, by rw [h]; rfl⟩

/-- Where a two-character infix of a concatenation can live: in the left
part, in the right part, or across the junction. -/
theorem pairInfix_append (a b : Char) : ∀ (s t : Str),
    pairInfix a b (s ++ t) ↔
      pairInfix a b s ∨ pairInfix a b t ∨
        (s.getLast? = some a ∧ t.head? = some b) := by
  intro s
  induction s with
  | nil =>
    intro t
    simp [pairInfix_nil]
  | cons c s2 ih =>
    intro t
    rw [List.cons_append, pairInfix_cons, pairInfix_cons, ih]
    cases s2 with
    | nil =>
      simp only [List.nil_append, List.getLast?_singleton, List.head?_cons, pairInfix_nil,
        Option.some.injEq]
      tauto
    | cons d s3 =>
      simp only [List.cons_append, List.head?_cons, List.getLast?_cons_cons]
      tauto

/-- Concatenation preserves pair-freeness when the junction is safe. -/
theorem not_pairInfix_append (a b : Char) (s t : Str) (hs : ¬ pairInfix a b s)
    (ht : ¬ pairInfix a b t) (hj : ¬(s.getLast? = some a ∧ t.head? = some b)) :
    ¬ pairInfix a b (s ++ t) := by
  rw [pairInfix_append]
  rintro (h | h | h)
  · exact hs h
  · exact ht h
  · exact hj h

/-- A string without the second character has no such pair. -/
theorem not_pairInfix_of_no_snd (a b : Char) (s : Str) (h : ∀ c ∈ s, c ≠ b) :
    ¬ pairInfix a b s := by
  rintro ⟨l, r, he⟩
  exact h b (by rw [he]; simp) rfl

/-- Prepending a character preserves pair-freeness when it does not start
a pair. -/
theorem not_pairInfix_cons (a b c : Char) (u : Str) (h : ¬ pairInfix a b u)
    (hc : ¬(c = a ∧ u.head? = some b)) : ¬ pairInfix a b (c :: u) := by
  rw [pairInfix_cons]
  tauto

/-- Attribute-value escaping removes `>`, `<` and `"` entirely. -/
theorem escAttrChar_props (c : Char) : ∀ d ∈ escAttrChar c, d ≠ '>' ∧ d ≠ '<' ∧ d ≠ '"' := by
  unfold escAttrChar
  split
  · intro d hd
    have hd2 : d ∈ ['&', 'a', 'm', 'p', ';'] := hd
    fin_cases hd2 <;> decide
  · split
    · intro d hd
      have hd2 : d ∈ ['&', 'l', 't', ';'] := hd
      fin_cases hd2 <;> decide
    · split
      · intro d hd
        have hd2 : d ∈ ['&', 'g', 't', ';'] := hd
        fin_cases hd2 <;> decide
      · split
        · intro d hd
          have hd2 : d ∈ ['&', 'q', 'u', 'o', 't', ';'] := hd
          fin_cases hd2 <;> decide
        · split
          · intro d hd
            have hd2 : d ∈ ['&', '#', '1', '3', ';'] := hd
            fin_cases hd2 <;> decide
          · split
            · intro d hd
              have hd2 : d ∈ ['&', '#', '1', '0', ';'] := hd
              fin_cases hd2 <;> decide
            · split
              · intro d hd
                have hd2 : d ∈ ['&', '#', '0', '9', ';'] := hd
                fin_cases hd2 <;> decide
              · rename_i h1 h2 h3 h4 h5 h6 h7
                intro d hd
                have hd2 : d ∈ [c] := hd
                fin_cases hd2
                exact ⟨h3, h2, h4⟩

/-- Escaped attribute values contain no `>`, `<` or `"`. -/
theorem escAttr_props (v : Str) : ∀ d ∈ escAttr v, d ≠ '>' ∧ d ≠ '<' ∧ d ≠ '"' := by
  intro d hd
  unfold escAttr at hd
  obtain ⟨c, _, hdc⟩ := List.mem_flatMap.mp hd
  exact escAttrChar_props c d hdc

/-- Text escaping removes `>` and `<` entirely. -/
theorem escCdataChar_props (c : Char) : ∀ d ∈ escCdataChar c, d ≠ '>' ∧ d ≠ '<' := by
  unfold escCdataChar
  split
  · intro d hd
    have hd2 : d ∈ ['&', 'a', 'm', 'p', ';'] := hd
    fin_cases hd2 <;> decide
  · split
    · intro d hd
      have hd2 : d ∈ ['&', 'l', 't', ';'] := hd
      fin_cases hd2 <;> decide
    · split
      · intro d hd
        have hd2 : d ∈ ['&', 'g', 't', ';'] := hd
        fin_cases hd2 <;> decide
      · rename_i h1 h2 h3
        intro d hd
        have hd2 : d ∈ [c] := hd
        fin_cases hd2
        exact ⟨h3, h2⟩

/-- Escaped element text contains no `>` or `<`. -/
theorem escCdata_props (t : Str) : ∀ d ∈ escCdata t, d ≠ '>' ∧ d ≠ '<' := by
  intro d hd
  unfold escCdata at hd
  obtain ⟨c, _, hdc⟩ := List.mem_flatMap.mp hd
  exact escCdataChar_props c d hdc

/-- A serialized attribute list contains no `>` or `<` when the keys are
free of them. -/
theorem serializeAttrs_props (attrs : List (Str × Str))
    (hk : ∀ p ∈ attrs, ∀ c ∈ p.1, c ≠ '>' ∧ c ≠ '<') :
    ∀ d ∈ serializeAttrs attrs, d ≠ '>' ∧ d ≠ '<' := by
  intro d hd
  unfold serializeAttrs at hd
  obtain ⟨p, hp, hdp⟩ := List.mem_flatMap.mp hd
  have hdp2 : d = ' ' ∨ d ∈ p.1 ∨ d = '=' ∨ d = '"' ∨ d ∈ escAttr p.2 ∨ d = '"' := by
    simpa using hdp
  rcases hdp2 with rfl | h | rfl | rfl | h | rfl
  · decide
  · exact ⟨(hk p hp d h).1, (hk p hp d h).2⟩
  · decide
  · decide
  · exact ⟨(escAttr_props p.2 d h).1, (escAttr_props p.2 d h).2.1⟩
  · decide

/-- A nonempty serialized attribute list ends with the closing quote. -/
theorem serializeAttrs_last (attrs : List (Str × Str)) :
    serializeAttrs attrs = [] ∨ (serializeAttrs attrs).getLast? = some '"' := by
  induction attrs with
  | nil => exact Or.inl rfl
  | cons p ps ih =>
    right
    have hpiece : (' ' :: p.1 ++ '=' :: '"' :: escAttr p.2 ++ ['"']).getLast? = some '"' := by
      have h2 : ' ' :: p.1 ++ '=' :: '"' :: escAttr p.2 ++ ['"'] =
          (' ' :: p.1 ++ '=' :: '"' :: escAttr p.2) ++ ['"'] := by simp
      rw [h2, List.getLast?_concat]
    have hun : serializeAttrs (p :: ps) =
        (' ' :: p.1 ++ '=' :: '"' :: escAttr p.2 ++ ['"']) ++ serializeAttrs ps := by
      simp [serializeAttrs]
    rcases ih with h | h
    · rw [hun, h, List.append_nil]
      exact hpiece
    · rw [hun]
      rw [getLast?_append_ne]
      · exact h
      · intro hnil
        rw [hnil] at h
        cases h

/-- A singleton has no two-character infix. -/
theorem not_pairInfix_single (a b x : Char) : ¬ pairInfix a b [x] := by
  rw [pairInfix_cons]
  rintro (⟨_, h⟩ | h)
  · cases h
  · exact (pairInfix_nil a b).mp h

/-- A two-character infix of a suffix is one of the whole string. -/
theorem pairInfix_of_suffix (a b : Char) (s t : Str) (h : t <:+ s)
    (hp : pairInfix a b t) : pairInfix a b s := by
  obtain ⟨u, hu⟩ := h
  obtain ⟨l, r, hl⟩ := hp
  exact ⟨u ++ l, r, by rw [← hu, hl]; simp⟩

/-- The head of a concatenation comes from the left part unless it is
empty. -/
theorem head?_append_cases {α : Type} (l l2 : List α) :
    (l ++ l2).head? = l.head? ∨ (l = [] ∧ (l ++ l2).head? = l2.head?) := by
  cases l with
  | nil => exact Or.inr ⟨rfl, rfl⟩
  | cons a t => exact Or.inl rfl

/-- A successful `([^>]*?)/>` scan means the string contains `/>`. -/
theorem scanA2_some_pair : ∀ (s : Str) (p : Str × Str), scanA2 s = some p →
    pairInfix '/' '>' s := by
  intro s
  induction s with
  | nil =>
    intro p h
    cases h
  | cons c t ih =>
    intro p h
    rw [pairInfix_cons]
    unfold scanA2 at h
    split at h
    · cases h
    · rename_i heq
      injection heq with h1 h2
      subst h1
      exact Or.inl ⟨rfl, by rw [h2]; rfl⟩
    · cases h
    · rename_i heq
      injection heq with h1 h2
      subst h2
      rcases Option.map_eq_some'.mp h with ⟨q, hq, -⟩
      exact Or.inr (ih q hq)

/-- A successful value-and-tail scan means the string contains `/>`. -/
theorem scanVA2_some_pair (s : Str) (x : Str × Str × Str) (h : scanVA2 s = some x) :
    pairInfix '/' '>' s := by
  unfold scanVA2 at h
  dsimp only at h
  split at h
  · rename_i s2 heq
    rcases Option.map_eq_some'.mp h with ⟨q, hq, -⟩
    have hp : pairInfix '/' '>' s2 := scanA2_some_pair s2 q hq
    have h2 : '"' :: s2 <:+ s := by
      rw [← heq]
      exact List.drop_suffix _ _
    exact pairInfix_of_suffix _ _ _ _ ((List.suffix_cons '"' s2).trans h2) hp
  · cases h

/-- A successful backtracking group-1 scan means the string contains `/>`. -/
theorem tryA1_some_pair : ∀ (s : Str) (acc : Str) (x : Str × Str × Str × Str),
    tryA1 acc s = some x → pairInfix '/' '>' s := by
  intro s
  induction s with
  | nil =>
    intro acc x h
    cases h
  | cons c t ih =>
    intro acc x h
    unfold tryA1 at h
    split at h
    · split at h
      · rename_i hsc
        have hp := scanVA2_some_pair _ _ hsc
        exact pairInfix_of_suffix _ _ _ _ (List.drop_suffix _ _) hp
      · split at h
        · cases h
        · rw [pairInfix_cons]
          exact Or.inr (ih _ _ h)
    · split at h
      · cases h
      · rw [pairInfix_cons]
        exact Or.inr (ih _ _ h)

/-- A successful self-closing-array match means the string contains `/>`. -/
theorem matchSCA_some_pair (s : Str) (x : Str × Str)
    (h : matchSelfClosingArray s = some x) : pairInfix '/' '>' s := by
  unfold matchSelfClosingArray at h
  split at h
  · cases htry : tryA1 [] (s.drop 6) with
    | none =>
      rw [htry] at h
      exact Option.noConfusion h
    | some y =>
      obtain ⟨a1, v, a2, rest⟩ := y
      exact pairInfix_of_suffix _ _ _ _ (List.drop_suffix _ _) (tryA1_some_pair _ _ _ htry)
  · cases h

/-- On a `/>`-free string the matcher never fires. -/
theorem matchSCA_none_of_good (s : Str) (h : ¬ pairInfix '/' '>' s) :
    matchSelfClosingArray s = none := by
  cases hm : matchSelfClosingArray s with
  | none => rfl
  | some x => exact absurd (matchSCA_some_pair s x hm) h

/-- The self-closing-tag fix is the identity on `/>`-free strings. -/
theorem fixAux_id_of_good : ∀ (fuel : Nat) (s : Str), ¬ pairInfix '/' '>' s →
    fixSelfClosingAux fuel s = s := by
  intro fuel
  induction fuel with
  | zero =>
    intro s _
    rfl
  | succ n ih =>
    intro s hs
    cases s with
    | nil => rfl
    | cons c t =>
      rw [fixSelfClosingAux, matchSCA_none_of_good _ hs]
      have ht : ¬ pairInfix '/' '>' t := by
        intro hp
        exact hs ((pairInfix_cons _ _ _ _).mpr (Or.inr hp))
      rw [ih t ht]

/-- The `([^>]*?)/>` scan consumes at least the terminator. -/
theorem scanA2_some_len : ∀ (s : Str) (p : Str × Str), scanA2 s = some p →
    p.2.length < s.length := by
  intro s
  induction s with
  | nil =>
    intro p h
    cases h
  | cons c t ih =>
    intro p h
    unfold scanA2 at h
    split at h
    · cases h
    · rename_i heq
      injection heq with h1 h2
      injection h with h
      subst h
      rw [h2]
      simp
      omega
    · cases h
    · rename_i heq
      injection heq with h1 h2
      subst h2
      rcases Option.map_eq_some'.mp h with ⟨q, hq, hqe⟩
      have := ih q hq
      rw [← hqe]
      simp
      omega

/-- The value-and-tail scan consumes at least one character. -/
theorem scanVA2_some_len (s : Str) (x : Str × Str × Str) (h : scanVA2 s = some x) :
    x.2.2.length < s.length := by
  unfold scanVA2 at h
  dsimp only at h
  split at h
  · rename_i s2 heq
    rcases Option.map_eq_some'.mp h with ⟨q, hq, hqe⟩
    have h1 := scanA2_some_len s2 q hq
    have h2 : ('"' :: s2).length ≤ s.length := by
      have : '"' :: s2 <:+ s := by
        rw [← heq]
        exact List.drop_suffix _ _
      exact List.IsSuffix.length_le this
    rw [← hqe]
    simp at h2 ⊢
    omega
  · cases h

/-- The backtracking group-1 scan consumes at least one character. -/
theorem tryA1_some_len : ∀ (s : Str) (acc : Str) (x : Str × Str × Str × Str),
    tryA1 acc s = some x → x.2.2.2.length < s.length := by
  intro s
  induction s with
  | nil =>
    intro acc x h
    cases h
  | cons c t ih =>
    intro acc x h
    unfold tryA1 at h
    by_cases hpre : hasPrefixL fixLit (c :: t) = true
    · rw [if_pos hpre] at h
      cases hsc : scanVA2 ((c :: t).drop fixLit.length) with
      | some y =>
        rw [hsc] at h
        obtain ⟨v, a2, rest⟩ := y
        have h6 : some (acc.reverse, v, a2, rest) = some x := h
        injection h6 with h6
        subst h6
        have h1 := scanVA2_some_len _ _ hsc
        have h2 : ((c :: t).drop fixLit.length).length ≤ (c :: t).length := by
          rw [List.length_drop]
          omega
        exact lt_of_lt_of_le h1 h2
      | none =>
        rw [hsc] at h
        by_cases hc : c = '>'
        · rw [if_pos hc] at h
          cases h
        · rw [if_neg hc] at h
          have h5 := ih _ _ h
          simp only [List.length_cons]
          omega
    · rw [if_neg hpre] at h
      by_cases hc : c = '>'
      · rw [if_pos hc] at h
        cases h
      · rw [if_neg hc] at h
        have h5 := ih _ _ h
        simp only [List.length_cons]
        omega

/-- A successful match consumes at least one character. -/
theorem matchSCA_some_len (s : Str) (rep rest : Str)
    (h : matchSelfClosingArray s = some (rep, rest)) : rest.length < s.length := by
  unfold matchSelfClosingArray at h
  split at h
  · cases htry : tryA1 [] (s.drop 6) with
    | none =>
      rw [htry] at h
      exact Option.noConfusion h
    | some y =>
      obtain ⟨a1, v, a2, rest2⟩ := y
      rw [htry] at h
      injection h with h
      injection h with h1 h2
      subst h2
      have h3 := tryA1_some_len _ _ _ htry
      have h4 : (s.drop 6).length ≤ s.length := by
        rw [List.length_drop]
        omega
      simp at h3
      omega
  · cases h

/-- The replacement emitted by a successful match starts with `<` and
ends with `>`. -/
theorem matchSCA_some_rep (s : Str) (rep rest : Str)
    (h : matchSelfClosingArray s = some (rep, rest)) :
    rep.head? = some '<' ∧ rep.getLast? = some '>' := by
  unfold matchSelfClosingArray at h
  split at h
  · cases htry : tryA1 [] (s.drop 6) with
    | none =>
      rw [htry] at h
      exact Option.noConfusion h
    | some y =>
      obtain ⟨a1, v, a2, rest2⟩ := y
      rw [htry] at h
      injection h with h
      injection h with h1 h2
      rw [← h1]
      constructor
      · rfl
      · rw [getLast?_append_ne _ _ (by decide)]
        decide
  · cases h

/-- The substitution output starts with `>` only if the input did: a
replacement always starts with `<`, and otherwise the first input
character is copied. -/
theorem fixAux_head (fuel : Nat) (t : Str)
    (h : (fixSelfClosingAux fuel t).head? = some '>') : t.head? = some '>' := by
  cases fuel with
  | zero => exact h
  | succ n =>
    cases t with
    | nil => exact h
    | cons c t2 =>
      rw [fixSelfClosingAux] at h
      cases hm : matchSelfClosingArray (c :: t2) with
      | some p =>
        obtain ⟨rep, rest⟩ := p
        rw [hm] at h
        obtain ⟨hrh, -⟩ := matchSCA_some_rep _ _ _ hm
        rcases head?_append_cases rep (fixSelfClosingAux n rest) with he | ⟨hnil, -⟩
        · rw [he, hrh] at h
          cases h
        · rw [hnil] at hrh
          cases hrh
      | none =>
        rw [hm] at h
        exact h

/-- On a safe string the substitution output contains no `/>`. -/
theorem fixAux_good : ∀ (fuel : Nat) (s : Str), SafeStr s → s.length ≤ fuel →
    ¬ pairInfix '/' '>' (fixSelfClosingAux fuel s) := by
  intro fuel
  induction fuel with
  | zero =>
    intro s hs hl
    have hnil : s = [] := List.eq_nil_of_length_eq_zero (Nat.le_zero.mp hl)
    subst hnil
    exact fun hp => (pairInfix_nil _ _).mp hp
  | succ n ih =>
    intro s hs hl
    cases hs with
    | nil => exact fun hp => (pairInfix_nil _ _).mp hp
    | rewrite_tag s2 rep rest hm hrep hsafe =>
      cases s with
      | nil =>
        rw [show matchSelfClosingArray [] = none from rfl] at hm
        cases hm
      | cons c t =>
        rw [fixSelfClosingAux, hm]
        apply not_pairInfix_append _ _ _ _ hrep
        · apply ih rest hsafe
          have := matchSCA_some_len _ _ _ hm
          simp only [List.length_cons] at hl this
          omega
        · rintro ⟨hlast, -⟩
          obtain ⟨-, hr⟩ := matchSCA_some_rep _ _ _ hm
          rw [hr] at hlast
          cases hlast
    | skip c t hnone hpair hsafe =>
      rw [fixSelfClosingAux, hnone]
      apply not_pairInfix_cons
      · apply ih t hsafe
        simp only [List.length_cons] at hl
        omega
      · rintro ⟨hc, hh⟩
        exact hpair ⟨hc, fixAux_head n t hh⟩

/-- A non-`<` character never starts a match. -/
theorem matchSCA_none_head (c : Char) (t : Str) (h : c ≠ '<') :
    matchSelfClosingArray (c :: t) = none := by
  unfold matchSelfClosingArray
  rw [if_neg]
  rw [show S "<array" = '<' :: 'a' :: 'r' :: 'r' :: 'a' :: 'y' :: [] from rfl]
  simp only [hasPrefixL, Bool.and_eq_true, decide_eq_true_eq]
  rintro ⟨h1, -⟩
  exact h h1.symm

/-- `<` followed by a non-`a` character never starts a match. -/
theorem matchSCA_none_second (c : Char) (t : Str) (h : c ≠ 'a') :
    matchSelfClosingArray ('<' :: c :: t) = none := by
  unfold matchSelfClosingArray
  rw [if_neg]
  rw [show S "<array" = '<' :: 'a' :: 'r' :: 'r' :: 'a' :: 'y' :: [] from rfl]
  simp only [hasPrefixL, Bool.and_eq_true, decide_eq_true_eq]
  rintro ⟨-, h1, -⟩
  exact h h1.symm

/-- A `>` can always be skipped safely. -/
theorem safeStr_gt (rest : Str) (h : SafeStr rest) : SafeStr ('>' :: rest) :=
  SafeStr.skip '>' rest (matchSCA_none_head '>' rest (by decide))
    (by rintro ⟨hc, -⟩; exact absurd hc (by decide)) h

/-- A run of characters free of `<` and `>` can be skipped safely,
provided it does not end in `/` right before a `>`. -/
theorem safeStr_plain : ∀ (s : Str) (rest : Str),
    (∀ c ∈ s, c ≠ '<' ∧ c ≠ '>') →
    ¬(s.getLast? = some '/' ∧ rest.head? = some '>') →
    SafeStr rest → SafeStr (s ++ rest) := by
  intro s
  induction s with
  | nil =>
    intro rest _ _ hr
    exact hr
  | cons c s2 ih =>
    intro rest hch hbound hr
    have htail : SafeStr (s2 ++ rest) := by
      apply ih rest (fun d hd => hch d (List.mem_cons_of_mem _ hd)) ?_ hr
      rintro ⟨hl, hh⟩
      apply hbound
      refine ⟨?_, hh⟩
      cases s2 with
      | nil => cases hl
      | cons d s3 => rw [List.getLast?_cons_cons]; exact hl
    apply SafeStr.skip c (s2 ++ rest) (matchSCA_none_head c _ (hch c (by simp)).1) ?_ htail
    rintro ⟨hc, hh⟩
    cases s2 with
    | nil =>
      apply hbound
      subst hc
      exact ⟨rfl, hh⟩
    | cons d s3 =>
      simp only [List.cons_append, List.head?_cons, Option.some.injEq] at hh
      exact (hch d (by simp)).2 hh

/-- A closing tag can be walked safely. -/
theorem safeStr_closer (tag rest : Str) (htag1 : tag ≠ [])
    (htag : ∀ c ∈ tag, c ≠ '>' ∧ c ≠ '/' ∧ c ≠ '<') (hr : SafeStr rest) :
    SafeStr ('<' :: '/' :: (tag ++ ('>' :: rest))) := by
  obtain ⟨a0, tag2, rfl⟩ : ∃ a0 tag2, tag = a0 :: tag2 := by
    cases tag with
    | nil => exact absurd rfl htag1
    | cons a0 tag2 => exact ⟨a0, tag2, rfl⟩
  have h1 : SafeStr ((a0 :: tag2) ++ ('>' :: rest)) := by
    apply safeStr_plain _ _ (fun c hc => ⟨(htag c hc).2.2, (htag c hc).1⟩) ?_
      (safeStr_gt rest hr)
    rintro ⟨hl, -⟩
    exact (htag '/' (mem_of_getLast?_eq _ _ hl)).2.1 rfl
  have h2 : SafeStr ('/' :: ((a0 :: tag2) ++ ('>' :: rest))) := by
    apply SafeStr.skip '/' _ (matchSCA_none_head '/' _ (by decide)) ?_ h1
    rintro ⟨-, hh⟩
    simp only [List.cons_append, List.head?_cons, Option.some.injEq] at hh
    exact (htag a0 (by simp)).1 hh
  apply SafeStr.skip '<' _ (matchSCA_none_second '/' _ (by decide)) ?_ h2
  rintro ⟨hc, -⟩
  exact absurd hc (by decide)

/-- A list is a prefix of itself followed by anything. -/
theorem hasPrefixL_append_self : ∀ (p t : Str), hasPrefixL p (p ++ t) = true := by
  intro p
  induction p with
  | nil =>
    intro t
    rfl
  | cons a q ih =>
    intro t
    simp [hasPrefixL, ih]

/-- Matching a quote-terminated pattern against a quote-free run followed
by a quote succeeds exactly when the run equals the pattern body. -/
theorem hasPrefixL_quote : ∀ (q E t : Str), '"' ∉ q → (∀ c ∈ E, c ≠ '"') →
    (hasPrefixL (q ++ ['"']) (E ++ '"' :: t) = true ↔ E = q) := by
  intro q
  induction q with
  | nil =>
    intro E t _ hE
    cases E with
    | nil => simp [hasPrefixL]
    | cons e E2 =>
      simp only [List.nil_append, List.cons_append, hasPrefixL, Bool.and_eq_true,
        decide_eq_true_eq]
      constructor
      · rintro ⟨h, -⟩
        exact absurd h.symm (hE e (by simp))
      · intro h
        cases h
  | cons a q2 ih =>
    intro E t hq hE
    cases E with
    | nil =>
      simp only [List.cons_append, List.nil_append, hasPrefixL, Bool.and_eq_true,
        decide_eq_true_eq]
      constructor
      · rintro ⟨h, -⟩
        exact absurd (List.mem_cons.mpr (Or.inl h.symm)) hq
      · intro h
        cases h
    | cons e E2 =>
      simp only [List.cons_append, hasPrefixL, Bool.and_eq_true, decide_eq_true_eq,
        List.append_eq]
      rw [ih E2 t (fun hm => hq (List.mem_cons_of_mem a hm))
        (fun c hc => hE c (List.mem_cons_of_mem e hc))]
      constructor
      · rintro ⟨h1, h2⟩
        rw [h1.symm, h2]
      · intro h
        injection h with h1 h2
        exact ⟨h1.symm, h2⟩

/-- One scanner step over a position where the literal does not match. -/
theorem tryA1_step_nolit (c : Char) (t acc : Str)
    (h1 : hasPrefixL fixLit (c :: t) = false) (h2 : c ≠ '>') :
    tryA1 acc (c :: t) = tryA1 (c :: acc) t := by
  simp only [tryA1]
  rw [if_neg (by simp [h1]), if_neg h2]

/-- One scanner step over a literal position whose value-and-tail scan
fails. -/
theorem tryA1_step_litfail (c : Char) (t acc : Str)
    (h1 : hasPrefixL fixLit (c :: t) = true)
    (h2 : scanVA2 ((c :: t).drop fixLit.length) = none) (h3 : c ≠ '>') :
    tryA1 acc (c :: t) = tryA1 (c :: acc) t := by
  simp only [tryA1]
  rw [if_pos h1, h2]
  rw [show (match (none : Option (Str × Str × Str)) with
      | some (v, a2, rest) => some (acc.reverse, v, a2, rest)
      | none => if c = '>' then none else tryA1 (c :: acc) t) =
      (if c = '>' then none else tryA1 (c :: acc) t) from rfl]
  rw [if_neg h3]

/-- The scanner stops at a `>` that is no literal position. -/
theorem tryA1_stop (t acc : Str) (h1 : hasPrefixL fixLit ('>' :: t) = false) :
    tryA1 acc ('>' :: t) = none := by
  simp only [tryA1]
  rw [if_neg (by simp [h1])]
  simp

/-- The value-and-tail scan fails on a quote-free run whose closing quote
is followed directly by the tag-closing `>`. -/
theorem scanVA2_E_none (E rest : Str) (hE : ∀ c ∈ E, c ≠ '"') :
    scanVA2 (E ++ ('"' :: '>' :: rest)) = none := by
  unfold scanVA2
  dsimp only
  rw [takeWhile_append_all _ E ('"' :: '>' :: rest)
    (fun a ha => by simp [hE a ha]) (fun a ha => by injection ha with ha; simp [← ha]),
    List.drop_left]
  rfl

/-- The value-and-tail scan succeeds on a quote-free run whose closing
quote is followed by `/>`. -/
theorem scanVA2_E_some (E rest : Str) (hE : ∀ c ∈ E, c ≠ '"') :
    scanVA2 (E ++ ('"' :: '/' :: '>' :: rest)) = some (E, [], rest) := by
  unfold scanVA2
  dsimp only
  rw [takeWhile_append_all _ E ('"' :: '/' :: '>' :: rest)
    (fun a ha => by simp [hE a ha]) (fun a ha => by injection ha with ha; simp [← ha]),
    List.drop_left]
  rfl

/-- Walking a quote-free, `>`-free attribute-value run that does not end
in the literal body never produces a match before the tag-closing `>`. -/
theorem tryA1_E_none : ∀ (E acc rest : Str),
    (∀ c ∈ E, c ≠ '"' ∧ c ≠ '>') → ¬ (S "rvXMLIvarName=" <:+ E) →
    tryA1 acc (E ++ ('"' :: '>' :: rest)) = none := by
  intro E
  induction E with
  | nil =>
    intro acc rest _ _
    rw [List.nil_append, tryA1_step_nolit '"' _ _ (by simp [fixLit, hasPrefixL]) (by decide)]
    exact tryA1_stop _ _ (by simp [fixLit, hasPrefixL])
  | cons e E2 ih =>
    intro acc rest hE hsuf
    have hlit : hasPrefixL fixLit ((e :: E2) ++ '"' :: '>' :: rest) = false := by
      have hiff := hasPrefixL_quote (S "rvXMLIvarName=") (e :: E2) ('>' :: rest)
        (by decide) (fun c hc => (hE c hc).1)
      rw [show fixLit = S "rvXMLIvarName=" ++ ['"'] from rfl]
      cases hb : hasPrefixL (S "rvXMLIvarName=" ++ ['"']) ((e :: E2) ++ '"' :: '>' :: rest) with
      | false => rfl
      | true =>
        have heq := hiff.mp hb
        exact absurd (heq ▸ List.suffix_refl (e :: E2)) hsuf
    rw [List.cons_append, tryA1_step_nolit e _ _ (by rw [← List.cons_append]; exact hlit)
      (hE e (by simp)).2]
    exact ih (e :: acc) rest (fun c hc => hE c (List.mem_cons_of_mem e hc))
      (fun hs => hsuf (by obtain ⟨u, hu⟩ := hs; exact ⟨e :: u, by rw [← hu]; rfl⟩))

/-- The matcher rewrites a serialized self-closing array tag with a
single quote-free `rvXMLIvarName` value into the explicit open/close
pair, consuming exactly the tag. -/
theorem matchSCA_W (E rest : Str) (hE : ∀ c ∈ E, c ≠ '"') :
    matchSelfClosingArray ('<' :: 'a' :: 'r' :: 'r' :: 'a' :: 'y' :: ' ' ::
        ('r' :: 'v' :: 'X' :: 'M' :: 'L' :: 'I' :: 'v' :: 'a' :: 'r' :: 'N' :: 'a' ::
          'm' :: 'e' :: '=' :: '"' :: (E ++ ('"' :: '/' :: '>' :: rest)))) =
      some (S "<array" ++ [' '] ++ fixLit ++ E ++ '"' :: [] ++ S "></array>", rest) := by
  have htry : tryA1 []
      ((' ' :: ('r' :: 'v' :: 'X' :: 'M' :: 'L' :: 'I' :: 'v' :: 'a' :: 'r' :: 'N' :: 'a' ::
        'm' :: 'e' :: '=' :: '"' :: (E ++ ('"' :: '/' :: '>' :: rest)))) : Str) =
      some ([' '], E, [], rest) := by
    rw [tryA1_step_nolit ' ' _ _ (by simp [fixLit, hasPrefixL]) (by decide)]
    simp only [tryA1]
    rw [if_pos (by
      rw [show ('r' :: 'v' :: 'X' :: 'M' :: 'L' :: 'I' :: 'v' :: 'a' :: 'r' :: 'N' :: 'a' ::
        'm' :: 'e' :: '=' :: '"' :: (E ++ ('"' :: '/' :: '>' :: rest)) : Str) =
        fixLit ++ (E ++ ('"' :: '/' :: '>' :: rest)) from rfl]
      exact hasPrefixL_append_self fixLit _)]
    rw [show (('r' :: 'v' :: 'X' :: 'M' :: 'L' :: 'I' :: 'v' :: 'a' :: 'r' :: 'N' :: 'a' ::
        'm' :: 'e' :: '=' :: '"' :: (E ++ ('"' :: '/' :: '>' :: rest)) : Str)).drop
          fixLit.length = E ++ ('"' :: '/' :: '>' :: rest) from rfl]
    rw [scanVA2_E_some E rest hE]
    rfl
  unfold matchSelfClosingArray
  rw [if_pos (by
    rw [show S "<array" = '<' :: 'a' :: 'r' :: 'r' :: 'a' :: 'y' :: [] from rfl]
    simp [hasPrefixL])]
  rw [show ('<' :: 'a' :: 'r' :: 'r' :: 'a' :: 'y' :: ' ' ::
      ('r' :: 'v' :: 'X' :: 'M' :: 'L' :: 'I' :: 'v' :: 'a' :: 'r' :: 'N' :: 'a' ::
        'm' :: 'e' :: '=' :: '"' :: (E ++ ('"' :: '/' :: '>' :: rest))) : Str).drop 6 =
      (' ' :: ('r' :: 'v' :: 'X' :: 'M' :: 'L' :: 'I' :: 'v' :: 'a' :: 'r' :: 'N' :: 'a' ::
        'm' :: 'e' :: '=' :: '"' :: (E ++ ('"' :: '/' :: '>' :: rest))) : Str) from rfl]
  rw [htry]

/-- The matcher never fires on a serialized explicit array open tag with
a single quote-free, `>`-free `rvXMLIvarName` value that does not end in
the literal body. -/
theorem matchSCA_arrayopen_none (E rest : Str)
    (hE : ∀ c ∈ E, c ≠ '"' ∧ c ≠ '>') (hsuf : ¬ (S "rvXMLIvarName=" <:+ E)) :
    matchSelfClosingArray ('<' :: 'a' :: 'r' :: 'r' :: 'a' :: 'y' :: ' ' ::
        ('r' :: 'v' :: 'X' :: 'M' :: 'L' :: 'I' :: 'v' :: 'a' :: 'r' :: 'N' :: 'a' ::
          'm' :: 'e' :: '=' :: '"' :: (E ++ ('"' :: '>' :: rest)))) = none := by
  have htry : tryA1 []
      ((' ' :: ('r' :: 'v' :: 'X' :: 'M' :: 'L' :: 'I' :: 'v' :: 'a' :: 'r' :: 'N' :: 'a' ::
        'm' :: 'e' :: '=' :: '"' :: (E ++ ('"' :: '>' :: rest)))) : Str) = none := by
    rw [tryA1_step_nolit ' ' _ _ (by simp [fixLit, hasPrefixL]) (by decide)]
    rw [tryA1_step_litfail 'r' _ _ (by
        rw [show ('r' :: 'v' :: 'X' :: 'M' :: 'L' :: 'I' :: 'v' :: 'a' :: 'r' :: 'N' :: 'a' ::
          'm' :: 'e' :: '=' :: '"' :: (E ++ ('"' :: '>' :: rest)) : Str) =
          fixLit ++ (E ++ ('"' :: '>' :: rest)) from rfl]
        exact hasPrefixL_append_self fixLit _)
      (by
        rw [show (('r' :: 'v' :: 'X' :: 'M' :: 'L' :: 'I' :: 'v' :: 'a' :: 'r' :: 'N' :: 'a' ::
          'm' :: 'e' :: '=' :: '"' :: (E ++ ('"' :: '>' :: rest)) : Str)).drop
            fixLit.length = E ++ ('"' :: '>' :: rest) from rfl]
        exact scanVA2_E_none E rest (fun c hc => (hE c hc).1))
      (by decide)]
    rw [tryA1_step_nolit 'v' _ _ (by simp [fixLit, hasPrefixL]) (by decide)]
    rw [tryA1_step_nolit 'X' _ _ (by simp [fixLit, hasPrefixL]) (by decide)]
    rw [tryA1_step_nolit 'M' _ _ (by simp [fixLit, hasPrefixL]) (by decide)]
    rw [tryA1_step_nolit 'L' _ _ (by simp [fixLit, hasPrefixL]) (by decide)]
    rw [tryA1_step_nolit 'I' _ _ (by simp [fixLit, hasPrefixL]) (by decide)]
    rw [tryA1_step_nolit 'v' _ _ (by simp [fixLit, hasPrefixL]) (by decide)]
    rw [tryA1_step_nolit 'a' _ _ (by simp [fixLit, hasPrefixL]) (by decide)]
    rw [tryA1_step_nolit 'r' _ _ (by simp [fixLit, hasPrefixL]) (by decide)]
    rw [tryA1_step_nolit 'N' _ _ (by simp [fixLit, hasPrefixL]) (by decide)]
    rw [tryA1_step_nolit 'a' _ _ (by simp [fixLit, hasPrefixL]) (by decide)]
    rw [tryA1_step_nolit 'm' _ _ (by simp [fixLit, hasPrefixL]) (by decide)]
    rw [tryA1_step_nolit 'e' _ _ (by simp [fixLit, hasPrefixL]) (by decide)]
    rw [tryA1_step_nolit '=' _ _ (by simp [fixLit, hasPrefixL]) (by decide)]
    rw [tryA1_step_nolit '"' _ _ (by simp [fixLit, hasPrefixL]) (by decide)]
    exact tryA1_E_none E _ rest hE hsuf
  unfold matchSelfClosingArray
  rw [if_pos (by
    rw [show S "<array" = '<' :: 'a' :: 'r' :: 'r' :: 'a' :: 'y' :: [] from rfl]
    simp [hasPrefixL])]
  rw [show ('<' :: 'a' :: 'r' :: 'r' :: 'a' :: 'y' :: ' ' ::
      ('r' :: 'v' :: 'X' :: 'M' :: 'L' :: 'I' :: 'v' :: 'a' :: 'r' :: 'N' :: 'a' ::
        'm' :: 'e' :: '=' :: '"' :: (E ++ ('"' :: '>' :: rest))) : Str).drop 6 =
      (' ' :: ('r' :: 'v' :: 'X' :: 'M' :: 'L' :: 'I' :: 'v' :: 'a' :: 'r' :: 'N' :: 'a' ::
        'm' :: 'e' :: '=' :: '"' :: (E ++ ('"' :: '>' :: rest))) : Str) from rfl]
  rw [htry]

/-- A decidable scan for the absence of a two-character infix. -/
theorem pairFreeChain (a b : Char) : ∀ (s : Str),
    List.Chain' (fun c d => ¬(c = a ∧ d = b)) s → ¬ pairInfix a b s := by
  intro s
  induction s with
  | nil =>
    intro _
    exact fun hp => (pairInfix_nil a b).mp hp
  | cons c t ih =>
    intro hch
    rw [List.chain'_cons'] at hch
    apply not_pairInfix_cons _ _ _ _ (ih hch.2)
    rintro ⟨h1, h2⟩
    exact hch.1 b h2 ⟨h1, rfl⟩

/-- Walking the serialized form of an explicit element is safe provided
the head position does not match and the pieces are well-formed. -/
theorem safe_block (tag A T C rest : Str)
    (htag1 : tag ≠ []) (htag : ∀ c ∈ tag, c ≠ '>' ∧ c ≠ '/' ∧ c ≠ '<')
    (hA : ∀ c ∈ A, c ≠ '>' ∧ c ≠ '<') (hAlast : A = [] ∨ A.getLast? = some '"')
    (hT : ∀ c ∈ T, c ≠ '>' ∧ c ≠ '<')
    (hCrec : ∀ r, SafeStr r → SafeStr (C ++ r)) (hCh : ∀ c, C.head? = some c → c = '<')
    (hmatch : matchSelfClosingArray
        ('<' :: (tag ++ (A ++ ('>' :: (T ++ (C ++ ('<' :: '/' :: (tag ++ ('>' :: rest))))))))) =
      none)
    (hr : SafeStr rest) :
    SafeStr ('<' :: (tag ++ (A ++ ('>' :: (T ++ (C ++ ('<' :: '/' :: (tag ++ ('>' :: rest))))))))) := by
  have hcl : SafeStr ('<' :: '/' :: (tag ++ ('>' :: rest))) :=
    safeStr_closer tag rest htag1 htag hr
  have h2 : SafeStr (C ++ ('<' :: '/' :: (tag ++ ('>' :: rest)))) := hCrec _ hcl
  have h3 : SafeStr (T ++ (C ++ ('<' :: '/' :: (tag ++ ('>' :: rest))))) := by
    apply safeStr_plain T _ (fun c hc => ⟨(hT c hc).2, (hT c hc).1⟩) ?_ h2
    rintro ⟨-, hh⟩
    rcases head?_append_cases C ('<' :: '/' :: (tag ++ ('>' :: rest))) with he | ⟨-, he⟩
    · rw [he] at hh
      exact absurd (hCh '>' hh) (by decide)
    · rw [he] at hh
      simp at hh
  have h4 : SafeStr ('>' :: (T ++ (C ++ ('<' :: '/' :: (tag ++ ('>' :: rest)))))) :=
    safeStr_gt _ h3
  have h5 : SafeStr (A ++ ('>' :: (T ++ (C ++ ('<' :: '/' :: (tag ++ ('>' :: rest))))))) := by
    apply safeStr_plain A _ (fun c hc => ⟨(hA c hc).2, (hA c hc).1⟩) ?_ h4
    rintro ⟨hl, -⟩
    rcases hAlast with he | he
    · rw [he] at hl
      cases hl
    · rw [he] at hl
      cases hl
  have h6 : SafeStr (tag ++ (A ++ ('>' :: (T ++ (C ++ ('<' :: '/' :: (tag ++ ('>' :: rest)))))))) := by
    apply safeStr_plain tag _ (fun c hc => ⟨(htag c hc).2.2, (htag c hc).1⟩) ?_ h5
    rintro ⟨hl, hh⟩
    rcases head?_append_cases A ('>' :: (T ++ (C ++ ('<' :: '/' :: (tag ++ ('>' :: rest)))))) with
      he | ⟨hnil, -⟩
    · rw [he] at hh
      exact (hA '>' (List.mem_of_mem_head? hh)).1 rfl
    · exact (htag '/' (mem_of_getLast?_eq _ _ hl)).2.1 rfl
  exact SafeStr.skip '<' _ hmatch (by rintro ⟨hc, -⟩; exact absurd hc (by decide)) h6

/-- The replacement the matcher produces for a self-closing array tag
with a `>`-free value is free of `/>`. -/
theorem goodW (E : Str) (hE : ∀ c ∈ E, c ≠ '>') :
    ¬ pairInfix '/' '>' (S "<array" ++ [' '] ++ fixLit ++ E ++ '"' :: [] ++ S "></array>") := by
  have hsh : S "<array" ++ [' '] ++ fixLit ++ E ++ '"' :: [] ++ S "></array>" =
      ('<' :: 'a' :: 'r' :: 'r' :: 'a' :: 'y' :: ' ' :: 'r' :: 'v' :: 'X' :: 'M' :: 'L' ::
        'I' :: 'v' :: 'a' :: 'r' :: 'N' :: 'a' :: 'm' :: 'e' :: '=' :: '"' :: []) ++
      (E ++ ('"' :: '>' :: '<' :: '/' :: 'a' :: 'r' :: 'r' :: 'a' :: 'y' :: '>' :: [])) := by
    rw [show S "<array" = '<' :: 'a' :: 'r' :: 'r' :: 'a' :: 'y' :: [] from rfl,
      show fixLit = 'r' :: 'v' :: 'X' :: 'M' :: 'L' :: 'I' :: 'v' :: 'a' :: 'r' :: 'N' ::
        'a' :: 'm' :: 'e' :: '=' :: '"' :: [] from rfl,
      show S "></array>" = '>' :: '<' :: '/' :: 'a' :: 'r' :: 'r' :: 'a' :: 'y' :: '>' :: []
        from rfl]
    simp
  rw [hsh]
  apply not_pairInfix_append
  · exact not_pairInfix_of_no_snd _ _ _ (by decide)
  · apply not_pairInfix_append
    · exact not_pairInfix_of_no_snd _ _ _ hE
    · apply pairFreeChain
      simp [List.chain'_cons]
    · rintro ⟨-, hh⟩
      simp at hh
  · rintro ⟨hl, -⟩
    exact absurd hl (by decide)

/-- The value-and-tail scan on a quote-free run whose closing quote is
followed by ElementTree's ` />` captures the blank into the third
group. -/
theorem scanVA2_E_some_sp (E rest : Str) (hE : ∀ c ∈ E, c ≠ '"') :
    scanVA2 (E ++ ('"' :: ' ' :: '/' :: '>' :: rest)) = some (E, [' '], rest) := by
  unfold scanVA2
  dsimp only
  rw [takeWhile_append_all _ E ('"' :: ' ' :: '/' :: '>' :: rest)
    (fun a ha => by simp [hE a ha]) (fun a ha => by injection ha with ha; simp [← ha]),
    List.drop_left]
  rfl

/-- The matcher rewrites an `ET.tostring`-serialized self-closing array
tag — with ElementTree's blank before the `/>` — with a single quote-free
`rvXMLIvarName` value into the explicit open/close pair, consuming exactly
the tag. -/
theorem matchSCA_Wsp (E rest : Str) (hE : ∀ c ∈ E, c ≠ '"') :
    matchSelfClosingArray ('<' :: 'a' :: 'r' :: 'r' :: 'a' :: 'y' :: ' ' ::
        ('r' :: 'v' :: 'X' :: 'M' :: 'L' :: 'I' :: 'v' :: 'a' :: 'r' :: 'N' :: 'a' ::
          'm' :: 'e' :: '=' :: '"' :: (E ++ ('"' :: ' ' :: '/' :: '>' :: rest)))) =
      some (S "<array" ++ [' '] ++ fixLit ++ E ++ '"' :: [' '] ++ S "></array>", rest) := by
  have htry : tryA1 []
      ((' ' :: ('r' :: 'v' :: 'X' :: 'M' :: 'L' :: 'I' :: 'v' :: 'a' :: 'r' :: 'N' :: 'a' ::
        'm' :: 'e' :: '=' :: '"' :: (E ++ ('"' :: ' ' :: '/' :: '>' :: rest)))) : Str) =
      some ([' '], E, [' '], rest) := by
    rw [tryA1_step_nolit ' ' _ _ (by simp [fixLit, hasPrefixL]) (by decide)]
    simp only [tryA1]
    rw [if_pos (by
      rw [show ('r' :: 'v' :: 'X' :: 'M' :: 'L' :: 'I' :: 'v' :: 'a' :: 'r' :: 'N' :: 'a' ::
        'm' :: 'e' :: '=' :: '"' :: (E ++ ('"' :: ' ' :: '/' :: '>' :: rest)) : Str) =
        fixLit ++ (E ++ ('"' :: ' ' :: '/' :: '>' :: rest)) from rfl]
      exact hasPrefixL_append_self fixLit _)]
    rw [show (('r' :: 'v' :: 'X' :: 'M' :: 'L' :: 'I' :: 'v' :: 'a' :: 'r' :: 'N' :: 'a' ::
        'm' :: 'e' :: '=' :: '"' :: (E ++ ('"' :: ' ' :: '/' :: '>' :: rest)) : Str)).drop
          fixLit.length = E ++ ('"' :: ' ' :: '/' :: '>' :: rest) from rfl]
    rw [scanVA2_E_some_sp E rest hE]
    rfl
  unfold matchSelfClosingArray
  rw [if_pos (by
    rw [show S "<array" = '<' :: 'a' :: 'r' :: 'r' :: 'a' :: 'y' :: [] from rfl]
    simp [hasPrefixL])]
  rw [show ('<' :: 'a' :: 'r' :: 'r' :: 'a' :: 'y' :: ' ' ::
      ('r' :: 'v' :: 'X' :: 'M' :: 'L' :: 'I' :: 'v' :: 'a' :: 'r' :: 'N' :: 'a' ::
        'm' :: 'e' :: '=' :: '"' :: (E ++ ('"' :: ' ' :: '/' :: '>' :: rest))) : Str).drop 6 =
      (' ' :: ('r' :: 'v' :: 'X' :: 'M' :: 'L' :: 'I' :: 'v' :: 'a' :: 'r' :: 'N' :: 'a' ::
        'm' :: 'e' :: '=' :: '"' :: (E ++ ('"' :: ' ' :: '/' :: '>' :: rest))) : Str) from rfl]
  rw [htry]

/-- The replacement the matcher produces for an `ET.tostring`-style
self-closing array tag (blank captured in the third group) with a
`>`-free value is free of `/>`. -/
theorem goodW_sp (E : Str) (hE : ∀ c ∈ E, c ≠ '>') :
    ¬ pairInfix '/' '>'
      (S "<array" ++ [' '] ++ fixLit ++ E ++ '"' :: [' '] ++ S "></array>") := by
  have hsh : S "<array" ++ [' '] ++ fixLit ++ E ++ '"' :: [' '] ++ S "></array>" =
      ('<' :: 'a' :: 'r' :: 'r' :: 'a' :: 'y' :: ' ' :: 'r' :: 'v' :: 'X' :: 'M' :: 'L' ::
        'I' :: 'v' :: 'a' :: 'r' :: 'N' :: 'a' :: 'm' :: 'e' :: '=' :: '"' :: []) ++
      (E ++ ('"' :: ' ' :: '>' :: '<' :: '/' :: 'a' :: 'r' :: 'r' :: 'a' :: 'y' :: '>' ::
        [])) := by
    rw [show S "<array" = '<' :: 'a' :: 'r' :: 'r' :: 'a' :: 'y' :: [] from rfl,
      show fixLit = 'r' :: 'v' :: 'X' :: 'M' :: 'L' :: 'I' :: 'v' :: 'a' :: 'r' :: 'N' ::
        'a' :: 'm' :: 'e' :: '=' :: '"' :: [] from rfl,
      show S "></array>" = '>' :: '<' :: '/' :: 'a' :: 'r' :: 'r' :: 'a' :: 'y' :: '>' :: []
        from rfl]
    simp
  rw [hsh]
  apply not_pairInfix_append
  · exact not_pairInfix_of_no_snd _ _ _ (by decide)
  · apply not_pairInfix_append
    · exact not_pairInfix_of_no_snd _ _ _ hE
    · apply pairFreeChain
      simp [List.chain'_cons]
    · rintro ⟨-, hh⟩
      simp at hh
  · rintro ⟨hl, -⟩
    exact absurd hl (by decide)

mutual

/-- `minidom.toprettyxml` output of a well-formed tree scans safely under
the self-closing-tag substitution (childless arrays re-serialize as
self-closing tags, which the matcher rewrites; everything else is walked
without producing a `/>`), and it starts with `<`. -/
theorem mdser_safe : ∀ (x : XNode), xmlOk x →
    (∀ (rest : Str), SafeStr rest → SafeStr (minidomSerialize x ++ rest)) ∧
      (minidomSerialize x).head? = some '<'
  | .elem tag attrs txt children => by
    intro hok
    simp only [xmlOk] at hok
    obtain ⟨htag1, htag, hkeys, harr, hchild, hcl⟩ := hok
    obtain ⟨hLrec, hLhead⟩ := mdserList_safe children hcl
    have hmain : ∀ (T : Str), (∀ c ∈ T, c ≠ '>' ∧ c ≠ '<') → ∀ (rest : Str), SafeStr rest →
        SafeStr (((((('<' :: tag ++ serializeAttrs attrs) ++ '>' :: T) ++
          minidomSerializeList children) ++ S "</") ++ tag ++ ['>']) ++ rest) := by
      intro T hT rest hr
      have hsh : ((((('<' :: tag ++ serializeAttrs attrs) ++ '>' :: T) ++
            minidomSerializeList children) ++ S "</") ++ tag ++ ['>']) ++ rest =
          '<' :: (tag ++ (serializeAttrs attrs ++ ('>' :: (T ++ (minidomSerializeList children
            ++ ('<' :: '/' :: (tag ++ ('>' :: rest)))))))) := by
        rw [show S "</" = ['<', '/'] from rfl]
        simp
      rw [hsh]
      have hmatch : matchSelfClosingArray
          ('<' :: (tag ++ (serializeAttrs attrs ++ ('>' :: (T ++ (minidomSerializeList children
            ++ ('<' :: '/' :: (tag ++ ('>' :: rest))))))))) = none := by
        by_cases htarr : tag = S "array"
        · rw [if_pos htarr] at harr
          obtain ⟨v, hattrs, hlit⟩ := harr
          subst htarr
          subst hattrs
          have hsh2 : '<' :: (S "array" ++ (serializeAttrs [(S "rvXMLIvarName", v)] ++
              ('>' :: (T ++ (minidomSerializeList children ++
                ('<' :: '/' :: (S "array" ++ ('>' :: rest)))))))) =
              '<' :: 'a' :: 'r' :: 'r' :: 'a' :: 'y' :: ' ' ::
                ('r' :: 'v' :: 'X' :: 'M' :: 'L' :: 'I' :: 'v' :: 'a' :: 'r' :: 'N' :: 'a' ::
                  'm' :: 'e' :: '=' :: '"' :: (escAttr v ++ ('"' :: '>' ::
                    (T ++ (minidomSerializeList children ++
                      ('<' :: '/' :: (S "array" ++ ('>' :: rest)))))))) := by
            rw [show S "array" = 'a' :: 'r' :: 'r' :: 'a' :: 'y' :: [] from rfl,
              show S "rvXMLIvarName" = 'r' :: 'v' :: 'X' :: 'M' :: 'L' :: 'I' :: 'v' :: 'a' ::
                'r' :: 'N' :: 'a' :: 'm' :: 'e' :: [] from rfl]
            simp [serializeAttrs]
          rw [hsh2]
          exact matchSCA_arrayopen_none (escAttr v) _
            (fun c hc => ⟨(escAttr_props v c hc).2.2, (escAttr_props v c hc).1⟩) hlit
        · rw [if_neg htarr] at harr
          obtain ⟨t0, tag2, rfl⟩ : ∃ t0 tag2, tag = t0 :: tag2 := by
            cases tag with
            | nil => exact absurd rfl htag1
            | cons t0 tag2 => exact ⟨t0, tag2, rfl⟩
          apply matchSCA_none_second t0 _
          intro ht0
          apply harr
          rw [ht0]
          rfl
      exact safe_block tag (serializeAttrs attrs) T (minidomSerializeList children) rest
        htag1 htag (fun c hc => ⟨(serializeAttrs_props attrs hkeys c hc).1,
          (serializeAttrs_props attrs hkeys c hc).2⟩)
        (serializeAttrs_last attrs) hT hLrec hLhead hmatch hr
    cases txt with
    | none =>
      cases children with
      | nil =>
        obtain ⟨t, htxt, -⟩ := hchild rfl
        cases htxt
      | cons y ys =>
        simp only [minidomSerialize]
        exact ⟨fun rest hr => hmain [] (by simp) rest hr, rfl⟩
    | some t2 =>
      cases t2 with
      | cons c2 t3 =>
        simp only [minidomSerialize]
        refine ⟨fun rest hr => hmain (escCdata (c2 :: t3))
          (fun c hc => ⟨(escCdata_props _ c hc).1, (escCdata_props _ c hc).2⟩) rest hr, rfl⟩
      | nil =>
        cases children with
        | cons y ys =>
          simp only [minidomSerialize]
          exact ⟨fun rest hr => hmain [] (by simp) rest hr, rfl⟩
        | nil =>
          obtain ⟨t, htxt, htarr⟩ := hchild rfl
          injection htxt with htxt
          have htagarr : tag = S "array" := htarr htxt.symm
          subst htagarr
          rw [if_pos rfl] at harr
          obtain ⟨v, hattrs, hlit⟩ := harr
          subst hattrs
          simp only [minidomSerialize]
          refine ⟨?_, rfl⟩
          intro rest hr
          have hsh : ((('<' :: S "array" ++ serializeAttrs [(S "rvXMLIvarName", v)]) ++
              S "/>") ++ rest) =
              '<' :: 'a' :: 'r' :: 'r' :: 'a' :: 'y' :: ' ' ::
                ('r' :: 'v' :: 'X' :: 'M' :: 'L' :: 'I' :: 'v' :: 'a' :: 'r' :: 'N' :: 'a' ::
                  'm' :: 'e' :: '=' :: '"' :: (escAttr v ++ ('"' :: '/' :: '>' :: rest))) := by
            rw [show S "array" = 'a' :: 'r' :: 'r' :: 'a' :: 'y' :: [] from rfl,
              show S "rvXMLIvarName" = 'r' :: 'v' :: 'X' :: 'M' :: 'L' :: 'I' :: 'v' :: 'a' ::
                'r' :: 'N' :: 'a' :: 'm' :: 'e' :: [] from rfl,
              show S "/>" = ['/', '>'] from rfl]
            simp [serializeAttrs]
          rw [hsh]
          exact SafeStr.rewrite_tag _ _ _
            (matchSCA_W (escAttr v) rest (fun c hc => (escAttr_props v c hc).2.2))
            (goodW (escAttr v) (fun c hc => (escAttr_props v c hc).1)) hr

/-- `mdser_safe` for child lists. -/
theorem mdserList_safe : ∀ (L : List XNode), xmlOkList L →
    (∀ (rest : Str), SafeStr rest → SafeStr (minidomSerializeList L ++ rest)) ∧
      (∀ c, (minidomSerializeList L).head? = some c → c = '<')
  | [] => by
    intro _
    simp only [minidomSerializeList]
    refine ⟨fun rest hr => by rwa [List.nil_append], ?_⟩
    intro c h
    cases h
  | x :: xs => by
    intro h
    simp only [xmlOkList] at h
    obtain ⟨hx, hxs⟩ := h
    obtain ⟨hrec, hh⟩ := mdser_safe x hx
    obtain ⟨hrec2, hh2⟩ := mdserList_safe xs hxs
    simp only [minidomSerializeList]
    constructor
    · intro rest hr
      rw [List.append_assoc]
      exact hrec _ (hrec2 rest hr)
    · intro c hc
      rcases head?_append_cases (minidomSerialize x) (minidomSerializeList xs) with he | ⟨hnil, -⟩
      · rw [he, hh] at hc
        injection hc with hc
        exact hc.symm
      · rw [hnil] at hh
        cases hh

end

mutual

/-- `ET.tostring` output of a well-formed tree scans safely under the
self-closing-tag substitution: childless arrays — whose empty text is
falsy for ElementTree — serialize as self-closing tags with a blank
before the `/>`, which the matcher rewrites into explicit pairs; every
other position is walked without producing a `/>`.  The output starts
with `<`. -/
theorem xser_safe : ∀ (x : XNode), xmlOk x →
    (∀ (rest : Str), SafeStr rest → SafeStr (xserialize x ++ rest)) ∧
      (xserialize x).head? = some '<'
  | .elem tag attrs txt children => by
    intro hok
    simp only [xmlOk] at hok
    obtain ⟨htag1, htag, hkeys, harr, hchild, hcl⟩ := hok
    obtain ⟨hLrec, hLhead⟩ := xserList_safe children hcl
    have hmain : ∀ (T : Str), (∀ c ∈ T, c ≠ '>' ∧ c ≠ '<') → ∀ (rest : Str), SafeStr rest →
        SafeStr (((((('<' :: tag ++ serializeAttrs attrs) ++ '>' :: T) ++
          xserializeList children) ++ S "</") ++ tag ++ ['>']) ++ rest) := by
      intro T hT rest hr
      have hsh : ((((('<' :: tag ++ serializeAttrs attrs) ++ '>' :: T) ++
            xserializeList children) ++ S "</") ++ tag ++ ['>']) ++ rest =
          '<' :: (tag ++ (serializeAttrs attrs ++ ('>' :: (T ++ (xserializeList children
            ++ ('<' :: '/' :: (tag ++ ('>' :: rest)))))))) := by
        rw [show S "</" = ['<', '/'] from rfl]
        simp
      rw [hsh]
      have hmatch : matchSelfClosingArray
          ('<' :: (tag ++ (serializeAttrs attrs ++ ('>' :: (T ++ (xserializeList children
            ++ ('<' :: '/' :: (tag ++ ('>' :: rest))))))))) = none := by
        by_cases htarr : tag = S "array"
        · rw [if_pos htarr] at harr
          obtain ⟨v, hattrs, hlit⟩ := harr
          subst htarr
          subst hattrs
          have hsh2 : '<' :: (S "array" ++ (serializeAttrs [(S "rvXMLIvarName", v)] ++
              ('>' :: (T ++ (xserializeList children ++
                ('<' :: '/' :: (S "array" ++ ('>' :: rest)))))))) =
              '<' :: 'a' :: 'r' :: 'r' :: 'a' :: 'y' :: ' ' ::
                ('r' :: 'v' :: 'X' :: 'M' :: 'L' :: 'I' :: 'v' :: 'a' :: 'r' :: 'N' :: 'a' ::
                  'm' :: 'e' :: '=' :: '"' :: (escAttr v ++ ('"' :: '>' ::
                    (T ++ (xserializeList children ++
                      ('<' :: '/' :: (S "array" ++ ('>' :: rest)))))))) := by
            rw [show S "array" = 'a' :: 'r' :: 'r' :: 'a' :: 'y' :: [] from rfl,
              show S "rvXMLIvarName" = 'r' :: 'v' :: 'X' :: 'M' :: 'L' :: 'I' :: 'v' :: 'a' ::
                'r' :: 'N' :: 'a' :: 'm' :: 'e' :: [] from rfl]
            simp [serializeAttrs]
          rw [hsh2]
          exact matchSCA_arrayopen_none (escAttr v) _
            (fun c hc => ⟨(escAttr_props v c hc).2.2, (escAttr_props v c hc).1⟩) hlit
        · rw [if_neg htarr] at harr
          obtain ⟨t0, tag2, rfl⟩ : ∃ t0 tag2, tag = t0 :: tag2 := by
            cases tag with
            | nil => exact absurd rfl htag1
            | cons t0 tag2 => exact ⟨t0, tag2, rfl⟩
          apply matchSCA_none_second t0 _
          intro ht0
          apply harr
          rw [ht0]
          rfl
      exact safe_block tag (serializeAttrs attrs) T (xserializeList children) rest
        htag1 htag (fun c hc => ⟨(serializeAttrs_props attrs hkeys c hc).1,
          (serializeAttrs_props attrs hkeys c hc).2⟩)
        (serializeAttrs_last attrs) hT hLrec hLhead hmatch hr
    cases txt with
    | none =>
      cases children with
      | nil =>
        obtain ⟨t, htxt, -⟩ := hchild rfl
        cases htxt
      | cons y ys =>
        simp only [xserialize]
        exact ⟨fun rest hr => hmain [] (by simp) rest hr, rfl⟩
    | some t2 =>
      cases t2 with
      | cons c2 t3 =>
        simp only [xserialize]
        refine ⟨fun rest hr => hmain (escCdata (c2 :: t3))
          (fun c hc => ⟨(escCdata_props _ c hc).1, (escCdata_props _ c hc).2⟩) rest hr, rfl⟩
      | nil =>
        cases children with
        | cons y ys =>
          simp only [xserialize]
          exact ⟨fun rest hr => hmain [] (by simp) rest hr, rfl⟩
        | nil =>
          obtain ⟨t, htxt, htarr⟩ := hchild rfl
          injection htxt with htxt
          have htagarr : tag = S "array" := htarr htxt.symm
          subst htagarr
          rw [if_pos rfl] at harr
          obtain ⟨v, hattrs, hlit⟩ := harr
          subst hattrs
          simp only [xserialize]
          refine ⟨?_, rfl⟩
          intro rest hr
          have hsh : ((('<' :: S "array" ++ serializeAttrs [(S "rvXMLIvarName", v)]) ++
              S " />") ++ rest) =
              '<' :: 'a' :: 'r' :: 'r' :: 'a' :: 'y' :: ' ' ::
                ('r' :: 'v' :: 'X' :: 'M' :: 'L' :: 'I' :: 'v' :: 'a' :: 'r' :: 'N' :: 'a' ::
                  'm' :: 'e' :: '=' :: '"' ::
                    (escAttr v ++ ('"' :: ' ' :: '/' :: '>' :: rest))) := by
            rw [show S "array" = 'a' :: 'r' :: 'r' :: 'a' :: 'y' :: [] from rfl,
              show S "rvXMLIvarName" = 'r' :: 'v' :: 'X' :: 'M' :: 'L' :: 'I' :: 'v' :: 'a' ::
                'r' :: 'N' :: 'a' :: 'm' :: 'e' :: [] from rfl,
              show S " />" = [' ', '/', '>'] from rfl]
            simp [serializeAttrs]
          rw [hsh]
          exact SafeStr.rewrite_tag _ _ _
            (matchSCA_Wsp (escAttr v) rest (fun c hc => (escAttr_props v c hc).2.2))
            (goodW_sp (escAttr v) (fun c hc => (escAttr_props v c hc).1)) hr

/-- `xser_safe` for child lists. -/
theorem xserList_safe : ∀ (L : List XNode), xmlOkList L →
    (∀ (rest : Str), SafeStr rest → SafeStr (xserializeList L ++ rest)) ∧
      (∀ c, (xserializeList L).head? = some c → c = '<')
  | [] => by
    intro _
    simp only [xserializeList]
    refine ⟨fun rest hr => by rwa [List.nil_append], ?_⟩
    intro c h
    cases h
  | x :: xs => by
    intro h
    simp only [xmlOkList] at h
    obtain ⟨hx, hxs⟩ := h
    obtain ⟨hrec, hh⟩ := xser_safe x hx
    obtain ⟨hrec2, hh2⟩ := xserList_safe xs hxs
    simp only [xserializeList]
    constructor
    · intro rest hr
      rw [List.append_assoc]
      exact hrec _ (hrec2 rest hr)
    · intro c hc
      rcases head?_append_cases (xserialize x) (xserializeList xs) with he | ⟨hnil, -⟩
      · rw [he, hh] at hc
        injection hc with hc
        exact hc.symm
      · rw [hnil] at hh
        cases hh

end

/-- UTF-8 encoding of a nonempty string is nonempty. -/
theorem utf8Encode_ne_nil (s : Str) (h : s ≠ []) : utf8Encode s ≠ [] := by
  cases s with
  | nil => exact absurd rfl h
  | cons c t =>
    unfold utf8Encode
    rw [List.flatMap_cons]
    intro hh
    rcases List.append_eq_nil.mp hh with ⟨h1, -⟩
    unfold utf8Char at h1
    split at h1
    · cases h1
    · split at h1
      · cases h1
      · split at h1
        · cases h1
        · cases h1

/-- Base64 of a nonempty byte list is nonempty. -/
theorem b64encode_ne_nil (l : List Nat) (h : l ≠ []) : b64encode l ≠ [] := by
  match l with
  | [] => exact absurd rfl h
  | [a] => exact fun hh => by cases hh
  | [a, b] => exact fun hh => by cases hh
  | a :: b :: c :: rest => exact fun hh => by cases hh

/-- `encode_base64` of a nonempty string is nonempty. -/
theorem encodeBase64_ne_nil (t : Str) (h : t ≠ []) : encodeBase64 t ≠ [] :=
  b64encode_ne_nil _ (utf8Encode_ne_nil t h)

/-- A substitution with a nonempty pattern and nonempty replacement maps
nonempty strings to nonempty strings. -/
theorem listReplace_ne_nil (p0 : Char) (ps rep s : Str) (hr : rep ≠ []) (hs : s ≠ []) :
    listReplace (p0 :: ps) rep s ≠ [] := by
  cases s with
  | nil => exact absurd rfl hs
  | cons c t =>
    unfold listReplace
    cases hst : replaceStep (p0 :: ps) rep (c :: t) with
    | none =>
      rw [scanP_cons_nomatch _ _ _ hst]
      exact fun hh => by cases hh
    | some q =>
      obtain ⟨out, k⟩ := q
      rw [scanP_cons_match _ (replaceStep_pos p0 ps rep) _ _ _ _ hst]
      have hout : out = rep := by
        unfold replaceStep at hst
        split at hst
        · injection hst with hst
          injection hst with h1 h2
          exact h1.symm
        · cases hst
      subst hout
      intro hh
      exact hr (List.append_eq_nil.mp hh).1

/-- The pre-encoding text payload of a slide with nonempty stripped
content is nonempty. -/
theorem cleanContent_ne_nil (content : Str) (h : pyStrip content ≠ []) :
    listReplace ['\n'] ['\x0d', '\n'] (listReplace ['\x0d', '\n'] ['\n'] (pyStrip content)) ≠ [] := by
  apply listReplace_ne_nil _ _ _ _ (by decide)
  exact listReplace_ne_nil _ _ _ _ (by decide) h

/-- The text element built for a slide with nonempty stripped content is
well-formed. -/
theorem xmlOk_textElement (cfg : Option Config) (guid content : Str)
    (hc : pyStrip content ≠ []) :
    xmlOk (ensureProperArrayTags (createTextElement cfg guid content)) := by
  have hPT : encodeBase64
      (listReplace ['\n'] ['\x0d', '\n'] (listReplace ['\x0d', '\n'] ['\n'] (pyStrip content))) ≠ [] :=
    encodeBase64_ne_nil _ (cleanContent_ne_nil content hc)
  have hRTF : createRtfData cfg (pyStrip content) ≠ [] := by
    simp only [createRtfData]
    apply encodeBase64_ne_nil
    intro hh
    rcases List.append_eq_nil.mp hh with ⟨-, h2⟩
    exact absurd h2 (by decide)
  have hWF : createWinflowData cfg (pyStrip content) ≠ [] := by
    simp only [createWinflowData]
    apply encodeBase64_ne_nil
    intro hh
    rcases List.append_eq_nil.mp hh with ⟨-, h2⟩
    exact absurd h2 (by decide)
  have hWFont : createWinfontData ≠ [] := by
    intro h
    cases h
  simp +decide [createTextElement, ensureProperArrayTags, ensureProperArrayTagsList,
    xmlOk, xmlOkList, hPT, hRTF, hWF, hWFont]

/-- Slicing with chunk size zero yields no chunks (Python would raise on
`range(0, n, 0)`; the model produces an empty slide list). -/
theorem chunksOf_zero {α : Type} (l : List α) : chunksOf 0 l = [] := by
  simp [chunksOf]

/-- Joining nonempty stripped lines with newlines yields a nonempty
stripped string. -/
theorem intercalate_lines_props (L : List Str) (hL : L ≠ [])
    (h : ∀ l ∈ L, l ≠ [] ∧ pyStrip l = l) :
    List.intercalate ['\n'] L ≠ [] ∧
      pyStrip (List.intercalate ['\n'] L) = List.intercalate ['\n'] L := by
  obtain ⟨l1, rest, rfl⟩ : ∃ l1 rest, L = l1 :: rest := by
    cases L with
    | nil => exact absurd rfl hL
    | cons a t => exact ⟨a, t, rfl⟩
  have hne : List.intercalate ['\n'] (l1 :: rest) ≠ [] := by
    intro hnil
    have hh := head?_intercalate_cons '\n' l1 rest (h l1 (by simp)).1
    rw [hnil] at hh
    cases hl1 : l1 with
    | nil => exact (h l1 (by simp)).1 hl1
    | cons c t =>
      rw [hl1] at hh
      cases hh
  refine ⟨hne, ?_⟩
  apply pyStrip_eq_self
  · intro c hc
    rw [head?_intercalate_cons '\n' l1 rest (h l1 (by simp)).1] at hc
    exact pyStrip_fixed_head l1 (h l1 (by simp)).2 c hc
  · intro c hc
    obtain ⟨li, hli, hlast⟩ := getLast?_intercalate_mem '\n' (l1 :: rest)
      (fun li hli => (h li hli).1) c hc
    exact pyStrip_fixed_last li (h li hli).2 c hlast

/-- Every slide produced by `split_content_into_slides` is nonempty and
stripped (for any configuration; a zero `max_lines_per_slide` simply
produces no chunks). -/
theorem slide_props_all (cfg : Option Config) (content : Str) :
    ∀ sl ∈ splitContentIntoSlides cfg content, sl ≠ [] ∧ pyStrip sl = sl := by
  have hnl : ∀ l ∈ content.splitOn '\n', '\n' ∉ l := fun l hl =>
    sep_not_mem_splitOn '\n' content l hl
  obtain ⟨-, hprops⟩ := naturalSlides_spec (content.splitOn '\n') hnl
  intro sl hsl
  simp only [splitContentIntoSlides] at hsl
  split at hsl
  · rename_i hcond
    simp only [List.mem_singleton] at hsl
    subst hsl
    exact ⟨hcond.2, pyStrip_idem content⟩
  · obtain ⟨ns, hns, hsl2⟩ := List.mem_flatMap.mp hsl
    have hnsl : ∀ l ∈ ns.splitOn '\n', l ≠ [] ∧ pyStrip l = l :=
      fun l hl => ⟨(hprops ns hns l hl).1, (hprops ns hns l hl).2.1⟩
    by_cases hbr : cfgAutoBreak cfg = true ∧ (ns.splitOn '\n').length > cfgMaxLines cfg
    · rw [if_pos hbr] at hsl2
      obtain ⟨ch, hchm, hint⟩ := List.mem_map.mp hsl2
      cases hm : cfgMaxLines cfg with
      | zero =>
        rw [hm, chunksOf_zero] at hchm
        cases hchm
      | succ m2 =>
        rw [hm] at hchm
        obtain ⟨hne, hsub⟩ := chunksOf_mem_props (m2 + 1) (by omega) _ _ (le_refl _) ch hchm
        rw [← hint]
        exact intercalate_lines_props ch hne (fun l hl => hnsl l (hsub l hl))
    · rw [if_neg hbr] at hsl2
      simp only [List.mem_singleton] at hsl2
      subst hsl2
      have hself : List.intercalate ['\n'] (sl.splitOn '\n') = sl :=
        List.intercalate_splitOn sl '\n'
      rw [← hself]
      exact intercalate_lines_props _ (List.splitOnP_ne_nil _ _)
        (fun l hl => hnsl l hl)

/-- A slide node for nonempty stripped content is well-formed. -/
theorem xmlOk_slide (cfg : Option Config) (g1 g2 content : Str)
    (hc : pyStrip content ≠ []) :
    xmlOk (ensureProperArrayTags (createSlide cfg g1 g2 content)) := by
  have hTE := xmlOk_textElement cfg g2 content hc
  cases hCE : createTextElement cfg g2 content with
  | elem T A X C =>
    rw [hCE] at hTE
    simp +decide [createSlide, hCE, ensureProperArrayTags, ensureProperArrayTagsList,
      xmlOk, xmlOkList] at hTE ⊢
    exact hTE

/-- The list of slide nodes over indexed nonempty stripped contents is
well-formed. -/
theorem xmlOkList_slides (cfg : Option Config) (g : Nat → Str) :
    ∀ (L : List (Nat × Str)), (∀ p ∈ L, pyStrip p.2 ≠ []) →
    xmlOkList (ensureProperArrayTagsList (L.map (fun p =>
      createSlide cfg (g (1 + 2 * p.1)) (g (2 + 2 * p.1)) p.2))) := by
  intro L
  induction L with
  | nil =>
    intro _
    simp [ensureProperArrayTagsList, xmlOkList]
  | cons p ps ih =>
    intro h
    simp only [List.map_cons, ensureProperArrayTagsList, xmlOkList]
    exact ⟨xmlOk_slide cfg _ _ p.2 (h p (List.mem_cons_self _ _)),
      ih (fun q hq => h q (List.mem_cons_of_mem _ hq))⟩

/-- A slide-group node for a section with nonempty stripped content is
well-formed. -/
theorem xmlOk_slideGroup (cfg : Option Config) (g : Nat → Str) (sec : Section)
    (hsec : pyStrip sec.content ≠ []) :
    xmlOk (ensureProperArrayTags (createSlideGroup cfg g sec)) := by
  have hsl := slide_props_all cfg (pyStrip sec.content)
  have hmap : ∀ p ∈ (splitContentIntoSlides cfg (pyStrip sec.content)).enum,
      pyStrip p.2 ≠ [] := by
    intro p hp
    obtain ⟨i, sl⟩ := p
    have hmem : sl ∈ splitContentIntoSlides cfg (pyStrip sec.content) :=
      List.get?_mem (List.mk_mem_enum_iff_get?.mp hp)
    obtain ⟨h1, h2⟩ := hsl sl hmem
    rw [h2]
    exact h1
  have hlist := xmlOkList_slides cfg g _ hmap
  have hnil : ∀ (L : List XNode), ensureProperArrayTagsList L = [] → L = [] := by
    intro L hL
    cases L with
    | nil => rfl
    | cons a t => simp [ensureProperArrayTagsList] at hL
  simp +decide [createSlideGroup, ensureProperArrayTags, ensureProperArrayTagsList,
    xmlOk, xmlOkList, hsec, hlist]
  intro h
  have hX := hnil _ h
  cases hsp : splitContentIntoSlides cfg (pyStrip sec.content) with
  | nil => rfl
  | cons a t =>
    rw [hsp] at hX
    simp [List.enum] at hX

/-- The list of slide-group nodes over indexed sections with nonempty
stripped content is well-formed. -/
theorem xmlOkList_groups (cfg : Option Config) (g : Nat → Str) :
    ∀ (L : List (Nat × Section)), (∀ p ∈ L, pyStrip p.2.content ≠ []) →
    xmlOkList (ensureProperArrayTagsList (L.map (fun p =>
      createSlideGroup cfg (fun n => g (Nat.pair p.1 n)) p.2))) := by
  intro L
  induction L with
  | nil =>
    intro _
    simp [ensureProperArrayTagsList, xmlOkList]
  | cons p ps ih =>
    intro h
    simp only [List.map_cons, ensureProperArrayTagsList, xmlOkList]
    exact ⟨xmlOk_slideGroup cfg _ p.2 (h p (List.mem_cons_self _ _)),
      ih (fun q hq => h q (List.mem_cons_of_mem _ hq))⟩

/-- The whole generated document tree, after the empty-array fix, is
well-formed — for every song, section list and configuration. -/
theorem xmlOk_doc (cfg : Option Config) (song : SongData) (sections : List Section)
    (now : Str) (g : Nat → Str) :
    xmlOk (ensureProperArrayTags (createPro6Document cfg song sections now g)) := by
  have hmem : ∀ p ∈ (sections.filter (fun s => pyStrip s.content ≠ [])).enum,
      pyStrip p.2.content ≠ [] := by
    intro p hp
    obtain ⟨i, sec⟩ := p
    have hmem2 : sec ∈ sections.filter (fun s => pyStrip s.content ≠ []) :=
      List.get?_mem (List.mk_mem_enum_iff_get?.mp hp)
    have h3 := List.of_mem_filter hmem2
    simpa using h3
  have hlist := xmlOkList_groups cfg g _ hmem
  have hnil : ∀ (L : List XNode), ensureProperArrayTagsList L = [] → L = [] := by
    intro L hL
    cases L with
    | nil => rfl
    | cons a t => simp [ensureProperArrayTagsList] at hL
  simp only [ne_eq, decide_not] at hlist
  simp +decide [createPro6Document, ensureProperArrayTags, ensureProperArrayTagsList,
    xmlOk, xmlOkList, hlist]
  intro h a ha
  have hX := hnil _ h
  have hmapnil : (List.filter (fun s => !decide (pyStrip s.content = [])) sections).enum = [] := by
    cases hsp : (List.filter (fun s => !decide (pyStrip s.content = [])) sections).enum with
    | nil => rfl
    | cons q t =>
      rw [hsp] at hX
      simp at hX
  have hfil : List.filter (fun s => !decide (pyStrip s.content = [])) sections = [] := by
    cases hf : List.filter (fun s => !decide (pyStrip s.content = [])) sections with
    | nil => rfl
    | cons q t =>
      rw [hf] at hmapnil
      simp [List.enum] at hmapnil
  have h4 := List.filter_eq_nil_iff.mp hfil a ha
  simpa using h4

/-- C6: self-closing tag rewrite.  Both emitted document strings — the
`ET.tostring` serialization with the array fix applied before
pretty-printing (`exportXmlBeforePretty`) and the final pretty-printed
file content with the fix applied again after pretty-printing
(`exportXmlFinal`) — contain no self-closing shorthand at all: the
two-character sequence `/>` never occurs, so every element, including
every empty `array` container, appears with explicit open and close
tags, for every song, section list and configuration.  (`ET.tostring`
does emit self-closing `<array … />` tags, since the empty text added by
`ensure_proper_array_tags` is falsy for ElementTree's serializer; the
regex substitution rewrites every one of them.) -/
theorem self_closing_rewrite (cfg : Option Config) (song : SongData)
    (sections : List Section) (now : Str) (g : Nat → Str) :
    ¬ pairInfix '/' '>' (exportXmlBeforePretty cfg song sections now g) ∧
    ¬ pairInfix '/' '>' (exportXmlFinal cfg song sections now g) := by
  have hok := xmlOk_doc cfg song sections now g
  constructor
  · obtain ⟨hrec, -⟩ := xser_safe _ hok
    have hb : SafeStr (xserialize (ensureProperArrayTags
        (createPro6Document cfg song sections now g))) := by
      have h2 := hrec [] SafeStr.nil
      rwa [List.append_nil] at h2
    unfold exportXmlBeforePretty fixSelfClosingTags
    exact fixAux_good _ _ hb (le_refl _)
  · obtain ⟨hrec, hh⟩ := mdser_safe _ hok
    have hb : SafeStr (minidomSerialize (ensureProperArrayTags
        (createPro6Document cfg song sections now g))) := by
      have h2 := hrec [] SafeStr.nil
      rwa [List.append_nil] at h2
    have hn1 : SafeStr ('\n' :: minidomSerialize (ensureProperArrayTags
        (createPro6Document cfg song sections now g))) := by
      have h3 := safeStr_plain ['\n'] _ (by decide)
        (by rintro ⟨hl, -⟩; exact absurd hl (by decide)) hb
      exact h3
    have hn2 : SafeStr ('>' :: '\n' :: minidomSerialize (ensureProperArrayTags
        (createPro6Document cfg song sections now g))) := safeStr_gt _ hn1
    have hn3 := safeStr_plain
      ['?', 'x', 'm', 'l', ' ', 'v', 'e', 'r', 's', 'i', 'o', 'n', '=', '"', '1', '.', '0',
        '"', ' ', 'e', 'n', 'c', 'o', 'd', 'i', 'n', 'g', '=', '"', 'u', 't', 'f', '-', '8',
        '"', '?'] _ (by decide)
      (by rintro ⟨hl, -⟩; exact absurd hl (by decide)) hn2
    have hn4 : SafeStr ('<' ::
        (['?', 'x', 'm', 'l', ' ', 'v', 'e', 'r', 's', 'i', 'o', 'n', '=', '"', '1', '.', '0',
          '"', ' ', 'e', 'n', 'c', 'o', 'd', 'i', 'n', 'g', '=', '"', 'u', 't', 'f', '-', '8',
          '"', '?'] ++ ('>' :: '\n' :: minidomSerialize (ensureProperArrayTags
            (createPro6Document cfg song sections now g))))) :=
      SafeStr.skip '<' _ (matchSCA_none_second '?' _ (by decide))
        (by rintro ⟨hc, -⟩; exact absurd hc (by decide)) hn3
    unfold exportXmlFinal fixSelfClosingTags minidomPretty
    exact fixAux_good _ _ hn4 (le_refl _)
